import Mathlib

/-!
# iarglib: a shallow embedding of the command-line option parser

The development follows `include/iarglib.hpp`.

* `std::string` is `String`; `std::vector<T>` is `List T` (`push_back` appends at the end).
* `std::unordered_map<std::string, V>` is `UMap V`, the list of its entries in the order in
  which a range-`for` visits them.  The C++ standard leaves that order unspecified, so the
  place at which a *new* key enters the order is an explicit `slot` argument of every
  operation that can create a key.
* `(argc, argv)` is the list `argv` of the tokens, `argc` being its length.
* A function pointer `void (*)(const IArger&)` is a `Maybe Func`: `none` is a pointer that does
  not hold the address of a function (left unassigned, or null).
* `parse()` returns a `Result`: the parser state it leaves behind, the sequence of functions
  it has called, and how it ended (`return`, `throw std::runtime_error`, or a call through a
  pointer that holds no function).  The state is kept for a `parse()` that throws as well:
  the caller of `main.cpp` catches the exception and could go on querying the parser.
* The functions called receive the parser by `const` reference; they are taken to return
  without changing it, and each call is recorded in the trace.
-/

/-- The standard option type, under a name that stays visible next to `iarglib.Option`. -/
abbrev Maybe (α : Type) : Type := Option α

namespace iarglib

/-! ## Data model -/

/-- Enum for specifying whether an option requires arguments or not. -/
inductive RequiresArg
  | No
  | Yes
  deriving DecidableEq, Repr

/-- The functions whose address is stored in `Option::func`: the two built-in printers of the
library and the functions of the hosting program, told apart by their name. -/
inductive Func
  | printHelp
  | printVersion
  | user (name : String)
  deriving DecidableEq, Repr

/-- Struct for storing information about an option. -/
structure Option where
  name : String
  identifiers : List String
  description : String
  requiresArg : RequiresArg
  func : Maybe Func
  argument : String
  deriving DecidableEq, Repr

/-- A value-initialised `Option`, as `operator[]` of the map creates it for an absent key:
empty strings, the enumerator of value zero, a null function pointer. -/
def Option.valueInit : Option :=
  { name := "", identifiers := [], description := "", requiresArg := RequiresArg.No,
    func := none, argument := "" }

/-- The entries of a `std::unordered_map<std::string, V>`, in iteration order. -/
abbrev UMap (V : Type) : Type := List (String × V)

/-- Member `find` of the map: the value stored under `k`, `none` standing for `end()`. -/
def UMap.find {V : Type} : UMap V → String → Maybe V
  | [], _ => none
  | (k', v) :: rest, k => if k' = k then some v else UMap.find rest k

/-- Assignment `m[k] = v`: an existing key keeps its place in the iteration order, a new key
enters the order at `slot`. -/
def UMap.assign {V : Type} (m : UMap V) (k : String) (v : V) (slot : Nat) : UMap V :=
  match m.find k with
  | some _ => m.map (fun e => if e.1 = k then (k, v) else e)
  | none => m.take slot ++ (k, v) :: m.drop slot

/-- Read access `m[k]`: the value under `k`, after creating the key with the value-initialised
`dflt` when it is absent.  Returns the map and the value referred to. -/
def UMap.subscript {V : Type} (m : UMap V) (k : String) (dflt : V) (slot : Nat) : UMap V × V :=
  match m.find k with
  | some v => (m, v)
  | none => (m.take slot ++ (k, dflt) :: m.drop slot, dflt)

/-- Member `at` of the map: fails (`std::out_of_range`) on an absent key. -/
def UMap.at {V : Type} (m : UMap V) (k : String) : Except String V :=
  match m.find k with
  | some v => Except.ok v
  | none => Except.error "std::out_of_range"

/-- The parser object.  The field defaults are the member initialisers of the class. -/
structure IArger where
  argv : List String
  usingAutoHelp : Bool := false
  usingAutoVersion : Bool := false
  continueOnHelp : Bool := true
  continueOnVersion : Bool := true
  appName : String := ""
  version : String := ""
  options : UMap Option := []
  allOptions : List String := []
  eventOptions : List String := []
  passedOptions : List String := []
  triggerEvents : List (Maybe Func) := []
  identifiersToNames : UMap String := []
  deriving DecidableEq, Repr

/-- Arg count: the number of tokens of `argv`. -/
def IArger.argc (s : IArger) : Nat := s.argv.length

/-- Construct the IArger object with the command line arguments. -/
def IArger.new (argv : List String) : IArger := { argv := argv }

/-! ## Splitting the identifier spec -/

/-- The `for` loop of `split`: `str` is the not yet emitted rest of the string and `i` the
index under examination.  After a delimiter the rest is cut off and `i` is reset to `0`; the
increment of the loop header then makes it `1`. -/
def splitLoop (delimiter : Char) (tokens : List String) (str : List Char) (i : Nat) :
    List String :=
  if h : i < str.length then
    if str[i] = delimiter then
      splitLoop delimiter (tokens ++ [String.mk (str.take i)]) (str.drop (i + 1)) (0 + 1)
    else
      splitLoop delimiter tokens str (i + 1)
  else
    tokens ++ [String.mk str]
termination_by str.length - i
decreasing_by
  all_goals simp_wf
  all_goals omega

/-- Function to split a string by a delimiter. -/
def split (str : String) (delimiter : Char) : List String :=
  splitLoop delimiter [] str.data 0

/-! ## Registration -/

/-- Set the application name. -/
def IArger.setAppName (s : IArger) (appName : String) : IArger :=
  { s with appName := appName }

/-- Add a manual option to watch for.  The local `Option option;` is default-initialised, so
its `func` is never assigned: it holds no function. -/
def IArger.addOption (s : IArger) (optionName identifiers helpMessage : String)
    (requiresArgs : RequiresArg) (slot : Nat) : IArger :=
  let identifierList := split identifiers '|'
  let option : Option :=
    { name := optionName, identifiers := identifierList, description := helpMessage,
      requiresArg := requiresArgs, func := none, argument := "" }
  { s with
    options := s.options.assign optionName option slot
    allOptions := s.allOptions ++ [optionName] }

/-- Add a manual option to watch for, and execute the specified function when the option is
passed in. -/
def IArger.addOptionEvent (s : IArger) (optionName identifier helpMessage : String)
    (requiresArgs : RequiresArg) (eventFunction : Func) (slot : Nat) : IArger :=
  let identifierList := split identifier '|'
  let option : Option :=
    { name := optionName, identifiers := identifierList, description := helpMessage,
      requiresArg := requiresArgs, func := some eventFunction, argument := "" }
  { s with
    options := s.options.assign optionName option slot
    allOptions := s.allOptions ++ [optionName]
    eventOptions := s.eventOptions ++ [optionName] }

/-- Add a help option.  The `helpMessage` parameter is not used by the body. -/
def IArger.addHelpOption (s : IArger) (_helpMessage : String) (slot : Nat) : IArger :=
  IArger.addOptionEvent { s with usingAutoHelp := true }
    "help" "-h|--help" "Display this help message" RequiresArg.No Func.printHelp slot

/-- Set the version of the app, and add the version option. -/
def IArger.addVersionOption (s : IArger) (version : String) (slot : Nat) : IArger :=
  let s1 := IArger.addOptionEvent { s with usingAutoVersion := true }
    "version" "-v|--version" "Display the version of this application" RequiresArg.No
    Func.printVersion slot
  { s1 with version := version }

/-- Set if the program should continue executing after displaying help info. -/
def IArger.setContinueOnHelp (s : IArger) (continueOnHelp : Bool) : IArger :=
  { s with continueOnHelp := continueOnHelp }

/-- Set if the program should continue executing after displaying version info. -/
def IArger.setContinueOnVersion (s : IArger) (continueOnVersion : Bool) : IArger :=
  { s with continueOnVersion := continueOnVersion }

/-! ## Parsing -/

/-- How a call of `parse()` ends. -/
inductive Outcome
  | returned (value : Bool)
  | thrown (what : String)
  | undefined
  deriving DecidableEq, Repr

/-- What a call of `parse()` leaves behind: the state of the parser, the functions called so
far in call order, and the way the call ended. -/
structure Result where
  state : IArger
  trace : List Func
  outcome : Outcome
  deriving DecidableEq, Repr

/-- MAPPING STAGE: run through and map all option identifiers to their names.  Keys of
`identifiersToNames` are only ever looked up, so new keys are put at the end. -/
def mappingStage (s : IArger) : IArger :=
  { s with
    identifiersToNames :=
      s.options.foldl
        (fun m option =>
          option.2.identifiers.foldl (fun m identifier => m.assign identifier option.1 m.length) m)
        s.identifiersToNames }

/-- TRIGGERING STAGE: run through each queued event and call it.  A call through a pointer
that holds no function has no defined behaviour. -/
def triggeringStage (s : IArger) (tr : List Func) : List (Maybe Func) → Result
  | [] => { state := s, trace := tr, outcome := Outcome.returned true }
  | some event :: rest => triggeringStage s (tr ++ [event]) rest
  | none :: _ => { state := s, trace := tr, outcome := Outcome.undefined }

/-- The end of one iteration of the parsing loop: if the option has an event, add it to the
list of events to trigger at the end. -/
def enqueueEvent (s : IArger) (optionName : String) (optionData : Option) : IArger :=
  if s.eventOptions.count optionName ≠ 0 then
    { s with triggerEvents := s.triggerEvents ++ [optionData.func] }
  else s

/-- What one iteration of the parsing loop does: go on with the loop at a later index, or
leave `parse()` by `return` or `throw`. -/
inductive Step
  | next (s : IArger) (tr : List Func) (op : Nat)
  | exit (r : Result)
  deriving DecidableEq, Repr

/-- The message of the exception for an unknown token. -/
def invalidOption (option : String) : String := "Invalid option: " ++ option

/-- The message of the exception for an option left without its argument. -/
def requiresAnArgument (optionName : String) : String :=
  "Option " ++ optionName ++ " requires an argument."

/-- The two statements `passedOptions.push_back(optionName);` and
`Option& optionData = options[optionName];`, as far as they change the parser. -/
def IArger.recordOption (s : IArger) (optionName : String) : IArger :=
  { s with
    passedOptions := s.passedOptions ++ [optionName]
    options := (s.options.subscript optionName Option.valueInit 0).1 }

/-- The option that the reference `optionData` of the loop body refers to. -/
def IArger.optionData (s : IArger) (optionName : String) : Option :=
  (s.options.subscript optionName Option.valueInit 0).2

/-- The assignment `optionData.argument = argv[op];` through the reference into the map. -/
def IArger.storeArgument (s : IArger) (optionName : String) (optionData : Option)
    (argument : String) : IArger :=
  { s with options := s.options.assign optionName { optionData with argument := argument } 0 }

/-- The call `printHelp(*this)` of the block "if the option is help". -/
def callHelp (s : IArger) (optionName : String) (tr : List Func) : List Func :=
  if optionName = "help" ∧ s.usingAutoHelp = true then tr ++ [Func.printHelp] else tr

/-- The call `printVersion(*this)` of the block "if the option is version". -/
def callVersion (s : IArger) (optionName : String) (tr : List Func) : List Func :=
  if optionName = "version" ∧ s.usingAutoVersion = true then tr ++ [Func.printVersion] else tr

/-- The body of the `while (op < argc)` loop of `parse()`, for the token at index `op`.
`tr` is the sequence of calls made so far. -/
def parseToken (s : IArger) (tr : List Func) (op : Nat) (h : op < s.argv.length) : Step :=
  -- Get the option.
  let option := s.argv[op]
  -- Get option's name from its identifier. If it's not an identifier, it's invalid.
  match s.identifiersToNames.find option with
  | none =>
    Step.exit { state := s, trace := tr, outcome := Outcome.thrown (invalidOption option) }
  | some optionName =>
    -- Add option name to passedOptions, get the option from the map.
    let s1 := s.recordOption optionName
    let optionData := s.optionData optionName
    -- If the option is help
    let tr1 := callHelp s optionName tr
    if optionName = "help" ∧ s.usingAutoHelp = true ∧ s.continueOnHelp = false then
      Step.exit { state := s1, trace := tr1, outcome := Outcome.returned false }
    else
      -- If the option is version
      let tr2 := callVersion s optionName tr1
      if optionName = "version" ∧ s.usingAutoVersion = true ∧ s.continueOnVersion = false then
        Step.exit { state := s1, trace := tr2, outcome := Outcome.returned false }
      else if optionData.requiresArg = RequiresArg.Yes then
        -- If the option requires an argument, get the argument.
        if h1 : op + 1 < s.argv.length then
          let argument := s.argv[op + 1]
          let s2 := s1.storeArgument optionName optionData argument
          if argument = "" then
            Step.exit { state := s2, trace := tr2,
                        outcome := Outcome.thrown (requiresAnArgument optionName) }
          else if s.allOptions.count argument ≠ 0 then
            Step.exit { state := s2, trace := tr2,
                        outcome := Outcome.thrown (requiresAnArgument optionName) }
          else
            Step.next
              (enqueueEvent s2 optionName { optionData with argument := argument }) tr2
              (op + 1 + 1)
        else
          Step.exit { state := s1, trace := tr2,
                      outcome := Outcome.thrown (requiresAnArgument optionName) }
      else
        Step.next (enqueueEvent s1 optionName optionData) tr2 (op + 1)

/-- PARSING STAGE and TRIGGERING STAGE: the `while (op < argc)` loop of `parse()`, followed by
the triggering stage when the loop runs to its end. -/
def parsingStage (s : IArger) (tr : List Func) (op : Nat) : Result :=
  if h : op < s.argv.length then
    match hs : parseToken s tr op h with
    | Step.exit r => r
    | Step.next s' tr' op' => parsingStage s' tr' op'
  else
    triggeringStage s tr s.triggerEvents
termination_by s.argv.length - op
decreasing_by
  have h2 : s'.argv = s.argv ∧ op < op' := by
    unfold parseToken at hs
    cases hf : s.identifiersToNames.find s.argv[op] with
    | none => simp only [hf] at hs; cases hs
    | some n =>
      simp only [hf] at hs
      split_ifs at hs
      all_goals cases hs
      all_goals refine ⟨?_, by omega⟩
      all_goals unfold enqueueEvent
      all_goals split
      all_goals rfl
  rw [h2.1]
  omega

/-- Parse the command line arguments. This is where events are triggered.
Returns true if the program should continue executing, false if it should exit. -/
def IArger.parse (s : IArger) : Result :=
  parsingStage (mappingStage s) [] 1

/-! ## Queries -/

/-- Get the names of all passed in options. -/
def IArger.getPassedOptions (s : IArger) : List String := s.passedOptions

/-- Get all valid options. -/
def IArger.getAllOptions (s : IArger) : List String := s.allOptions

/-- Check if a specific option was passed in. -/
def IArger.optionExists (s : IArger) (optionName : String) : Bool :=
  decide (s.passedOptions.count optionName > 0)

/-- Get the value of a specific option. -/
def IArger.getOptionArgument (s : IArger) (optionName : String) : Except String String :=
  (s.options.at optionName).map (fun o => o.argument)

/-- Get app name. -/
def IArger.getAppName (s : IArger) : String := s.appName

/-- Get app version. -/
def IArger.getAppVersion (s : IArger) : String := s.version

/-! ## The example program of `main.cpp` -/

/-- The registrations of `setupOptions`; `slot` places each new key. -/
def setupOptions (arger : IArger) (slot : Nat) : IArger :=
  let a := arger.setAppName "IArgLib Example Application"
  let a := a.addHelpOption
    "This IArgLib example shows how to use the IArger class to parse command line arguments." slot
  let a := a.addVersionOption "1.0.0" slot
  let a := a.setContinueOnHelp false
  let a := a.setContinueOnVersion false
  let a := a.addOption "file" "-f|--file" "Example option - The file to read" RequiresArg.Yes slot
  let a := a.addOption "output" "-o|--output" "Example option - The file to write" RequiresArg.Yes slot
  let a := a.addOption "size" "-S|--size" "Example option - The size of the output file"
    RequiresArg.Yes slot
  let a := a.addOption "read" "-r|--read" "Example option - Read the file" RequiresArg.No slot
  a.addOptionEvent "do-something" "-d|--do-something"
    "Example option - An example of an event option" RequiresArg.No (Func.user "exampleDoSomething")
    slot

/-! ## Notions used to state and prove the properties -/

/-- A fresh parser: `parse()` has not been called on it, so nothing is recorded, nothing is
queued and the reverse index is empty.  Every parser built by the constructor and the
registration operations is fresh. -/
def IArger.Fresh (s : IArger) : Prop :=
  s.passedOptions = [] ∧ s.triggerEvents = [] ∧ s.identifiersToNames = []

/-- The option name that the reverse index built by `parse()` holds for a token. -/
def IArger.resolve (s : IArger) (token : String) : Maybe String :=
  (mappingStage s).identifiersToNames.find token

/-- Whether a token resolves, in the reverse index of `s`, to an option that is registered as
requiring an argument. -/
def IArger.takesArgument (s : IArger) (token : String) : Bool :=
  match s.identifiersToNames.find token with
  | some n =>
    match s.options.find n with
    | some o => decide (o.requiresArg = RequiresArg.Yes)
    | none => false
  | none => false

/-- The option positions among the tokens that start at index `op`: the index `op` of the
first token is an option position, and the next option position is the index after it, or
the one after that when the token takes the following token as its argument. -/
def positionsFrom (takes : String → Bool) : Nat → List String → List Nat
  | _, [] => []
  | op, [_] => [op]
  | op, t :: a :: rest =>
    if takes t then op :: positionsFrom takes (op + 2) rest
    else op :: positionsFrom takes (op + 1) (a :: rest)

/-- The option positions of the argument vector: index 1 and every later index that is not
the argument of the option before it. -/
def IArger.optionPositions (s : IArger) : List Nat :=
  positionsFrom (mappingStage s).takesArgument 1 (s.argv.drop 1)

/-- The option names that the tokens at the option positions resolve to, left to right. -/
def IArger.matchedNames (s : IArger) : List (Maybe String) :=
  s.optionPositions.map (fun i => (s.argv[i]?).bind s.resolve)

/-- The scan of the argument vector of `s0` arrives at index `op`, with the parser in state `s`
and the calls `tr` made: it starts at index 1 after the mapping stage and goes on through
every iteration that neither throws nor returns. -/
inductive Reaches (s0 : IArger) : IArger → List Func → Nat → Prop
  | start : Reaches s0 (mappingStage s0) [] 1
  | step {s : IArger} {tr : List Func} {op : Nat} {s' : IArger} {tr' : List Func} {op' : Nat}
      (h : op < s.argv.length) :
      Reaches s0 s tr op → parseToken s tr op h = Step.next s' tr' op' → Reaches s0 s' tr' op'

/-- The owner of a token after the mapping stage has run over the entries `opts` in their
order: the key of the last entry that lists the token among its identifiers. -/
def lastOwner : UMap Option → String → Maybe String
  | [], _ => none
  | (k, o) :: rest, t =>
    match lastOwner rest t with
    | some k' => some k'
    | none => if t ∈ o.identifiers then some k else none

/-- Every name held by the reverse index is a key of the registry. -/
def IArger.KeysOK (s : IArger) : Prop :=
  ∀ t n, s.identifiersToNames.find t = some n → ∃ o, s.options.find n = some o

/-- The iteration leaves `parse()` by the help short-circuit. -/
def helpStop (s : IArger) (n : String) : Prop :=
  n = "help" ∧ s.usingAutoHelp = true ∧ s.continueOnHelp = false

/-- The iteration leaves `parse()` by the version short-circuit. -/
def versionStop (s : IArger) (n : String) : Prop :=
  n = "version" ∧ s.usingAutoVersion = true ∧ s.continueOnVersion = false

/-- What an iteration that goes on has done: `n` is the name the token resolved to and `o` the
option registered under it. -/
structure NextFacts (s : IArger) (tr : List Func) (op : Nat) (s' : IArger) (tr' : List Func)
    (op' : Nat) (n : String) (o : Option) : Prop where
  inBounds : op < s.argv.length
  token : (s.argv[op]?).bind s.identifiersToNames.find = some n
  registered : s.options.find n = some o
  noHelpStop : ¬ helpStop s n
  noVersionStop : ¬ versionStop s n
  argv : s'.argv = s.argv
  identifiersToNames : s'.identifiersToNames = s.identifiersToNames
  allOptions : s'.allOptions = s.allOptions
  eventOptions : s'.eventOptions = s.eventOptions
  usingAutoHelp : s'.usingAutoHelp = s.usingAutoHelp
  usingAutoVersion : s'.usingAutoVersion = s.usingAutoVersion
  continueOnHelp : s'.continueOnHelp = s.continueOnHelp
  continueOnVersion : s'.continueOnVersion = s.continueOnVersion
  passedOptions : s'.passedOptions = s.passedOptions ++ [n]
  triggerEvents :
    s'.triggerEvents = s.triggerEvents ++ (if s.eventOptions.count n ≠ 0 then [o.func] else [])
  trace : tr' = callVersion s n (callHelp s n tr)
  step :
    (o.requiresArg ≠ RequiresArg.Yes ∧ op' = op + 1 ∧ s'.options = s.options) ∨
    (o.requiresArg = RequiresArg.Yes ∧ op' = op + 2 ∧
      ∃ a, s.argv[op + 1]? = some a ∧ a ≠ "" ∧ s.allOptions.count a = 0 ∧
        s'.options = s.options.assign n { o with argument := a } 0)

/-- What the parsing loop never changes. -/
structure SameSetup (s s' : IArger) : Prop where
  argv : s'.argv = s.argv
  identifiersToNames : s'.identifiersToNames = s.identifiersToNames
  allOptions : s'.allOptions = s.allOptions
  eventOptions : s'.eventOptions = s.eventOptions
  usingAutoHelp : s'.usingAutoHelp = s.usingAutoHelp
  usingAutoVersion : s'.usingAutoVersion = s.usingAutoVersion
  continueOnHelp : s'.continueOnHelp = s.continueOnHelp
  continueOnVersion : s'.continueOnVersion = s.continueOnVersion
  declared : ∀ k, (s'.options.find k).map (fun x => { x with argument := "" }) =
    (s.options.find k).map (fun x => { x with argument := "" })

/-- Calls of the two built-in printers only. -/
def BuiltinOnly (tr : List Func) : Prop :=
  ∀ f ∈ tr, f = Func.printHelp ∨ f = Func.printVersion

/-- The parser with its argument vector replaced. -/
def IArger.withArgv (s : IArger) (a : List String) : IArger := { s with argv := a }

/-- A result, with the argument vector of its state replaced. -/
def Result.withArgv (r : Result) (a : List String) : Result :=
  { r with state := r.state.withArgv a }

/-- A step, with the argument vector of its state replaced. -/
def Step.withArgv (st : Step) (a : List String) : Step :=
  match st with
  | Step.next s tr op => Step.next (s.withArgv a) tr op
  | Step.exit r => Step.exit (r.withArgv a)

/-- What the parsing loop never changes, whatever the state it starts from. -/
structure SameConfig (s s' : IArger) : Prop where
  argv : s'.argv = s.argv
  identifiersToNames : s'.identifiersToNames = s.identifiersToNames
  allOptions : s'.allOptions = s.allOptions
  eventOptions : s'.eventOptions = s.eventOptions
  usingAutoHelp : s'.usingAutoHelp = s.usingAutoHelp
  usingAutoVersion : s'.usingAutoVersion = s.usingAutoVersion
  continueOnHelp : s'.continueOnHelp = s.continueOnHelp
  continueOnVersion : s'.continueOnVersion = s.continueOnVersion

/-- The option name that the reverse index of `s` gives the token at index `i`. -/
def IArger.tokenName (s : IArger) (i : Nat) : Maybe String :=
  (s.argv[i]?).bind s.identifiersToNames.find

/-- The function stored with the option registered under `n`. -/
def IArger.funcOf (s : IArger) (n : String) : Maybe Func :=
  (s.options.find n).bind (fun o => o.func)

/-- Whether `n` is in the list of options that have events. -/
def IArger.isEvent (s : IArger) (n : String) : Bool :=
  decide (s.eventOptions.count n ≠ 0)

/-- The registrations of the scenarios: `file` (`-f|--file`, requires an argument) and `read`
(`-r|--read`, no argument), on the argument vector `argv`. -/
def fileRead (argv : List String) : IArger :=
  ((IArger.new argv).addOption "file" "-f|--file" "The file to read" RequiresArg.Yes 0).addOption
    "read" "-r|--read" "Read the file" RequiresArg.No 0

/-- No token follows index `op` that `parse()` takes as an argument: there is none, or it is
empty, or it is the name of a registered option. -/
def IArger.noArgumentAfter (s : IArger) (op : Nat) : Prop :=
  s.argv[op + 1]? = none ∨ s.argv[op + 1]? = some "" ∨
    ∃ a, s.argv[op + 1]? = some a ∧ a ∈ s.allOptions

/-- A registry in which the name `help` of the built-in option is registered again, as an
option that requires an argument, with the short-circuit on help switched on. -/
def helpWithArgument (argv : List String) : IArger :=
  (((IArger.new argv).addHelpOption "" 0).setContinueOnHelp false).addOption
    "help" "-h" "Help on a topic" RequiresArg.Yes 0

/-- The registration of the scenario with an event option: `notify` (`-n`, no argument), whose
callback is the function `notify` of the hosting program. -/
def notifyOnly (argv : List String) : IArger :=
  (IArger.new argv).addOptionEvent "notify" "-n" "Count a notification" RequiresArg.No
    (Func.user "notify") 0

/-- The registration of the scenario with the built-in help option and continue-on-help set
to false. -/
def helpOnly (argv : List String) : IArger :=
  ((IArger.new argv).addHelpOption "Usage" 0).setContinueOnHelp false

/-- The option `file` of the scenarios, as registered. -/
def fileOption : Option :=
  { name := "file", identifiers := ["-f", "--file"], description := "The file to read",
    requiresArg := RequiresArg.Yes, func := none, argument := "" }

/-- The built-in help option with the default flags: continue-on-help is true. -/
def helpDefault (argv : List String) : IArger :=
  (IArger.new argv).addHelpOption "Usage" 0

/-- The built-in version option with the default flags: continue-on-version is true. -/
def versionDefault (argv : List String) : IArger :=
  (IArger.new argv).addVersionOption "1.0.0" 0

/-- The registration of `notify` with a callback, followed by a second registration of the
same name without one. -/
def notifyTwice (argv : List String) : IArger :=
  ((IArger.new argv).addOptionEvent "notify" "-n" "Count a notification" RequiresArg.No
    (Func.user "notify") 0).addOption "notify" "-n" "Count a notification" RequiresArg.No 0

/-- A parser as the hosting program builds it before it calls `parse()`: the constructor,
followed by registrations and settings in any order. -/
inductive Built : IArger → Prop
  | new (argv : List String) : Built (IArger.new argv)
  | setAppName {s : IArger} (appName : String) : Built s → Built (s.setAppName appName)
  | addOption {s : IArger} (optionName identifiers helpMessage : String)
      (requiresArgs : RequiresArg) (slot : Nat) :
      Built s → Built (s.addOption optionName identifiers helpMessage requiresArgs slot)
  | addOptionEvent {s : IArger} (optionName identifier helpMessage : String)
      (requiresArgs : RequiresArg) (eventFunction : Func) (slot : Nat) :
      Built s →
      Built (s.addOptionEvent optionName identifier helpMessage requiresArgs eventFunction slot)
  | addHelpOption {s : IArger} (helpMessage : String) (slot : Nat) :
      Built s → Built (s.addHelpOption helpMessage slot)
  | addVersionOption {s : IArger} (version : String) (slot : Nat) :
      Built s → Built (s.addVersionOption version slot)
  | setContinueOnHelp {s : IArger} (b : Bool) : Built s → Built (s.setContinueOnHelp b)
  | setContinueOnVersion {s : IArger} (b : Bool) : Built s → Built (s.setContinueOnVersion b)

/-- The keys of the registry are pairwise different, as the keys of a map are. -/
def IArger.UniqueKeys (s : IArger) : Prop := (s.options.map Prod.fst).Nodup

/-- What holds of every parser built by the hosting program before `parse()`. -/
structure BuiltFacts (s : IArger) : Prop where
  fresh : s.Fresh
  unique : s.UniqueKeys
  keys : ∀ k, k ∈ s.allOptions ↔ s.options.find k ≠ none
  entries : ∀ k o, (k, o) ∈ s.options → o.argument = "" ∧ o.identifiers ≠ [] ∧ o.name = k

/-- An entry of the registry with the argument slot of its option emptied: what a registration
has declared. -/
def shapeEntry (e : String × Option) : String × Option := (e.1, { e.2 with argument := "" })

/-- What `parse()` leaves of a parser `s` in the state `s'`: the configuration, the keys of the
registry and what is declared about every option are the same, names have only been appended
to `passedOptions`, and an argument slot has changed only for an option that requires an
argument and whose name is among the appended names. -/
structure Frame (s s' : IArger) : Prop where
  config : SameConfig s s'
  keys : s'.options.map Prod.fst = s.options.map Prod.fst
  declared : ∀ k, (s'.options.find k).map (fun x => { x with argument := "" }) =
    (s.options.find k).map (fun x => { x with argument := "" })
  shape : s.UniqueKeys → s'.options.map shapeEntry = s.options.map shapeEntry
  recorded : ∃ more, s'.passedOptions = s.passedOptions ++ more ∧
    ∀ k o o', s.options.find k = some o → s'.options.find k = some o' →
      o'.argument ≠ o.argument → o.requiresArg = RequiresArg.Yes ∧ k ∈ more

/-- The calls that the loop body makes inline for a token that resolves to `n`. -/
def inlineCalls (s : IArger) (n : String) : List Func :=
  callVersion s n (callHelp s n [])

/-- The option `read` of the scenarios, as registered. -/
def readOption : Option :=
  { name := "read", identifiers := ["-r", "--read"], description := "Read the file",
    requiresArg := RequiresArg.No, func := none, argument := "" }

/-- Two options that share the identifier `-x`: `first` is registered before `second`, each at
the place `slot1`, `slot2` of the iteration order of the registry. -/
def sharedIdentifier (argv : List String) (slot1 slot2 : Nat) : IArger :=
  ((IArger.new argv).addOption "first" "-x" "Registered first" RequiresArg.No slot1).addOption
    "second" "-x" "Registered second" RequiresArg.No slot2

/-- The option `first` as `addOptionEvent` registers it with the callback `notify`. -/
def firstOption : Option :=
  { name := "first", identifiers := ["-x"], description := "Registered first",
    requiresArg := RequiresArg.No, func := some (Func.user "notify"), argument := "" }

/-! ## Lemmas on the map operations and the mapping stage -/

@[simp] theorem UMap.find_nil {V : Type} (k : String) : UMap.find ([] : UMap V) k = none := rfl

theorem UMap.find_cons {V : Type} (a : String) (b : V) (rest : UMap V) (k : String) :
    UMap.find ((a, b) :: rest) k = if a = k then some b else UMap.find rest k := rfl

theorem UMap.find_replace {V : Type} (m : UMap V) (k : String) (v : V) (k' : String) :
    UMap.find (m.map (fun e => if e.1 = k then (k, v) else e)) k' =
      if k = k' then (m.find k).map (fun _ => v) else m.find k' := by
  induction m with
  | nil => simp
  | cons e rest ih =>
    obtain ⟨a, b⟩ := e
    rw [List.map_cons]
    by_cases hak : a = k
    · subst hak
      rw [if_pos rfl, UMap.find_cons, UMap.find_cons, UMap.find_cons, ih]
      by_cases hkk : a = k'
      · simp [hkk]
      · simp [hkk]
    · rw [if_neg hak, UMap.find_cons, UMap.find_cons, UMap.find_cons, ih, if_neg hak]
      by_cases hkk : k = k'
      · subst hkk; simp [hak]
      · simp [hkk]

theorem UMap.find_insert {V : Type} (m : UMap V) (k : String) (v : V) (slot : Nat) (k' : String)
    (hk : m.find k = none) :
    UMap.find (m.take slot ++ (k, v) :: m.drop slot) k' =
      if k = k' then some v else m.find k' := by
  induction m generalizing slot with
  | nil => simp [UMap.find_cons]
  | cons e rest ih =>
    obtain ⟨a, b⟩ := e
    rw [UMap.find_cons] at hk
    have hak : ¬ a = k := by
      intro h; rw [if_pos h] at hk; cases hk
    rw [if_neg hak] at hk
    cases slot with
    | zero => simp [UMap.find_cons]
    | succ n =>
      rw [List.take_succ_cons, List.drop_succ_cons, List.cons_append, UMap.find_cons,
        UMap.find_cons, ih n hk]
      by_cases hkk : k = k'
      · subst hkk; simp [hak]
      · simp [hkk]

/-- After `m[k] = v` the map holds `v` under `k` and what it held before under every other key,
wherever the new key entered the iteration order. -/
theorem UMap.find_assign {V : Type} (m : UMap V) (k : String) (v : V) (slot : Nat) (k' : String) :
    (m.assign k v slot).find k' = if k = k' then some v else m.find k' := by
  unfold UMap.assign
  cases hk : m.find k with
  | none => exact UMap.find_insert m k v slot k' hk
  | some w =>
    simp only
    rw [UMap.find_replace, hk]
    rfl

theorem UMap.subscript_of_find {V : Type} {m : UMap V} {k : String} {v : V} (dflt : V) (slot : Nat)
    (hk : m.find k = some v) : m.subscript k dflt slot = (m, v) := by
  simp [UMap.subscript, hk]

theorem UMap.find_of_mem {V : Type} {m : UMap V} {k : String} {v : V} (h : (k, v) ∈ m) :
    ∃ w, m.find k = some w := by
  induction m with
  | nil => cases h
  | cons e rest ih =>
    obtain ⟨a, b⟩ := e
    rw [UMap.find_cons]
    by_cases hak : a = k
    · exact ⟨b, by rw [if_pos hak]⟩
    · rw [if_neg hak]
      rcases List.mem_cons.mp h with h1 | h1
      · cases h1; exact absurd rfl hak
      · exact ih h1

theorem fresh_new (argv : List String) : (IArger.new argv).Fresh := ⟨rfl, rfl, rfl⟩

theorem fresh_addOption {s : IArger} (hf : s.Fresh) (optionName identifiers helpMessage : String)
    (requiresArgs : RequiresArg) (slot : Nat) :
    (s.addOption optionName identifiers helpMessage requiresArgs slot).Fresh := hf

theorem fresh_addOptionEvent {s : IArger} (hf : s.Fresh)
    (optionName identifier helpMessage : String) (requiresArgs : RequiresArg)
    (eventFunction : Func) (slot : Nat) :
    (s.addOptionEvent optionName identifier helpMessage requiresArgs eventFunction slot).Fresh :=
  hf

theorem fresh_addHelpOption {s : IArger} (hf : s.Fresh) (helpMessage : String) (slot : Nat) :
    (s.addHelpOption helpMessage slot).Fresh := hf

theorem fresh_addVersionOption {s : IArger} (hf : s.Fresh) (version : String) (slot : Nat) :
    (s.addVersionOption version slot).Fresh := hf

theorem fresh_setContinueOnHelp {s : IArger} (hf : s.Fresh) (b : Bool) :
    (s.setContinueOnHelp b).Fresh := hf

theorem fresh_setContinueOnVersion {s : IArger} (hf : s.Fresh) (b : Bool) :
    (s.setContinueOnVersion b).Fresh := hf

theorem fresh_setAppName {s : IArger} (hf : s.Fresh) (appName : String) :
    (s.setAppName appName).Fresh := hf

theorem find_foldl_identifiers (ids : List String) (k : String) (m : UMap String) (t : String) :
    UMap.find (ids.foldl (fun m identifier => m.assign identifier k m.length) m) t =
      if t ∈ ids then some k else m.find t := by
  induction ids generalizing m with
  | nil => simp
  | cons id rest ih =>
    rw [List.foldl_cons, ih, UMap.find_assign]
    by_cases h1 : t ∈ rest
    · simp [h1]
    · by_cases h2 : id = t
      · subst h2; simp
      · have h3 : ¬ t = id := fun h => h2 h.symm
        simp [h1, h2, h3]

theorem find_foldl_options (opts : UMap Option) (m : UMap String) (t : String) :
    UMap.find
        (opts.foldl
          (fun m option =>
            option.2.identifiers.foldl (fun m identifier => m.assign identifier option.1 m.length) m)
          m) t =
      match lastOwner opts t with
      | some k => some k
      | none => m.find t := by
  induction opts generalizing m with
  | nil => simp [lastOwner]
  | cons e rest ih =>
    obtain ⟨k, o⟩ := e
    rw [List.foldl_cons, ih]
    simp only [lastOwner]
    cases hl : lastOwner rest t with
    | some k' => rfl
    | none =>
      simp only
      rw [find_foldl_identifiers]
      by_cases h1 : t ∈ o.identifiers
      · simp [h1]
      · simp [h1]

/-- On a fresh parser the reverse index gives a token the key of the last entry, in
iteration order, that lists it. -/
theorem resolve_eq_lastOwner {s : IArger} (hf : s.Fresh) (t : String) :
    s.resolve t = lastOwner s.options t := by
  unfold IArger.resolve mappingStage
  simp only
  rw [find_foldl_options, hf.2.2]
  cases lastOwner s.options t <;> rfl

theorem lastOwner_some {opts : UMap Option} {t k : String} (h : lastOwner opts t = some k) :
    ∃ o, (k, o) ∈ opts ∧ t ∈ o.identifiers := by
  induction opts with
  | nil => cases h
  | cons e rest ih =>
    obtain ⟨a, o⟩ := e
    simp only [lastOwner] at h
    cases hl : lastOwner rest t with
    | some k' =>
      rw [hl] at h
      cases h
      obtain ⟨o', h1, h2⟩ := ih hl
      exact ⟨o', List.mem_cons_of_mem _ h1, h2⟩
    | none =>
      rw [hl] at h
      simp only at h
      by_cases h1 : t ∈ o.identifiers
      · rw [if_pos h1] at h
        cases h
        exact ⟨o, List.mem_cons_self _ _, h1⟩
      · rw [if_neg h1] at h
        cases h

theorem lastOwner_none {opts : UMap Option} {t : String} :
    lastOwner opts t = none ↔ ∀ k o, (k, o) ∈ opts → t ∉ o.identifiers := by
  induction opts with
  | nil => simp [lastOwner]
  | cons e rest ih =>
    obtain ⟨a, o⟩ := e
    simp only [lastOwner]
    cases hl : lastOwner rest t with
    | some k' =>
      simp only [false_iff, reduceCtorEq]
      intro hall
      obtain ⟨o', h1, h2⟩ := lastOwner_some hl
      exact hall k' o' (List.mem_cons_of_mem _ h1) h2
    | none =>
      simp only
      have hr := ih.mp hl
      by_cases h1 : t ∈ o.identifiers
      · rw [if_pos h1]
        simp only [false_iff, reduceCtorEq]
        intro hall
        exact hall a o (List.mem_cons_self _ _) h1
      · rw [if_neg h1]
        simp only [true_iff]
        intro k o' hm
        rcases List.mem_cons.mp hm with h2 | h2
        · cases h2; exact h1
        · exact hr k o' h2

/-- A token listed by entries of one key only is owned by that key. -/
theorem lastOwner_unshared {opts : UMap Option} {t k : String} {o : Option}
    (hm : (k, o) ∈ opts) (ht : t ∈ o.identifiers)
    (hu : ∀ k' o', (k', o') ∈ opts → t ∈ o'.identifiers → k' = k) :
    lastOwner opts t = some k := by
  cases hl : lastOwner opts t with
  | none => exact absurd ht (lastOwner_none.mp hl k o hm)
  | some k' =>
    obtain ⟨o', h1, h2⟩ := lastOwner_some hl
    rw [hu k' o' h1 h2]

/-- After the mapping stage of a fresh parser every name in the reverse index is a key of the
registry. -/
theorem keysOK_mappingStage {s : IArger} (hf : s.Fresh) : (mappingStage s).KeysOK := by
  intro t n h
  have h1 : s.resolve t = some n := h
  rw [resolve_eq_lastOwner hf] at h1
  obtain ⟨o, h2, -⟩ := lastOwner_some h1
  exact UMap.find_of_mem h2

/-! ## One iteration of the parsing loop -/

@[simp] theorem enqueueEvent_argv (s : IArger) (n : String) (o : Option) :
    (enqueueEvent s n o).argv = s.argv := by
  unfold enqueueEvent; split <;> rfl

@[simp] theorem enqueueEvent_options (s : IArger) (n : String) (o : Option) :
    (enqueueEvent s n o).options = s.options := by
  unfold enqueueEvent; split <;> rfl

@[simp] theorem enqueueEvent_passedOptions (s : IArger) (n : String) (o : Option) :
    (enqueueEvent s n o).passedOptions = s.passedOptions := by
  unfold enqueueEvent; split <;> rfl

@[simp] theorem enqueueEvent_identifiersToNames (s : IArger) (n : String) (o : Option) :
    (enqueueEvent s n o).identifiersToNames = s.identifiersToNames := by
  unfold enqueueEvent; split <;> rfl

@[simp] theorem enqueueEvent_allOptions (s : IArger) (n : String) (o : Option) :
    (enqueueEvent s n o).allOptions = s.allOptions := by
  unfold enqueueEvent; split <;> rfl

@[simp] theorem enqueueEvent_eventOptions (s : IArger) (n : String) (o : Option) :
    (enqueueEvent s n o).eventOptions = s.eventOptions := by
  unfold enqueueEvent; split <;> rfl

@[simp] theorem enqueueEvent_usingAutoHelp (s : IArger) (n : String) (o : Option) :
    (enqueueEvent s n o).usingAutoHelp = s.usingAutoHelp := by
  unfold enqueueEvent; split <;> rfl

@[simp] theorem enqueueEvent_usingAutoVersion (s : IArger) (n : String) (o : Option) :
    (enqueueEvent s n o).usingAutoVersion = s.usingAutoVersion := by
  unfold enqueueEvent; split <;> rfl

@[simp] theorem enqueueEvent_continueOnHelp (s : IArger) (n : String) (o : Option) :
    (enqueueEvent s n o).continueOnHelp = s.continueOnHelp := by
  unfold enqueueEvent; split <;> rfl

@[simp] theorem enqueueEvent_continueOnVersion (s : IArger) (n : String) (o : Option) :
    (enqueueEvent s n o).continueOnVersion = s.continueOnVersion := by
  unfold enqueueEvent; split <;> rfl

theorem enqueueEvent_triggerEvents (s : IArger) (n : String) (o : Option) :
    (enqueueEvent s n o).triggerEvents =
      s.triggerEvents ++ (if s.eventOptions.count n ≠ 0 then [o.func] else []) := by
  unfold enqueueEvent; split <;> simp

/-- An iteration that goes on leaves `argv` alone and moves `op` forward. -/
theorem parseToken_next_argv {s : IArger} {tr : List Func} {op : Nat} {h : op < s.argv.length}
    {s' : IArger} {tr' : List Func} {op' : Nat}
    (hs : parseToken s tr op h = Step.next s' tr' op') : s'.argv = s.argv ∧ op < op' := by
  unfold parseToken at hs
  cases hf : s.identifiersToNames.find s.argv[op] with
  | none => simp only [hf] at hs; cases hs
  | some n =>
    simp only [hf] at hs
    split_ifs at hs
    all_goals cases hs
    all_goals exact ⟨by simp [IArger.storeArgument, IArger.recordOption], by omega⟩

theorem parseToken_unknown {s : IArger} {tr : List Func} {op : Nat} (h : op < s.argv.length)
    (hf : s.identifiersToNames.find s.argv[op] = none) :
    parseToken s tr op h =
      Step.exit { state := s, trace := tr, outcome := Outcome.thrown (invalidOption s.argv[op]) } := by
  unfold parseToken
  simp only [hf]

theorem parseToken_helpStop {s : IArger} {tr : List Func} {op : Nat} (h : op < s.argv.length)
    {n : String} (hf : s.identifiersToNames.find s.argv[op] = some n) (hh : helpStop s n) :
    parseToken s tr op h =
      Step.exit { state := s.recordOption n, trace := callHelp s n tr,
                  outcome := Outcome.returned false } := by
  unfold helpStop at hh
  unfold parseToken
  simp only [hf]
  rw [if_pos hh]

theorem parseToken_versionStop {s : IArger} {tr : List Func} {op : Nat} (h : op < s.argv.length)
    {n : String} (hf : s.identifiersToNames.find s.argv[op] = some n) (hh : ¬ helpStop s n)
    (hv : versionStop s n) :
    parseToken s tr op h =
      Step.exit { state := s.recordOption n, trace := callVersion s n (callHelp s n tr),
                  outcome := Outcome.returned false } := by
  unfold helpStop versionStop at *
  unfold parseToken
  simp only [hf]
  rw [if_neg hh, if_pos hv]

theorem parseToken_plain {s : IArger} {tr : List Func} {op : Nat} (h : op < s.argv.length)
    {n : String} (hf : s.identifiersToNames.find s.argv[op] = some n) (hh : ¬ helpStop s n)
    (hv : ¬ versionStop s n) (hr : (s.optionData n).requiresArg ≠ RequiresArg.Yes) :
    parseToken s tr op h =
      Step.next (enqueueEvent (s.recordOption n) n (s.optionData n))
        (callVersion s n (callHelp s n tr)) (op + 1) := by
  unfold helpStop versionStop at *
  unfold parseToken
  simp only [hf]
  rw [if_neg hh, if_neg hv, if_neg hr]

theorem parseToken_noToken {s : IArger} {tr : List Func} {op : Nat} (h : op < s.argv.length)
    {n : String} (hf : s.identifiersToNames.find s.argv[op] = some n) (hh : ¬ helpStop s n)
    (hv : ¬ versionStop s n) (hr : (s.optionData n).requiresArg = RequiresArg.Yes)
    (h1 : ¬ op + 1 < s.argv.length) :
    parseToken s tr op h =
      Step.exit { state := s.recordOption n, trace := callVersion s n (callHelp s n tr),
                  outcome := Outcome.thrown (requiresAnArgument n) } := by
  unfold helpStop versionStop at *
  unfold parseToken
  simp only [hf]
  rw [if_neg hh, if_neg hv, if_pos hr, dif_neg h1]

theorem parseToken_badToken {s : IArger} {tr : List Func} {op : Nat} (h : op < s.argv.length)
    {n : String} (hf : s.identifiersToNames.find s.argv[op] = some n) (hh : ¬ helpStop s n)
    (hv : ¬ versionStop s n) (hr : (s.optionData n).requiresArg = RequiresArg.Yes)
    (h1 : op + 1 < s.argv.length)
    (hb : s.argv[op + 1] = "" ∨ s.allOptions.count s.argv[op + 1] ≠ 0) :
    parseToken s tr op h =
      Step.exit { state := (s.recordOption n).storeArgument n (s.optionData n) s.argv[op + 1],
                  trace := callVersion s n (callHelp s n tr),
                  outcome := Outcome.thrown (requiresAnArgument n) } := by
  unfold helpStop versionStop at *
  unfold parseToken
  simp only [hf]
  rw [if_neg hh, if_neg hv, if_pos hr, dif_pos h1]
  by_cases he : s.argv[op + 1] = ""
  · simp only [he, if_true]
  · rcases hb with hb | hb
    · exact absurd hb he
    · simp only [he, if_false, hb, ne_eq, not_false_eq_true, if_true]

theorem parseToken_argument {s : IArger} {tr : List Func} {op : Nat} (h : op < s.argv.length)
    {n : String} (hf : s.identifiersToNames.find s.argv[op] = some n) (hh : ¬ helpStop s n)
    (hv : ¬ versionStop s n) (hr : (s.optionData n).requiresArg = RequiresArg.Yes)
    (h1 : op + 1 < s.argv.length)
    (he : s.argv[op + 1] ≠ "") (hc : s.allOptions.count s.argv[op + 1] = 0) :
    parseToken s tr op h =
      Step.next
        (enqueueEvent ((s.recordOption n).storeArgument n (s.optionData n) s.argv[op + 1]) n
          { s.optionData n with argument := s.argv[op + 1] })
        (callVersion s n (callHelp s n tr)) (op + 1 + 1) := by
  unfold helpStop versionStop at *
  unfold parseToken
  simp only [hf]
  rw [if_neg hh, if_neg hv, if_pos hr, dif_pos h1]
  simp only [he, if_false, hc, ne_eq, not_true_eq_false]

theorem optionData_of_find {s : IArger} {n : String} {o : Option} (h : s.options.find n = some o) :
    s.optionData n = o := by
  simp [IArger.optionData, UMap.subscript, h]

theorem recordOption_of_find {s : IArger} {n : String} {o : Option}
    (h : s.options.find n = some o) :
    s.recordOption n = { s with passedOptions := s.passedOptions ++ [n] } := by
  simp [IArger.recordOption, UMap.subscript, h]

/-- Inversion of an iteration that goes on. -/
theorem parseToken_next {s : IArger} {tr : List Func} {op : Nat} {h : op < s.argv.length}
    {s' : IArger} {tr' : List Func} {op' : Nat}
    (hs : parseToken s tr op h = Step.next s' tr' op') (hk : s.KeysOK) :
    ∃ n o, NextFacts s tr op s' tr' op' n o := by
  cases hf : s.identifiersToNames.find s.argv[op] with
  | none => rw [parseToken_unknown h hf] at hs; cases hs
  | some n =>
    obtain ⟨o, ho⟩ := hk _ _ hf
    have hod := optionData_of_find ho
    have hro := recordOption_of_find ho
    have htok : (s.argv[op]?).bind s.identifiersToNames.find = some n := by
      rw [List.getElem?_eq_getElem h]; exact hf
    by_cases hh : helpStop s n
    · rw [parseToken_helpStop h hf hh] at hs; cases hs
    by_cases hv : versionStop s n
    · rw [parseToken_versionStop h hf hh hv] at hs; cases hs
    by_cases hr : (s.optionData n).requiresArg = RequiresArg.Yes
    · by_cases h1 : op + 1 < s.argv.length
      · by_cases hb : s.argv[op + 1] = "" ∨ s.allOptions.count s.argv[op + 1] ≠ 0
        · rw [parseToken_badToken h hf hh hv hr h1 hb] at hs; cases hs
        · have he : s.argv[op + 1] ≠ "" := fun e => hb (Or.inl e)
          have hc : s.allOptions.count s.argv[op + 1] = 0 := by
            by_contra e; exact hb (Or.inr e)
          rw [parseToken_argument h hf hh hv hr h1 he hc] at hs
          cases hs
          rw [hod] at hr
          refine ⟨n, o, ?_⟩
          constructor
          all_goals first
            | assumption
            | exact Or.inr ⟨hr, rfl, s.argv[op + 1], List.getElem?_eq_getElem h1, he, hc,
                by simp [IArger.storeArgument, hro, hod]⟩
            | simp [IArger.storeArgument, hro, hod, enqueueEvent_triggerEvents]
      · rw [parseToken_noToken h hf hh hv hr h1] at hs; cases hs
    · rw [parseToken_plain h hf hh hv hr] at hs
      cases hs
      rw [hod] at hr
      refine ⟨n, o, ?_⟩
      constructor
      all_goals first
        | assumption
        | exact Or.inl ⟨hr, rfl, by simp [hro]⟩
        | simp [hro, hod, enqueueEvent_triggerEvents]

/-- An iteration leaves `parse()` only by throwing or by returning false. -/
theorem parseToken_exit {s : IArger} {tr : List Func} {op : Nat} {h : op < s.argv.length}
    {r : Result} (hs : parseToken s tr op h = Step.exit r) :
    (s.identifiersToNames.find s.argv[op] = none ∧ r.state = s ∧ r.trace = tr ∧
      r.outcome = Outcome.thrown (invalidOption s.argv[op])) ∨
    ∃ n, s.identifiersToNames.find s.argv[op] = some n ∧
      r.state.passedOptions = s.passedOptions ++ [n] ∧
      ((helpStop s n ∧ r.trace = callHelp s n tr ∧ r.outcome = Outcome.returned false) ∨
       (¬ helpStop s n ∧ versionStop s n ∧ r.trace = callVersion s n (callHelp s n tr) ∧
          r.outcome = Outcome.returned false) ∨
       (¬ helpStop s n ∧ ¬ versionStop s n ∧
          (s.optionData n).requiresArg = RequiresArg.Yes ∧
          r.trace = callVersion s n (callHelp s n tr) ∧
          r.outcome = Outcome.thrown (requiresAnArgument n) ∧
          (s.argv[op + 1]? = none ∨ s.argv[op + 1]? = some "" ∨
            ∃ a, s.argv[op + 1]? = some a ∧ s.allOptions.count a ≠ 0))) := by
  cases hf : s.identifiersToNames.find s.argv[op] with
  | none =>
    rw [parseToken_unknown h hf] at hs; cases hs
    exact Or.inl ⟨rfl, rfl, rfl, rfl⟩
  | some n =>
    right
    refine ⟨n, rfl, ?_⟩
    by_cases hh : helpStop s n
    · rw [parseToken_helpStop h hf hh] at hs; cases hs
      exact ⟨by simp [IArger.recordOption], Or.inl ⟨hh, rfl, rfl⟩⟩
    by_cases hv : versionStop s n
    · rw [parseToken_versionStop h hf hh hv] at hs; cases hs
      exact ⟨by simp [IArger.recordOption], Or.inr (Or.inl ⟨hh, hv, rfl, rfl⟩)⟩
    by_cases hr : (s.optionData n).requiresArg = RequiresArg.Yes
    · by_cases h1 : op + 1 < s.argv.length
      · by_cases hb : s.argv[op + 1] = "" ∨ s.allOptions.count s.argv[op + 1] ≠ 0
        · rw [parseToken_badToken h hf hh hv hr h1 hb] at hs; cases hs
          refine ⟨by simp [IArger.recordOption, IArger.storeArgument],
            Or.inr (Or.inr ⟨hh, hv, hr, rfl, rfl, Or.inr ?_⟩)⟩
          rw [List.getElem?_eq_getElem h1]
          rcases hb with hb | hb
          · exact Or.inl (by rw [hb])
          · exact Or.inr ⟨_, rfl, hb⟩
        · have he : s.argv[op + 1] ≠ "" := fun e => hb (Or.inl e)
          have hc : s.allOptions.count s.argv[op + 1] = 0 := by
            by_contra e; exact hb (Or.inr e)
          rw [parseToken_argument h hf hh hv hr h1 he hc] at hs
          cases hs
      · rw [parseToken_noToken h hf hh hv hr h1] at hs; cases hs
        refine ⟨by simp [IArger.recordOption],
          Or.inr (Or.inr ⟨hh, hv, hr, rfl, rfl, Or.inl ?_⟩)⟩
        exact List.getElem?_eq_none (by omega)
    · rw [parseToken_plain h hf hh hv hr] at hs
      cases hs

/-! ## The loop and the triggering stage -/

theorem parsingStage_exit {s : IArger} {tr : List Func} {op : Nat} {h : op < s.argv.length}
    {r : Result} (hs : parseToken s tr op h = Step.exit r) : parsingStage s tr op = r := by
  rw [parsingStage, dif_pos h]
  split
  · rename_i r' h'
    rw [hs] at h'
    cases h'
    rfl
  · rename_i s' tr' op' h'
    rw [hs] at h'
    cases h'

theorem parsingStage_next {s : IArger} {tr : List Func} {op : Nat} {h : op < s.argv.length}
    {s' : IArger} {tr' : List Func} {op' : Nat}
    (hs : parseToken s tr op h = Step.next s' tr' op') :
    parsingStage s tr op = parsingStage s' tr' op' := by
  rw [parsingStage, dif_pos h]
  split
  · rename_i r' h'
    rw [hs] at h'
    cases h'
  · rename_i s'' tr'' op'' h'
    rw [hs] at h'
    cases h'
    rfl

theorem parsingStage_done {s : IArger} {tr : List Func} {op : Nat} (h : ¬ op < s.argv.length) :
    parsingStage s tr op = triggeringStage s tr s.triggerEvents := by
  rw [parsingStage, dif_neg h]

/-- The triggering stage never throws and leaves the parser as it is. -/
theorem triggeringStage_state (s : IArger) (tr : List Func) (q : List (Maybe Func)) :
    (triggeringStage s tr q).state = s := by
  induction q generalizing tr with
  | nil => rfl
  | cons e rest ih =>
    cases e with
    | none => rfl
    | some f => exact ih _

theorem triggeringStage_outcome (s : IArger) (tr : List Func) (q : List (Maybe Func)) :
    (triggeringStage s tr q).outcome = Outcome.returned true ∨
      (triggeringStage s tr q).outcome = Outcome.undefined := by
  induction q generalizing tr with
  | nil => exact Or.inl rfl
  | cons e rest ih =>
    cases e with
    | none => exact Or.inr rfl
    | some f => exact ih _

/-- When the triggering stage returns, it has called every queued function, in queue order,
after the calls made before it. -/
theorem triggeringStage_returned {s : IArger} {tr : List Func} {q : List (Maybe Func)}
    (h : (triggeringStage s tr q).outcome = Outcome.returned true) :
    ∃ fs : List Func, q = fs.map some ∧ (triggeringStage s tr q).trace = tr ++ fs := by
  induction q generalizing tr with
  | nil => exact ⟨[], rfl, by simp [triggeringStage]⟩
  | cons e rest ih =>
    cases e with
    | none => simp [triggeringStage] at h
    | some f =>
      obtain ⟨fs, h1, h2⟩ := @ih (tr ++ [f]) h
      refine ⟨f :: fs, by rw [h1]; rfl, ?_⟩
      show (triggeringStage s (tr ++ [f]) rest).trace = _
      rw [h2]
      simp

/-- The triggering stage on a queue of proper functions. -/
theorem triggeringStage_map_some (s : IArger) (tr : List Func) (fs : List Func) :
    triggeringStage s tr (fs.map some) =
      { state := s, trace := tr ++ fs, outcome := Outcome.returned true } := by
  induction fs generalizing tr with
  | nil => simp [triggeringStage]
  | cons f rest ih =>
    show triggeringStage s (tr ++ [f]) (rest.map some) = _
    rw [ih]
    simp

theorem keysOK_next {s : IArger} {tr : List Func} {op : Nat} {s' : IArger} {tr' : List Func}
    {op' : Nat} {n : String} {o : Option} (hn : NextFacts s tr op s' tr' op' n o)
    (hk : s.KeysOK) : s'.KeysOK := by
  intro t m hm
  rw [hn.identifiersToNames] at hm
  obtain ⟨o', ho'⟩ := hk t m hm
  rcases hn.step with ⟨-, -, h3⟩ | ⟨-, -, a, -, -, -, h3⟩
  · rw [h3]; exact ⟨o', ho'⟩
  · rw [h3, UMap.find_assign]
    by_cases hnm : n = m
    · rw [if_pos hnm]; exact ⟨_, rfl⟩
    · rw [if_neg hnm]; exact ⟨o', ho'⟩

/-- An iteration does not change what is registered about an option, apart from the argument
slot. -/
theorem find_options_next {s : IArger} {tr : List Func} {op : Nat} {s' : IArger} {tr' : List Func}
    {op' : Nat} {n : String} {o : Option} (hn : NextFacts s tr op s' tr' op' n o) (k : String) :
    (s'.options.find k).map (fun x => { x with argument := "" }) =
      (s.options.find k).map (fun x => { x with argument := "" }) := by
  rcases hn.step with ⟨-, -, h3⟩ | ⟨-, -, a, -, -, -, h3⟩
  · rw [h3]
  · rw [h3, UMap.find_assign]
    by_cases hnk : n = k
    · subst hnk
      rw [if_pos rfl, hn.registered]
      rfl
    · rw [if_neg hnk]

theorem requiresArg_next {s : IArger} {tr : List Func} {op : Nat} {s' : IArger} {tr' : List Func}
    {op' : Nat} {n : String} {o : Option} (hn : NextFacts s tr op s' tr' op' n o) (k : String) :
    (s'.options.find k).map (fun x => x.requiresArg) =
      (s.options.find k).map (fun x => x.requiresArg) := by
  have h := congrArg (fun x : Maybe Option => x.map (fun y => y.requiresArg))
    (find_options_next hn k)
  simpa [Option.map_map, Function.comp_def] using h

theorem func_next {s : IArger} {tr : List Func} {op : Nat} {s' : IArger} {tr' : List Func}
    {op' : Nat} {n : String} {o : Option} (hn : NextFacts s tr op s' tr' op' n o) (k : String) :
    (s'.options.find k).map (fun x => x.func) = (s.options.find k).map (fun x => x.func) := by
  have h := congrArg (fun x : Maybe Option => x.map (fun y => y.func))
    (find_options_next hn k)
  simpa [Option.map_map, Function.comp_def] using h

theorem takesArgument_eq_map (s : IArger) (t : String) :
    s.takesArgument t =
      decide ((s.identifiersToNames.find t).bind
        (fun n => (s.options.find n).map (fun x => x.requiresArg)) = some RequiresArg.Yes) := by
  unfold IArger.takesArgument
  cases h1 : s.identifiersToNames.find t with
  | none => simp
  | some n =>
    cases h2 : s.options.find n with
    | none => simp [h2]
    | some o => simp [h2]

theorem takesArgument_next {s : IArger} {tr : List Func} {op : Nat} {s' : IArger}
    {tr' : List Func} {op' : Nat} {n : String} {o : Option}
    (hn : NextFacts s tr op s' tr' op' n o) : s'.takesArgument = s.takesArgument := by
  funext t
  rw [takesArgument_eq_map, takesArgument_eq_map, hn.identifiersToNames]
  have h : (fun k => (s'.options.find k).map (fun x => x.requiresArg)) =
      (fun k => (s.options.find k).map (fun x => x.requiresArg)) :=
    funext (requiresArg_next hn)
  rw [h]

/-! ## Runs of the loop and the scan arriving at an index -/

/-- Induction over a run of the loop from a state whose reverse index is sound: what holds of
the triggering stage at the end of the vector, of every way an iteration leaves `parse()`, and
is carried backwards over an iteration that goes on, holds of the run. -/
theorem run_induction (P : IArger → List Func → Nat → Result → Prop)
    (done : ∀ s tr op, s.KeysOK → ¬ op < s.argv.length →
      P s tr op (triggeringStage s tr s.triggerEvents))
    (exit : ∀ s tr op (h : op < s.argv.length) r, s.KeysOK →
      parseToken s tr op h = Step.exit r → P s tr op r)
    (next : ∀ s tr op (h : op < s.argv.length) s' tr' op' n o r, s.KeysOK → s'.KeysOK →
      parseToken s tr op h = Step.next s' tr' op' → NextFacts s tr op s' tr' op' n o →
      P s' tr' op' r → P s tr op r) :
    ∀ s tr op, s.KeysOK → P s tr op (parsingStage s tr op) := by
  intro s tr op
  induction s, tr, op using parsingStage.induct with
  | case1 s tr op h r hs =>
    intro hk
    rw [parsingStage_exit hs]
    exact exit s tr op h r hk hs
  | case2 s tr op h s' tr' op' hs ih =>
    intro hk
    obtain ⟨n, o, hn⟩ := parseToken_next hs hk
    have hk' := keysOK_next hn hk
    rw [parsingStage_next hs]
    exact next s tr op h s' tr' op' n o _ hk hk' hs hn (ih hk')
  | case3 s tr op h =>
    intro hk
    rw [parsingStage_done h]
    exact done s tr op hk h

theorem parseToken_exit_outcome {s : IArger} {tr : List Func} {op : Nat} {h : op < s.argv.length}
    {r : Result} (hs : parseToken s tr op h = Step.exit r) :
    r.outcome ≠ Outcome.returned true ∧ r.outcome ≠ Outcome.undefined := by
  rcases parseToken_exit hs with ⟨-, -, -, h4⟩ | ⟨n, -, -, h3⟩
  · rw [h4]; exact ⟨by simp, by simp⟩
  · rcases h3 with ⟨-, -, h4⟩ | ⟨-, -, -, h4⟩ | ⟨-, -, -, -, h4, -⟩
    all_goals rw [h4]
    all_goals exact ⟨by simp, by simp⟩

/-- Induction over a run of the loop that returns true. -/
theorem success_induction (P : IArger → List Func → Nat → Result → Prop)
    (done : ∀ s tr op, s.KeysOK → ¬ op < s.argv.length →
      (triggeringStage s tr s.triggerEvents).outcome = Outcome.returned true →
      P s tr op (triggeringStage s tr s.triggerEvents))
    (next : ∀ s tr op (h : op < s.argv.length) s' tr' op' n o r, s.KeysOK → s'.KeysOK →
      parseToken s tr op h = Step.next s' tr' op' → NextFacts s tr op s' tr' op' n o →
      r.outcome = Outcome.returned true → P s' tr' op' r → P s tr op r) :
    ∀ s tr op, s.KeysOK → (parsingStage s tr op).outcome = Outcome.returned true →
      P s tr op (parsingStage s tr op) := by
  intro s tr op hk
  refine run_induction (fun s tr op r => r.outcome = Outcome.returned true → P s tr op r)
    ?_ ?_ ?_ s tr op hk
  · intro s tr op hk h ho
    exact done s tr op hk h ho
  · intro s tr op h r _ hs ho
    exact absurd ho (parseToken_exit_outcome hs).1
  · intro s tr op h s' tr' op' n o r hk hk' hs hn ih ho
    exact next s tr op h s' tr' op' n o r hk hk' hs hn ho (ih ho)

theorem reaches_parse {s0 s : IArger} {tr : List Func} {op : Nat} (hr : Reaches s0 s tr op) :
    s0.parse = parsingStage s tr op := by
  induction hr with
  | start => rfl
  | step h _ hs ih => rw [ih, parsingStage_next hs]

theorem sameSetup_refl (s : IArger) : SameSetup s s :=
  ⟨rfl, rfl, rfl, rfl, rfl, rfl, rfl, rfl, fun _ => rfl⟩

theorem sameSetup_trans {s s' s'' : IArger} (h1 : SameSetup s s') (h2 : SameSetup s' s'') :
    SameSetup s s'' :=
  ⟨h2.argv.trans h1.argv, h2.identifiersToNames.trans h1.identifiersToNames,
   h2.allOptions.trans h1.allOptions, h2.eventOptions.trans h1.eventOptions,
   h2.usingAutoHelp.trans h1.usingAutoHelp, h2.usingAutoVersion.trans h1.usingAutoVersion,
   h2.continueOnHelp.trans h1.continueOnHelp, h2.continueOnVersion.trans h1.continueOnVersion,
   fun k => (h2.declared k).trans (h1.declared k)⟩

theorem sameSetup_of_next {s : IArger} {tr : List Func} {op : Nat} {s' : IArger} {tr' : List Func}
    {op' : Nat} {n : String} {o : Option} (hn : NextFacts s tr op s' tr' op' n o) :
    SameSetup s s' :=
  ⟨hn.argv, hn.identifiersToNames, hn.allOptions, hn.eventOptions, hn.usingAutoHelp,
   hn.usingAutoVersion, hn.continueOnHelp, hn.continueOnVersion, find_options_next hn⟩

theorem sameSetup_requiresArg {s s' : IArger} (h : SameSetup s s') (k : String) :
    (s'.options.find k).map (fun x => x.requiresArg) =
      (s.options.find k).map (fun x => x.requiresArg) := by
  have h1 := congrArg (fun x : Maybe Option => x.map (fun y => y.requiresArg)) (h.declared k)
  simpa [Option.map_map, Function.comp_def] using h1

theorem sameSetup_func {s s' : IArger} (h : SameSetup s s') (k : String) :
    (s'.options.find k).bind (fun x => x.func) = (s.options.find k).bind (fun x => x.func) := by
  have h1 := congrArg (fun x : Maybe Option => x.bind (fun y => y.func)) (h.declared k)
  cases h2 : s'.options.find k <;> cases h3 : s.options.find k <;> simp_all

theorem sameSetup_takesArgument {s s' : IArger} (h : SameSetup s s') :
    s'.takesArgument = s.takesArgument := by
  funext t
  rw [takesArgument_eq_map, takesArgument_eq_map, h.identifiersToNames]
  have h1 : (fun k => (s'.options.find k).map (fun x => x.requiresArg)) =
      (fun k => (s.options.find k).map (fun x => x.requiresArg)) :=
    funext (sameSetup_requiresArg h)
  rw [h1]

theorem builtinOnly_calls {s : IArger} {n : String} {tr : List Func} (h : BuiltinOnly tr) :
    BuiltinOnly (callHelp s n tr) ∧ BuiltinOnly (callVersion s n (callHelp s n tr)) := by
  have h1 : BuiltinOnly (callHelp s n tr) := by
    unfold callHelp
    split
    · intro f hf
      rcases List.mem_append.mp hf with h2 | h2
      · exact h f h2
      · simp at h2; exact Or.inl h2
    · exact h
  refine ⟨h1, ?_⟩
  unfold callVersion
  split
  · intro f hf
    rcases List.mem_append.mp hf with h2 | h2
    · exact h1 f h2
    · simp at h2; exact Or.inr h2
  · exact h1

/-- What holds whenever the scan of a fresh parser arrives at an index. -/
theorem reaches_facts {s0 s : IArger} {tr : List Func} {op : Nat} (hf : s0.Fresh)
    (hr : Reaches s0 s tr op) :
    s.KeysOK ∧ SameSetup (mappingStage s0) s ∧ 1 ≤ op ∧ BuiltinOnly tr := by
  induction hr with
  | start =>
    exact ⟨keysOK_mappingStage hf, sameSetup_refl _, Nat.le_refl _, fun f h => by cases h⟩
  | step h _ hs ih =>
    obtain ⟨hk, hsame, hop, hb⟩ := ih
    obtain ⟨n, o, hn⟩ := parseToken_next hs hk
    refine ⟨keysOK_next hn hk, sameSetup_trans hsame (sameSetup_of_next hn), ?_, ?_⟩
    · rcases hn.step with ⟨-, h2, -⟩ | ⟨-, h2, -⟩ <;> omega
    · rw [hn.trace]
      exact (builtinOnly_calls hb).2

/-! ## The same parser on another argument vector -/

theorem enqueueEvent_withArgv (s : IArger) (n : String) (o : Option) (a : List String) :
    enqueueEvent (s.withArgv a) n o = (enqueueEvent s n o).withArgv a := by
  unfold enqueueEvent
  split <;> rename_i h <;> simp only [IArger.withArgv] at h ⊢
  · rw [if_pos h]
  · rw [if_neg h]

theorem mappingStage_withArgv (s : IArger) (a : List String) :
    mappingStage (s.withArgv a) = (mappingStage s).withArgv a := rfl

theorem triggeringStage_withArgv (s : IArger) (tr : List Func) (q : List (Maybe Func))
    (a : List String) :
    triggeringStage (s.withArgv a) tr q = (triggeringStage s tr q).withArgv a := by
  induction q generalizing tr with
  | nil => rfl
  | cons e rest ih =>
    cases e with
    | none => rfl
    | some f => exact ih _

/-- The iteration at `op` reads the token at `op`, and the token after it only when the option
takes an argument; on these it does the same whatever the rest of the vector is. -/
theorem parseToken_withArgv {s : IArger} {tr : List Func} {op : Nat} (h : op < s.argv.length)
    {a : List String} (h' : op < (s.withArgv a).argv.length)
    (h0 : a[op]? = s.argv[op]?)
    (h1 : (∃ n, s.identifiersToNames.find s.argv[op] = some n ∧
        (s.optionData n).requiresArg = RequiresArg.Yes) → a[op + 1]? = s.argv[op + 1]?) :
    parseToken (s.withArgv a) tr op h' = (parseToken s tr op h).withArgv a := by
  have ha : op < a.length := h'
  have e0 : (s.withArgv a).argv[op] = s.argv[op] := by
    have : a[op] = s.argv[op] := by
      rw [List.getElem?_eq_getElem ha, List.getElem?_eq_getElem h] at h0
      exact Option.some.inj h0
    exact this
  cases hf : s.identifiersToNames.find s.argv[op] with
  | none =>
    have hf' : (s.withArgv a).identifiersToNames.find (s.withArgv a).argv[op] = none := by
      rw [e0]; exact hf
    rw [parseToken_unknown h hf, parseToken_unknown h' hf', e0]
    rfl
  | some n =>
    have hf' : (s.withArgv a).identifiersToNames.find (s.withArgv a).argv[op] = some n := by
      rw [e0]; exact hf
    by_cases hh : helpStop s n
    · rw [parseToken_helpStop h hf hh, parseToken_helpStop h' hf' hh]
      rfl
    by_cases hv : versionStop s n
    · rw [parseToken_versionStop h hf hh hv, parseToken_versionStop h' hf' hh hv]
      rfl
    by_cases hr : (s.optionData n).requiresArg = RequiresArg.Yes
    · have h1' := h1 ⟨n, hf, hr⟩
      by_cases h2 : op + 1 < s.argv.length
      · have h2' : op + 1 < (s.withArgv a).argv.length := by
          show op + 1 < a.length
          by_contra hc
          rw [List.getElem?_eq_none (Nat.le_of_not_lt hc), List.getElem?_eq_getElem h2] at h1'
          cases h1'
        have e1 : (s.withArgv a).argv[op + 1] = s.argv[op + 1] := by
          have h2a : op + 1 < a.length := h2'
          have : a[op + 1] = s.argv[op + 1] := by
            rw [List.getElem?_eq_getElem h2a, List.getElem?_eq_getElem h2] at h1'
            exact Option.some.inj h1'
          exact this
        by_cases hb : s.argv[op + 1] = "" ∨ s.allOptions.count s.argv[op + 1] ≠ 0
        · have hb' : (s.withArgv a).argv[op + 1] = "" ∨
              (s.withArgv a).allOptions.count (s.withArgv a).argv[op + 1] ≠ 0 := by
            rw [e1]; exact hb
          rw [parseToken_badToken h hf hh hv hr h2 hb,
            parseToken_badToken h' hf' hh hv hr h2' hb', e1]
          rfl
        · have he : s.argv[op + 1] ≠ "" := fun e => hb (Or.inl e)
          have hc : s.allOptions.count s.argv[op + 1] = 0 := by
            by_contra e; exact hb (Or.inr e)
          have he' : (s.withArgv a).argv[op + 1] ≠ "" := by rw [e1]; exact he
          have hc' : (s.withArgv a).allOptions.count (s.withArgv a).argv[op + 1] = 0 := by
            rw [e1]; exact hc
          rw [parseToken_argument h hf hh hv hr h2 he hc,
            parseToken_argument h' hf' hh hv hr h2' he' hc', e1]
          have e2 : ((s.withArgv a).recordOption n).storeArgument n ((s.withArgv a).optionData n)
              s.argv[op + 1] =
              ((s.recordOption n).storeArgument n (s.optionData n) s.argv[op + 1]).withArgv a := rfl
          rw [e2, enqueueEvent_withArgv]
          rfl
      · have h2' : ¬ op + 1 < (s.withArgv a).argv.length := by
          show ¬ op + 1 < a.length
          intro hc
          rw [List.getElem?_eq_getElem hc, List.getElem?_eq_none (Nat.le_of_not_lt h2)] at h1'
          cases h1'
        rw [parseToken_noToken h hf hh hv hr h2, parseToken_noToken h' hf' hh hv hr h2']
        rfl
    · rw [parseToken_plain h hf hh hv hr, parseToken_plain h' hf' hh hv hr]
      have e2 : (s.withArgv a).recordOption n = (s.recordOption n).withArgv a := rfl
      rw [e2, enqueueEvent_withArgv]
      rfl

/-- The loop from `op` on depends on the argument vector through the tokens from `op` on
only. -/
theorem parsingStage_withArgv (s : IArger) (tr : List Func) (op : Nat) (a : List String)
    (hd : a.drop op = s.argv.drop op) :
    parsingStage (s.withArgv a) tr op = (parsingStage s tr op).withArgv a := by
  induction s, tr, op using parsingStage.induct with
  | case1 s tr op h r hs =>
    have hl : op < a.length := by
      have := congrArg List.length hd
      simp only [List.length_drop] at this
      omega
    have h0 : a[op]? = s.argv[op]? := by
      have := congrArg (fun l => l[0]?) hd
      simpa [List.getElem?_drop] using this
    have h1 : a[op + 1]? = s.argv[op + 1]? := by
      have := congrArg (fun l => l[1]?) hd
      simpa [List.getElem?_drop] using this
    have := @parseToken_withArgv s tr op h a hl h0 (fun _ => h1)
    rw [hs] at this
    rw [parsingStage_exit hs, parsingStage_exit this]
  | case2 s tr op h s' tr' op' hs ih =>
    have hl : op < a.length := by
      have := congrArg List.length hd
      simp only [List.length_drop] at this
      omega
    have h0 : a[op]? = s.argv[op]? := by
      have := congrArg (fun l => l[0]?) hd
      simpa [List.getElem?_drop] using this
    have h1 : a[op + 1]? = s.argv[op + 1]? := by
      have := congrArg (fun l => l[1]?) hd
      simpa [List.getElem?_drop] using this
    have := @parseToken_withArgv s tr op h a hl h0 (fun _ => h1)
    rw [hs] at this
    have hargv := parseToken_next_argv hs
    rw [parsingStage_next hs, parsingStage_next this]
    apply ih
    rw [hargv.1]
    have hk : op' = op + (op' - op) := by omega
    rw [hk, ← List.drop_drop, ← List.drop_drop, hd]
  | case3 s tr op h =>
    have hl : ¬ op < (s.withArgv a).argv.length := by
      show ¬ op < a.length
      have := congrArg List.length hd
      simp only [List.length_drop] at this
      omega
    rw [parsingStage_done h, parsingStage_done hl]
    exact triggeringStage_withArgv s tr _ a

/-- The whole of `parse()` depends on the argument vector through the tokens from index 1 on
only. -/
theorem parse_withArgv (s : IArger) (a : List String) (hd : a.drop 1 = s.argv.drop 1) :
    (s.withArgv a).parse = s.parse.withArgv a := by
  unfold IArger.parse
  rw [mappingStage_withArgv]
  exact parsingStage_withArgv (mappingStage s) [] 1 a hd

theorem sameConfig_trans {s s' s'' : IArger} (h1 : SameConfig s s') (h2 : SameConfig s' s'') :
    SameConfig s s'' :=
  ⟨h2.argv.trans h1.argv, h2.identifiersToNames.trans h1.identifiersToNames,
   h2.allOptions.trans h1.allOptions, h2.eventOptions.trans h1.eventOptions,
   h2.usingAutoHelp.trans h1.usingAutoHelp, h2.usingAutoVersion.trans h1.usingAutoVersion,
   h2.continueOnHelp.trans h1.continueOnHelp, h2.continueOnVersion.trans h1.continueOnVersion⟩

theorem parseToken_next_config {s : IArger} {tr : List Func} {op : Nat} {h : op < s.argv.length}
    {s' : IArger} {tr' : List Func} {op' : Nat}
    (hs : parseToken s tr op h = Step.next s' tr' op') : SameConfig s s' := by
  unfold parseToken at hs
  cases hf : s.identifiersToNames.find s.argv[op] with
  | none => simp only [hf] at hs; cases hs
  | some n =>
    simp only [hf] at hs
    split_ifs at hs
    all_goals cases hs
    all_goals constructor
    all_goals simp [IArger.storeArgument, IArger.recordOption]

/-- The scan never changes the configuration that the mapping stage left. -/
theorem reaches_config {s0 s : IArger} {tr : List Func} {op : Nat} (hr : Reaches s0 s tr op) :
    SameConfig (mappingStage s0) s ∧ 1 ≤ op := by
  induction hr with
  | start => exact ⟨⟨rfl, rfl, rfl, rfl, rfl, rfl, rfl, rfl⟩, Nat.le_refl _⟩
  | step h _ hs ih =>
    refine ⟨sameConfig_trans ih.1 (parseToken_next_config hs), ?_⟩
    have := (parseToken_next_argv hs).2
    omega

/-- The token at `op` read by a state that the scan has arrived in is the token of the
argument vector, and it is looked up in the reverse index of the mapping stage. -/
theorem reaches_find {s0 s : IArger} {tr : List Func} {op : Nat} (hr : Reaches s0 s tr op)
    (h : op < s.argv.length) :
    s0.argv[op]? = some s.argv[op] ∧
      s.identifiersToNames.find s.argv[op] = (s0.argv[op]?).bind s0.resolve := by
  have hc := (reaches_config hr).1
  have ha : s.argv = s0.argv := hc.argv
  have h0 : s0.argv[op]? = some s.argv[op] := by
    rw [← ha]; exact List.getElem?_eq_getElem h
  refine ⟨h0, ?_⟩
  rw [h0, hc.identifiersToNames]
  rfl

theorem helpStop_congr {s s' : IArger} (hc : SameConfig s s') (n : String) :
    helpStop s' n ↔ helpStop s n := by
  unfold helpStop
  rw [hc.usingAutoHelp, hc.continueOnHelp]

theorem versionStop_congr {s s' : IArger} (hc : SameConfig s s') (n : String) :
    versionStop s' n ↔ versionStop s n := by
  unfold versionStop
  rw [hc.usingAutoVersion, hc.continueOnVersion]

theorem helpStop_mappingStage (s : IArger) (n : String) :
    helpStop (mappingStage s) n ↔ helpStop s n := Iff.rfl

theorem versionStop_mappingStage (s : IArger) (n : String) :
    versionStop (mappingStage s) n ↔ versionStop s n := Iff.rfl

/-! ## Option positions along a run -/

theorem positionsFrom_ge {takes : String → Bool} {l : List String} {op i : Nat}
    (h : i ∈ positionsFrom takes op l) : op ≤ i := by
  induction op, l using positionsFrom.induct takes with
  | case1 x => simp [positionsFrom] at h
  | case2 op t =>
    simp only [positionsFrom, List.mem_singleton] at h
    omega
  | case3 op t a rest ht ih =>
    simp only [positionsFrom, ht, if_true, List.mem_cons] at h
    rcases h with h | h
    · omega
    · have := ih h; omega
  | case4 op t a rest ht ih =>
    simp only [positionsFrom, ht, Bool.false_eq_true, if_false, List.mem_cons] at h
    rcases h with h | h
    · omega
    · have := ih h; omega

theorem drop_eq_cons {l : List String} {op : Nat} (h : op < l.length) :
    l.drop op = l[op] :: l.drop (op + 1) := by
  rw [List.drop_eq_getElem_cons h]

theorem takesArgument_of_find {s : IArger} {t n : String} {o : Option}
    (h1 : s.identifiersToNames.find t = some n) (h2 : s.options.find n = some o) :
    s.takesArgument t = decide (o.requiresArg = RequiresArg.Yes) := by
  simp [IArger.takesArgument, h1, h2]

/-- Over an iteration that goes on, the option positions from `op` are `op` and the option
positions from the index at which the loop goes on. -/
theorem positionsFrom_next {s : IArger} {tr : List Func} {op : Nat} {s' : IArger}
    {tr' : List Func} {op' : Nat} {n : String} {o : Option}
    (hn : NextFacts s tr op s' tr' op' n o) :
    positionsFrom s.takesArgument op (s.argv.drop op) =
      op :: positionsFrom s.takesArgument op' (s.argv.drop op') := by
  have h := hn.inBounds
  have htok : s.identifiersToNames.find s.argv[op] = some n := by
    have := hn.token
    rw [List.getElem?_eq_getElem h] at this
    exact this
  have htakes := takesArgument_of_find htok hn.registered
  rw [drop_eq_cons h]
  rcases hn.step with ⟨h1, h2, -⟩ | ⟨h1, h2, a, h3, -, -, -⟩
  · subst h2
    have hf : s.takesArgument s.argv[op] = false := by
      rw [htakes]; simp [h1]
    by_cases h4 : op + 1 < s.argv.length
    · rw [drop_eq_cons h4]
      simp only [positionsFrom, hf, Bool.false_eq_true, if_false]
    · rw [List.drop_of_length_le (Nat.le_of_not_lt h4)]
      simp [positionsFrom]
  · subst h2
    have ht : s.takesArgument s.argv[op] = true := by
      rw [htakes]; simp [h1]
    have h4 : op + 1 < s.argv.length := by
      by_contra hc
      rw [List.getElem?_eq_none (Nat.le_of_not_lt hc)] at h3
      cases h3
    rw [drop_eq_cons h4]
    simp only [positionsFrom, ht, if_true]

theorem positionsFrom_done {s : IArger} {op : Nat} (h : ¬ op < s.argv.length)
    (takes : String → Bool) : positionsFrom takes op (s.argv.drop op) = [] := by
  rw [List.drop_of_length_le (Nat.le_of_not_lt h)]
  rfl

theorem tokenName_congr {s s' : IArger} (h1 : s'.argv = s.argv)
    (h2 : s'.identifiersToNames = s.identifiersToNames) : s'.tokenName = s.tokenName := by
  funext i
  unfold IArger.tokenName
  rw [h1, h2]

theorem funcOf_next {s : IArger} {tr : List Func} {op : Nat} {s' : IArger}
    {tr' : List Func} {op' : Nat} {n : String} {o : Option}
    (hn : NextFacts s tr op s' tr' op' n o) : s'.funcOf = s.funcOf := by
  funext k
  exact sameSetup_func (sameSetup_of_next hn) k

theorem isEvent_next {s : IArger} {tr : List Func} {op : Nat} {s' : IArger}
    {tr' : List Func} {op' : Nat} {n : String} {o : Option}
    (hn : NextFacts s tr op s' tr' op' n o) : s'.isEvent = s.isEvent := by
  funext k
  unfold IArger.isEvent
  rw [hn.eventOptions]

/-- A run of the loop that returns true has recorded the names of the tokens at the option
positions, in order, and has queued the functions of those that have events. -/
theorem success_records (s : IArger) (tr : List Func) (op : Nat) (hk : s.KeysOK)
    (ho : (parsingStage s tr op).outcome = Outcome.returned true) :
    ∃ names : List String,
      (positionsFrom s.takesArgument op (s.argv.drop op)).map s.tokenName = names.map some ∧
      (parsingStage s tr op).state.passedOptions = s.passedOptions ++ names ∧
      (parsingStage s tr op).state.triggerEvents =
        s.triggerEvents ++ (names.filter s.isEvent).map s.funcOf := by
  refine success_induction
    (fun s tr op r => ∃ names : List String,
      (positionsFrom s.takesArgument op (s.argv.drop op)).map s.tokenName = names.map some ∧
      r.state.passedOptions = s.passedOptions ++ names ∧
      r.state.triggerEvents = s.triggerEvents ++ (names.filter s.isEvent).map s.funcOf)
    ?_ ?_ s tr op hk ho
  · intro s tr op _ h _
    refine ⟨[], ?_, ?_, ?_⟩
    · rw [positionsFrom_done h]; rfl
    · rw [triggeringStage_state]; simp
    · rw [triggeringStage_state]; simp
  · intro s tr op h s' tr' op' n o r _ _ _ hn _ ih
    obtain ⟨names, h1, h2, h3⟩ := ih
    rw [takesArgument_next hn, hn.argv, tokenName_congr hn.argv hn.identifiersToNames] at h1
    rw [funcOf_next hn, isEvent_next hn] at h3
    refine ⟨n :: names, ?_, ?_, ?_⟩
    · rw [positionsFrom_next hn, List.map_cons, h1]
      have : s.tokenName op = some n := hn.token
      rw [this]
      rfl
    · rw [h2, hn.passedOptions]; simp
    · rw [h3, hn.triggerEvents]
      have hfo : s.funcOf n = o.func := by
        simp [IArger.funcOf, hn.registered]
      by_cases he : s.eventOptions.count n ≠ 0
      · have : s.isEvent n = true := by simp [IArger.isEvent, he]
        rw [if_pos he, List.filter_cons_of_pos this, List.map_cons, hfo]
        simp
      · have : ¬ s.isEvent n = true := by simp [IArger.isEvent, he]
        rw [if_neg he, List.filter_cons_of_neg this]
        simp

/-- A run of the loop that returns true has arrived at the end of the vector, and what it has
called after that are the queued functions, in queue order. -/
theorem success_dispatch (s0 : IArger) (s : IArger) (tr : List Func) (op : Nat)
    (hr : Reaches s0 s tr op)
    (ho : (parsingStage s tr op).outcome = Outcome.returned true) :
    ∃ s' tr' op' fs, Reaches s0 s' tr' op' ∧ s'.argv.length ≤ op' ∧
      (parsingStage s tr op).state = s' ∧ s'.triggerEvents = fs.map some ∧
      (parsingStage s tr op).trace = tr' ++ fs := by
  induction s, tr, op using parsingStage.induct with
  | case1 s tr op h r hs =>
    rw [parsingStage_exit hs] at ho
    exact absurd ho (parseToken_exit_outcome hs).1
  | case2 s tr op h s' tr' op' hs ih =>
    rw [parsingStage_next hs] at ho ⊢
    exact ih (Reaches.step h hr hs) ho
  | case3 s tr op h =>
    rw [parsingStage_done h] at ho ⊢
    obtain ⟨fs, h1, h2⟩ := triggeringStage_returned ho
    exact ⟨s, tr, op, fs, hr, Nat.le_of_not_lt h, triggeringStage_state _ _ _, h1, h2⟩

theorem positionsFrom_pairwise (takes : String → Bool) (op : Nat) (l : List String) :
    (positionsFrom takes op l).Pairwise (fun i j => i < j) := by
  induction op, l using positionsFrom.induct takes with
  | case1 x => simp [positionsFrom]
  | case2 op t => simp [positionsFrom]
  | case3 op t a rest ht ih =>
    simp only [positionsFrom, ht, if_true, List.pairwise_cons]
    refine ⟨fun j hj => ?_, ih⟩
    have := positionsFrom_ge hj
    omega
  | case4 op t a rest ht ih =>
    simp only [positionsFrom, ht, Bool.false_eq_true, if_false, List.pairwise_cons]
    refine ⟨fun j hj => ?_, ih⟩
    have := positionsFrom_ge hj
    omega

/-- A run of the loop that returns true leaves, in the argument slot of an option that
requires an argument, the token after the last option position whose token resolved to the
option, and leaves the slot alone when there is no such position. -/
theorem success_argument (s : IArger) (tr : List Func) (op : Nat) (hk : s.KeysOK)
    (ho : (parsingStage s tr op).outcome = Outcome.returned true) :
    ∀ k o, s.options.find k = some o → o.requiresArg = RequiresArg.Yes →
      ((∀ i ∈ positionsFrom s.takesArgument op (s.argv.drop op), s.tokenName i ≠ some k) ∧
        (parsingStage s tr op).state.options.find k = some o) ∨
      (∃ i a, i ∈ positionsFrom s.takesArgument op (s.argv.drop op) ∧
        s.tokenName i = some k ∧
        (∀ j ∈ positionsFrom s.takesArgument op (s.argv.drop op), i < j →
          s.tokenName j ≠ some k) ∧
        s.argv[i + 1]? = some a ∧
        (parsingStage s tr op).state.options.find k = some { o with argument := a }) := by
  refine success_induction
    (fun s tr op r => ∀ k o, s.options.find k = some o → o.requiresArg = RequiresArg.Yes →
      ((∀ i ∈ positionsFrom s.takesArgument op (s.argv.drop op), s.tokenName i ≠ some k) ∧
        r.state.options.find k = some o) ∨
      (∃ i a, i ∈ positionsFrom s.takesArgument op (s.argv.drop op) ∧
        s.tokenName i = some k ∧
        (∀ j ∈ positionsFrom s.takesArgument op (s.argv.drop op), i < j →
          s.tokenName j ≠ some k) ∧
        s.argv[i + 1]? = some a ∧
        r.state.options.find k = some { o with argument := a }))
    ?_ ?_ s tr op hk ho
  · intro s tr op _ h _ k o hko _
    left
    rw [positionsFrom_done h, triggeringStage_state]
    exact ⟨fun i hi => (by cases hi), hko⟩
  · intro s tr op h s' tr' op' n o r _ _ _ hn _ ih k ok hko hreq
    have hpos := positionsFrom_next hn
    have htn : s'.tokenName = s.tokenName := tokenName_congr hn.argv hn.identifiersToNames
    have hop : s.tokenName op = some n := hn.token
    have hlt : op < op' := by
      rcases hn.step with ⟨-, h2, -⟩ | ⟨-, h2, -⟩ <;> omega
    -- the entry of `k` after the iteration, and the fact the induction hypothesis gives for it
    have hcases : ∀ ok', s'.options.find k = some ok' → ok'.requiresArg = RequiresArg.Yes →
        (∀ a, ({ ok' with argument := a } : Option) = { ok with argument := a }) →
        ((n ≠ k ∧ ok' = ok) ∨ (n = k ∧ s.argv[op + 1]? = some ok'.argument)) →
        ((∀ i ∈ positionsFrom s.takesArgument op (s.argv.drop op), s.tokenName i ≠ some k) ∧
          r.state.options.find k = some ok) ∨
        (∃ i a, i ∈ positionsFrom s.takesArgument op (s.argv.drop op) ∧
          s.tokenName i = some k ∧
          (∀ j ∈ positionsFrom s.takesArgument op (s.argv.drop op), i < j →
            s.tokenName j ≠ some k) ∧
          s.argv[i + 1]? = some a ∧
          r.state.options.find k = some { ok with argument := a }) := by
      intro ok' hk' hreq' hupd hwhich
      have ih' := ih k ok' hk' hreq'
      rw [takesArgument_next hn, hn.argv, htn] at ih'
      rw [hpos]
      rcases ih' with ⟨hnone, hfin⟩ | ⟨i, a, hi, hik, hlater, hia, hfin⟩
      · rcases hwhich with ⟨hnk, hok⟩ | ⟨hnk, harg⟩
        · left
          refine ⟨?_, by rw [hfin, hok]⟩
          intro i hi
          rcases List.mem_cons.mp hi with rfl | hi
          · rw [hop]; intro e; exact hnk (Option.some.inj e)
          · exact hnone i hi
        · right
          refine ⟨op, ok'.argument, List.mem_cons_self _ _, by rw [hop, hnk], ?_, harg, ?_⟩
          · intro j hj hlt'
            rcases List.mem_cons.mp hj with rfl | hj
            · omega
            · exact hnone j hj
          · rw [hfin, ← hupd ok'.argument]
      · right
        refine ⟨i, a, List.mem_cons_of_mem _ hi, hik, ?_, hia, by rw [hfin, hupd a]⟩
        intro j hj hlt'
        rcases List.mem_cons.mp hj with rfl | hj
        · have := positionsFrom_ge hi
          omega
        · exact hlater j hj hlt'
    rcases hn.step with ⟨hno, -, hopt⟩ | ⟨hyes, -, a, ha, -, -, hopt⟩
    · -- no argument taken: the registry is as before
      have hk' : s'.options.find k = some ok := by rw [hopt]; exact hko
      refine hcases ok hk' hreq (fun _ => rfl) ?_
      left
      refine ⟨?_, rfl⟩
      intro e
      subst e
      rw [hn.registered] at hko
      cases hko
      exact hno hreq
    · by_cases hnk : n = k
      · subst hnk
        rw [hn.registered] at hko
        cases hko
        have hk' : s'.options.find n = some { o with argument := a } := by
          rw [hopt, UMap.find_assign, if_pos rfl]
        exact hcases _ hk' hreq (fun _ => rfl) (Or.inr ⟨rfl, ha⟩)
      · have hk' : s'.options.find k = some ok := by
          rw [hopt, UMap.find_assign, if_neg hnk]; exact hko
        exact hcases ok hk' hreq (fun _ => rfl) (Or.inl ⟨hnk, rfl⟩)

/-! ## C3: unknown options -/

theorem split_file : split "-f|--file" '|' = ["-f", "--file"] := by
  simp [split, splitLoop]

theorem split_read : split "-r|--read" '|' = ["-r", "--read"] := by
  simp [split, splitLoop]

theorem split_help : split "-h|--help" '|' = ["-h", "--help"] := by
  simp [split, splitLoop]

theorem split_version : split "-v|--version" '|' = ["-v", "--version"] := by
  simp [split, splitLoop]

theorem fileRead_eq (argv : List String) :
    fileRead argv =
      { argv := argv
        options :=
          [("read", { name := "read", identifiers := ["-r", "--read"],
                      description := "Read the file", requiresArg := RequiresArg.No,
                      func := none, argument := "" }),
           ("file", { name := "file", identifiers := ["-f", "--file"],
                      description := "The file to read", requiresArg := RequiresArg.Yes,
                      func := none, argument := "" })]
        allOptions := ["file", "read"] } := by
  simp [fileRead, IArger.new, IArger.addOption, split_file, split_read, UMap.assign, UMap.find]

theorem fileRead_fresh (argv : List String) : (fileRead argv).Fresh := by
  rw [fileRead_eq]
  exact ⟨rfl, rfl, rfl⟩

theorem fileRead_mapping (argv : List String) :
    (mappingStage (fileRead argv)).identifiersToNames =
      [("-r", "read"), ("--read", "read"), ("-f", "file"), ("--file", "file")] := by
  rw [fileRead_eq]
  simp [mappingStage, UMap.assign, UMap.find]

/-- On a fresh parser, when the scan arrives at a token that no registered option lists,
`parse()` throws the unknown-option error for that token. -/
theorem reaches_unknown_fails {s0 : IArger} (hf : s0.Fresh) {token : String}
    (hu : ∀ k o, (k, o) ∈ s0.options → token ∉ o.identifiers)
    {s : IArger} {tr : List Func} {op : Nat} (hr : Reaches s0 s tr op)
    (ht : s0.argv[op]? = some token) :
    s0.parse.outcome = Outcome.thrown ("Invalid option: " ++ token) := by
  have ha : s.argv = s0.argv := (reaches_config hr).1.argv
  have h : op < s.argv.length := by
    rw [ha]
    by_contra hc
    rw [List.getElem?_eq_none (Nat.le_of_not_lt hc)] at ht
    cases ht
  obtain ⟨h0, h1⟩ := reaches_find hr h
  have htok : s.argv[op] = token := by
    rw [ht] at h0
    exact (Option.some.inj h0).symm
  have hnone : s.identifiersToNames.find s.argv[op] = none := by
    rw [h1, ht]
    show s0.resolve token = none
    rw [resolve_eq_lastOwner hf]
    exact lastOwner_none.mpr hu
  rw [reaches_parse hr, parsingStage_exit (parseToken_unknown h hnone), htok]
  rfl

/-- C3: whenever the scan of a fresh parser arrives at an index whose token is not an identifier
of any registered option, `parse()` throws "Invalid option: " followed by exactly that token;
in particular it does so when the token at index 1 is not registered. -/
theorem C3_unknown_option_fails (s0 : IArger) (hf : s0.Fresh) (token : String)
    (hu : ∀ k o, (k, o) ∈ s0.options → token ∉ o.identifiers) :
    (∀ s tr op, Reaches s0 s tr op → s0.argv[op]? = some token →
      s0.parse.outcome = Outcome.thrown ("Invalid option: " ++ token)) ∧
    (s0.argv[1]? = some token →
      s0.parse.outcome = Outcome.thrown ("Invalid option: " ++ token)) :=
  ⟨fun _ _ _ hr ht => reaches_unknown_fails hf hu hr ht,
   fun h1 => reaches_unknown_fails hf hu Reaches.start h1⟩

/-- Witness of C3: with `file` and `read` registered, `[prog, "-x"]` fails with the error
that names `-x`. -/
theorem C3_unknown_option_fails_witness :
    (fileRead ["prog", "-x"]).parse.outcome = Outcome.thrown "Invalid option: -x" :=
  (C3_unknown_option_fails (fileRead ["prog", "-x"]) (fileRead_fresh _) "-x"
    (by
      intro k o hm
      rw [fileRead_eq] at hm
      simp at hm
      rcases hm with ⟨-, rfl⟩ | ⟨-, rfl⟩ <;> simp)).2
    (by rw [fileRead_eq]; rfl)

/-! ## C2: missing arguments -/

theorem split_h : split "-h" '|' = ["-h"] := by
  simp [split, splitLoop]

theorem helpWithArgument_eq (argv : List String) :
    helpWithArgument argv =
      { argv := argv
        usingAutoHelp := true
        continueOnHelp := false
        options :=
          [("help", { name := "help", identifiers := ["-h"],
                      description := "Help on a topic", requiresArg := RequiresArg.Yes,
                      func := none, argument := "" })]
        allOptions := ["help", "help"]
        eventOptions := ["help"] } := by
  simp [helpWithArgument, IArger.new, IArger.addOption, IArger.addHelpOption,
    IArger.addOptionEvent, IArger.setContinueOnHelp, split_h, split_help, UMap.assign, UMap.find]

/-- What `Fresh` gives about the state a scan has arrived in, for an option registered in the
fresh parser. -/
theorem reaches_registered {s0 s : IArger} {tr : List Func} {op : Nat} (hf : s0.Fresh)
    (hr : Reaches s0 s tr op) {n : String} {o : Option} (ho : s0.options.find n = some o) :
    ∃ o', s.options.find n = some o' ∧ o'.requiresArg = o.requiresArg ∧ o'.func = o.func := by
  have hd := (reaches_facts hf hr).2.1.declared n
  have h0 : (mappingStage s0).options.find n = some o := ho
  rw [h0] at hd
  cases h1 : s.options.find n with
  | none => rw [h1] at hd; cases hd
  | some o' =>
    rw [h1] at hd
    simp only [Option.map_some'] at hd
    have h2 := Option.some.inj hd
    have h3 := congrArg Option.requiresArg h2
    have h4 := congrArg Option.func h2
    exact ⟨o', rfl, h3, h4⟩

/-- C2, amended: whenever the scan of a fresh parser matches an option that requires an
argument and that does not leave `parse()` at that token by the help or version
short-circuit, the iteration throws "Option <name> requires an argument." if and only if
there is no following token, or it is empty, or it is the name of a registered option; then
`parse()` fails with that error, and in every other case the following token is stored as
the argument and the scan goes on behind it. -/
theorem C2_missing_argument (s0 : IArger) (hf : s0.Fresh) (s : IArger) (tr : List Func) (op : Nat)
    (hr : Reaches s0 s tr op) (h : op < s.argv.length) (n : String) (o : Option)
    (hm : (s0.argv[op]?).bind s0.resolve = some n) (ho : s0.options.find n = some o)
    (hq : o.requiresArg = RequiresArg.Yes) (hh : ¬ helpStop s0 n) (hv : ¬ versionStop s0 n) :
    ((∃ r, parseToken s tr op h = Step.exit r ∧
        r.outcome = Outcome.thrown ("Option " ++ n ++ " requires an argument.")) ↔
      s0.noArgumentAfter op) ∧
    (s0.noArgumentAfter op →
      s0.parse.outcome = Outcome.thrown ("Option " ++ n ++ " requires an argument.")) ∧
    (¬ s0.noArgumentAfter op →
      ∃ a s' tr', s0.argv[op + 1]? = some a ∧ parseToken s tr op h = Step.next s' tr' (op + 2) ∧
        s'.getOptionArgument n = Except.ok a) := by
  obtain ⟨hk, hsame, -, -⟩ := reaches_facts hf hr
  have hc := (reaches_config hr).1
  have ha : s.argv = s0.argv := hc.argv
  have hfind : s.identifiersToNames.find s.argv[op] = some n := by
    rw [(reaches_find hr h).2]; exact hm
  obtain ⟨o', ho', hq', -⟩ := reaches_registered hf hr ho
  have hod : (s.optionData n).requiresArg = RequiresArg.Yes := by
    rw [optionData_of_find ho', hq', hq]
  have hh' : ¬ helpStop s n := fun e => hh ((helpStop_congr hc n).mp e)
  have hv' : ¬ versionStop s n := fun e => hv ((versionStop_congr hc n).mp e)
  have hall : s.allOptions = s0.allOptions := hc.allOptions
  -- the three ways of having no argument, read on the state of the scan
  have hiff : s0.noArgumentAfter op ↔
      (¬ op + 1 < s.argv.length ∨
        ∃ h1 : op + 1 < s.argv.length,
          s.argv[op + 1] = "" ∨ s.allOptions.count s.argv[op + 1] ≠ 0) := by
    unfold IArger.noArgumentAfter
    rw [← ha, hall]
    by_cases h1 : op + 1 < s.argv.length
    · rw [List.getElem?_eq_getElem h1]
      simp only [reduceCtorEq, Option.some.injEq, false_or, h1, not_true_eq_false, exists_true_left,
        ne_eq, List.count_eq_zero, not_not]
      constructor
      · rintro (h2 | ⟨a, h2, h3⟩)
        · exact Or.inl h2
        · subst h2; exact Or.inr h3
      · rintro (h2 | h2)
        · exact Or.inl h2
        · exact Or.inr ⟨_, rfl, h2⟩
    · rw [List.getElem?_eq_none (Nat.le_of_not_lt h1)]
      simp [h1]
  have hthrow : s0.noArgumentAfter op →
      ∃ r, parseToken s tr op h = Step.exit r ∧
        r.outcome = Outcome.thrown ("Option " ++ n ++ " requires an argument.") := by
    intro hno
    rcases hiff.mp hno with h1 | ⟨h1, hb⟩
    · exact ⟨_, parseToken_noToken h hfind hh' hv' hod h1, rfl⟩
    · exact ⟨_, parseToken_badToken h hfind hh' hv' hod h1 hb, rfl⟩
  have hgo : ¬ s0.noArgumentAfter op →
      ∃ a s' tr', s0.argv[op + 1]? = some a ∧ parseToken s tr op h = Step.next s' tr' (op + 2) ∧
        s'.getOptionArgument n = Except.ok a := by
    intro hno
    rw [hiff] at hno
    have h1 : op + 1 < s.argv.length := by
      by_contra e; exact hno (Or.inl e)
    have he : s.argv[op + 1] ≠ "" := fun e => hno (Or.inr ⟨h1, Or.inl e⟩)
    have hcnt : s.allOptions.count s.argv[op + 1] = 0 := by
      by_contra e; exact hno (Or.inr ⟨h1, Or.inr e⟩)
    refine ⟨s.argv[op + 1], _, _, ?_, parseToken_argument h hfind hh' hv' hod h1 he hcnt, ?_⟩
    · rw [← ha]; exact List.getElem?_eq_getElem h1
    · simp [IArger.getOptionArgument, UMap.at, IArger.storeArgument, UMap.find_assign]
      rfl
  refine ⟨⟨?_, hthrow⟩, ?_, hgo⟩
  · rintro ⟨r, hs, -⟩
    by_contra hno
    obtain ⟨a, s', tr', -, hs', -⟩ := hgo hno
    rw [hs] at hs'
    cases hs'
  · intro hno
    obtain ⟨r, hs, hout⟩ := hthrow hno
    rw [reaches_parse hr, parsingStage_exit hs, hout]

theorem fileRead_resolve (argv : List String) (t : String) :
    (fileRead argv).resolve t =
      UMap.find [("-r", "read"), ("--read", "read"), ("-f", "file"), ("--file", "file")] t := by
  unfold IArger.resolve
  rw [fileRead_mapping]

/-- Witness of C2: with `file` registered as requiring an argument, `[prog, "-f"]` fails with
the missing-argument error that names `file`. -/
theorem C2_missing_argument_witness :
    (fileRead ["prog", "-f"]).parse.outcome =
      Outcome.thrown "Option file requires an argument." :=
  (C2_missing_argument (fileRead ["prog", "-f"]) (fileRead_fresh _) _ [] 1 Reaches.start
    (by decide) "file"
    { name := "file", identifiers := ["-f", "--file"], description := "The file to read",
      requiresArg := RequiresArg.Yes, func := none, argument := "" }
    (by rw [show (fileRead ["prog", "-f"]).argv[1]? = some "-f" from rfl, Option.some_bind,
          fileRead_resolve]; decide)
    (by rw [fileRead_eq]; decide)
    rfl
    (by unfold helpStop; decide)
    (by unfold versionStop; decide)).2.1
    (Or.inl rfl)

/-- Counterexample to C2 as stated: `help` is registered as requiring an argument, the scan
matches it at index 1 and no token follows, yet `parse()` does not fail: it returns false by
the help short-circuit. -/
theorem C2_counterexample :
    (helpWithArgument ["prog", "-h"]).Fresh ∧
    ((helpWithArgument ["prog", "-h"]).argv[1]?).bind (helpWithArgument ["prog", "-h"]).resolve =
      some "help" ∧
    ((helpWithArgument ["prog", "-h"]).options.find "help").map (fun o => o.requiresArg) =
      some RequiresArg.Yes ∧
    (helpWithArgument ["prog", "-h"]).argv[1 + 1]? = none ∧
    (helpWithArgument ["prog", "-h"]).parse.outcome = Outcome.returned false := by
  rw [helpWithArgument_eq]
  refine ⟨⟨rfl, rfl, rfl⟩, ?_, ?_, rfl, ?_⟩
  · simp [IArger.resolve, mappingStage, UMap.assign, UMap.find]
  · simp [UMap.find]
  · simp [IArger.parse, mappingStage, UMap.assign, UMap.find, parsingStage, parseToken,
      IArger.recordOption, callHelp]

/-! ## C9 and C7: the outcome of parse -/

theorem split_n : split "-n" '|' = ["-n"] := by
  simp [split, splitLoop]

theorem notifyOnly_eq (argv : List String) :
    notifyOnly argv =
      { argv := argv
        options :=
          [("notify", { name := "notify", identifiers := ["-n"],
                        description := "Count a notification", requiresArg := RequiresArg.No,
                        func := some (Func.user "notify"), argument := "" })]
        allOptions := ["notify"]
        eventOptions := ["notify"] } := by
  simp [notifyOnly, IArger.new, IArger.addOptionEvent, split_n, UMap.assign, UMap.find]

theorem helpOnly_eq (argv : List String) :
    helpOnly argv =
      { argv := argv
        usingAutoHelp := true
        continueOnHelp := false
        options :=
          [("help", { name := "help", identifiers := ["-h", "--help"],
                      description := "Display this help message", requiresArg := RequiresArg.No,
                      func := some Func.printHelp, argument := "" })]
        allOptions := ["help"]
        eventOptions := ["help"] } := by
  simp [helpOnly, IArger.new, IArger.addHelpOption, IArger.addOptionEvent,
    IArger.setContinueOnHelp, split_help, UMap.assign, UMap.find]

theorem returned_false_inv (s0 : IArger) (s : IArger) (tr : List Func) (op : Nat)
    (hr : Reaches s0 s tr op)
    (ho : (parsingStage s tr op).outcome = Outcome.returned false) :
    ∃ s' tr' op' n, Reaches s0 s' tr' op' ∧ (s0.argv[op']?).bind s0.resolve = some n ∧
      (helpStop s0 n ∨ versionStop s0 n) := by
  induction s, tr, op using parsingStage.induct with
  | case1 s tr op h r hs =>
    rw [parsingStage_exit hs] at ho
    have hc := (reaches_config hr).1
    have hfind := (reaches_find hr h).2
    rcases parseToken_exit hs with ⟨-, -, -, h4⟩ | ⟨n, h1, -, h3⟩
    · rw [h4] at ho; cases ho
    · rw [hfind] at h1
      rcases h3 with ⟨h5, -, -⟩ | ⟨-, h5, -, -⟩ | ⟨-, -, -, -, h5, -⟩
      · exact ⟨s, tr, op, n, hr, h1, Or.inl ((helpStop_congr hc n).mp h5)⟩
      · exact ⟨s, tr, op, n, hr, h1, Or.inr ((versionStop_congr hc n).mp h5)⟩
      · rw [h5] at ho; cases ho
  | case2 s tr op h s' tr' op' hs ih =>
    rw [parsingStage_next hs] at ho
    exact ih (Reaches.step h hr hs) ho
  | case3 s tr op h =>
    rw [parsingStage_done h] at ho
    rcases triggeringStage_outcome s tr s.triggerEvents with h1 | h1
    · rw [h1] at ho; cases ho
    · rw [h1] at ho; cases ho

/-- C9: `parse()` returns false if and only if the scan matches the option named "help" while
the built-in help is enabled and continue-on-help is false, or the option named "version"
while the built-in version is enabled and continue-on-version is false; so with both continue
flags true every `parse()` that returns, returns true. -/
theorem C9_returns_false_iff (s0 : IArger) :
    (s0.parse.outcome = Outcome.returned false ↔
      ∃ s tr op n, Reaches s0 s tr op ∧ (s0.argv[op]?).bind s0.resolve = some n ∧
        ((n = "help" ∧ s0.usingAutoHelp = true ∧ s0.continueOnHelp = false) ∨
         (n = "version" ∧ s0.usingAutoVersion = true ∧ s0.continueOnVersion = false))) ∧
    (s0.continueOnHelp = true → s0.continueOnVersion = true →
      ∀ b, s0.parse.outcome = Outcome.returned b → b = true) := by
  have hiff : s0.parse.outcome = Outcome.returned false ↔
      ∃ s tr op n, Reaches s0 s tr op ∧ (s0.argv[op]?).bind s0.resolve = some n ∧
        (helpStop s0 n ∨ versionStop s0 n) := by
    constructor
    · intro ho
      exact returned_false_inv s0 _ _ _ Reaches.start ho
    · rintro ⟨s, tr, op, n, hr, hm, hstop⟩
      have hc := (reaches_config hr).1
      have h : op < s.argv.length := by
        rw [hc.argv]
        by_contra hcon
        have : s0.argv[op]? = none := List.getElem?_eq_none (Nat.le_of_not_lt hcon)
        rw [this] at hm
        cases hm
      have hfind : s.identifiersToNames.find s.argv[op] = some n := by
        rw [(reaches_find hr h).2]; exact hm
      rw [reaches_parse hr]
      by_cases hh : helpStop s n
      · rw [parsingStage_exit (parseToken_helpStop h hfind hh)]
      · have hv : versionStop s n := by
          rcases hstop with h1 | h1
          · exact absurd ((helpStop_congr hc n).mpr h1) hh
          · exact (versionStop_congr hc n).mpr h1
        rw [parsingStage_exit (parseToken_versionStop h hfind hh hv)]
  refine ⟨hiff, ?_⟩
  intro h1 h2 b hb
  cases b with
  | true => rfl
  | false =>
    obtain ⟨s, tr, op, n, -, -, hstop⟩ := hiff.mp hb
    rcases hstop with ⟨-, -, h3⟩ | ⟨-, -, h3⟩
    · rw [h1] at h3; cases h3
    · rw [h2] at h3; cases h3

theorem helpOnly_resolve (argv : List String) (t : String) :
    (helpOnly argv).resolve t = UMap.find [("-h", "help"), ("--help", "help")] t := by
  unfold IArger.resolve
  rw [helpOnly_eq]
  simp [mappingStage, UMap.assign, UMap.find]

/-- Witness of C9: with the built-in help and continue-on-help false, the scan of
`[prog, "--help", "-f", "bogus"]` matches `help` at index 1, so `parse()` returns false; and
with the default flags a `parse()` that returns false would have to return true. -/
theorem C9_returns_false_iff_witness :
    (helpOnly ["prog", "--help", "-f", "bogus"]).parse.outcome = Outcome.returned false ∧
    ((fileRead ["prog", "-r"]).parse.outcome = Outcome.returned false → false = true) :=
  ⟨(C9_returns_false_iff (helpOnly ["prog", "--help", "-f", "bogus"])).1.mpr
      ⟨_, [], 1, "help", Reaches.start,
        (by rw [show (helpOnly ["prog", "--help", "-f", "bogus"]).argv[1]? = some "--help"
              from rfl, Option.some_bind, helpOnly_resolve]; decide),
        Or.inl ⟨rfl, rfl, rfl⟩⟩,
   (C9_returns_false_iff (fileRead ["prog", "-r"])).2 rfl rfl false⟩

/-- C7: if the first `parse()` of a fresh parser throws, every function called so far is one
of the two built-in printers, called inline by the scan: no function of the hosting program
has been called. -/
theorem C7_no_user_callback_on_failure (s0 : IArger) (hf : s0.Fresh) (what : String)
    (ho : s0.parse.outcome = Outcome.thrown what) :
    (∀ f ∈ s0.parse.trace, f = Func.printHelp ∨ f = Func.printVersion) ∧
    (∀ name, Func.user name ∉ s0.parse.trace) := by
  have key : BuiltinOnly s0.parse.trace := by
    have := run_induction
      (fun _ tr _ r => BuiltinOnly tr → ∀ w, r.outcome = Outcome.thrown w → BuiltinOnly r.trace)
      ?_ ?_ ?_ (mappingStage s0) [] 1 (keysOK_mappingStage hf)
    · exact this (fun f h => by cases h) what ho
    · intro s tr op _ _ _ w hw
      rcases triggeringStage_outcome s tr s.triggerEvents with h1 | h1
      · rw [h1] at hw; cases hw
      · rw [h1] at hw; cases hw
    · intro s tr op h r _ hs hb w _
      rcases parseToken_exit hs with ⟨-, -, h3, -⟩ | ⟨n, -, -, h3⟩
      · rw [h3]; exact hb
      · rcases h3 with ⟨-, h4, -⟩ | ⟨-, -, h4, -⟩ | ⟨-, -, -, h4, -⟩
        · rw [h4]; exact (builtinOnly_calls hb).1
        · rw [h4]; exact (builtinOnly_calls hb).2
        · rw [h4]; exact (builtinOnly_calls hb).2
    · intro s tr op h s' tr' op' n o r _ _ _ hn ih hb w hw
      refine ih ?_ w hw
      rw [hn.trace]
      exact (builtinOnly_calls hb).2
  refine ⟨key, ?_⟩
  intro name hm
  rcases key _ hm with h | h <;> cases h

theorem notifyOnly_fresh (argv : List String) : (notifyOnly argv).Fresh := by
  rw [notifyOnly_eq]
  exact ⟨rfl, rfl, rfl⟩

/-- Witness of C7: with the event option `notify`, `[prog, "-n", "-x"]` fails at `-x`, and the
callback of the matched `-n` has not been called. -/
theorem C7_no_user_callback_on_failure_witness :
    (notifyOnly ["prog", "-n", "-x"]).parse.outcome = Outcome.thrown "Invalid option: -x" ∧
    Func.user "notify" ∉ (notifyOnly ["prog", "-n", "-x"]).parse.trace :=
  have ho : (notifyOnly ["prog", "-n", "-x"]).parse.outcome =
      Outcome.thrown "Invalid option: -x" := by
    rw [notifyOnly_eq]
    simp [IArger.parse, mappingStage, UMap.assign, UMap.find, parsingStage, parseToken,
      IArger.recordOption, IArger.optionData, UMap.subscript, callHelp, callVersion,
      enqueueEvent, invalidOption]
  ⟨ho, (C7_no_user_callback_on_failure (notifyOnly ["prog", "-n", "-x"]) (notifyOnly_fresh _)
    "Invalid option: -x" ho).2 "notify"⟩

/-! ## C4, C6 and C1: what a successful parse records -/

theorem matchedNames_eq (s : IArger) :
    s.matchedNames =
      (positionsFrom (mappingStage s).takesArgument 1 ((mappingStage s).argv.drop 1)).map
        (mappingStage s).tokenName := rfl

/-- C4: after a first `parse()` of a fresh parser that returns true, `getPassedOptions()` is
the sequence of the names that the tokens at the option positions resolve to: one entry for
each option position, in the order of the positions, which increase from index 1 on; and
the result does not depend on the token at index 0. -/
theorem C4_passed_options_in_order (s : IArger) (hf : s.Fresh)
    (ho : s.parse.outcome = Outcome.returned true) :
    s.parse.state.getPassedOptions.map some = s.matchedNames ∧
    s.parse.state.getPassedOptions.length = s.optionPositions.length ∧
    s.optionPositions.Pairwise (fun i j => i < j) ∧
    (∀ i ∈ s.optionPositions, 1 ≤ i) ∧
    (∀ a, a.drop 1 = s.argv.drop 1 →
      (s.withArgv a).parse.outcome = s.parse.outcome ∧
      (s.withArgv a).parse.state.getPassedOptions = s.parse.state.getPassedOptions) := by
  obtain ⟨names, h1, h2, -⟩ :=
    success_records (mappingStage s) [] 1 (keysOK_mappingStage hf) ho
  have hp : (mappingStage s).passedOptions = [] := hf.1
  rw [hp, List.nil_append] at h2
  have hmap : s.parse.state.getPassedOptions.map some = s.matchedNames := by
    rw [matchedNames_eq, h1]
    exact congrArg (List.map some) h2
  refine ⟨hmap, ?_, positionsFrom_pairwise _ _ _, fun i hi => positionsFrom_ge hi, ?_⟩
  · have := congrArg List.length hmap
    simpa [IArger.matchedNames] using this
  · intro a ha
    rw [parse_withArgv s a ha]
    exact ⟨rfl, rfl⟩

theorem notifyOnly_parse_twice :
    (notifyOnly ["prog", "-n", "-n"]).parse =
      { state :=
          { notifyOnly ["prog", "-n", "-n"] with
            identifiersToNames := [("-n", "notify")]
            passedOptions := ["notify", "notify"]
            triggerEvents := [some (Func.user "notify"), some (Func.user "notify")] }
        trace := [Func.user "notify", Func.user "notify"]
        outcome := Outcome.returned true } := by
  rw [notifyOnly_eq]
  simp [IArger.parse, mappingStage, UMap.assign, UMap.find, parsingStage, parseToken,
    IArger.recordOption, IArger.optionData, UMap.subscript, callHelp, callVersion,
    enqueueEvent, triggeringStage]

theorem notifyOnly_matchedNames :
    (notifyOnly ["prog", "-n", "-n"]).matchedNames = [some "notify", some "notify"] := by
  have h1 : (mappingStage (notifyOnly ["prog", "-n", "-n"])).takesArgument "-n" = false := by
    unfold IArger.takesArgument
    rw [notifyOnly_eq]
    simp [mappingStage, UMap.assign, UMap.find]
  have h2 : (notifyOnly ["prog", "-n", "-n"]).resolve "-n" = some "notify" := by
    unfold IArger.resolve
    rw [notifyOnly_eq]
    simp [mappingStage, UMap.assign, UMap.find]
  unfold IArger.matchedNames IArger.optionPositions
  rw [show (notifyOnly ["prog", "-n", "-n"]).argv = ["prog", "-n", "-n"] from rfl]
  simp [positionsFrom, h1, h2]

/-- Witness of C4: with `notify` (`-n`) registered, `[prog, "-n", "-n"]` gives
`getPassedOptions() == ["notify", "notify"]`: the two option positions 1 and 2 resolve to
`notify`, and both are kept. -/
theorem C4_passed_options_in_order_witness :
    (notifyOnly ["prog", "-n", "-n"]).parse.outcome = Outcome.returned true ∧
    (notifyOnly ["prog", "-n", "-n"]).matchedNames = [some "notify", some "notify"] ∧
    (notifyOnly ["prog", "-n", "-n"]).parse.state.getPassedOptions = ["notify", "notify"] :=
  have ho : (notifyOnly ["prog", "-n", "-n"]).parse.outcome = Outcome.returned true := by
    rw [notifyOnly_parse_twice]
  have hc := (C4_passed_options_in_order (notifyOnly ["prog", "-n", "-n"]) (notifyOnly_fresh _)
    ho).1
  have hm := notifyOnly_matchedNames
  ⟨ho, hm, by
    have h2 : List.map some (notifyOnly ["prog", "-n", "-n"]).parse.state.getPassedOptions =
        List.map some ["notify", "notify"] := by rw [hc, hm]; rfl
    exact List.map_injective_iff.mpr (Option.some_injective _) h2⟩

/-- C6: on a first `parse()` of a fresh parser that returns true, the scan has arrived at the
end of the argument vector before the first queued function is called, and the functions
called after that are the callbacks of the matched event options: one call for each option
position whose token resolves to an option with an event, in the order of the positions. -/
theorem C6_dispatch_after_scan (s : IArger) (hf : s.Fresh)
    (ho : s.parse.outcome = Outcome.returned true) :
    ∃ (names : List String) (s' : IArger) (tr' : List Func) (op' : Nat) (fs : List Func),
      s.matchedNames = names.map some ∧
      Reaches s s' tr' op' ∧ s'.argv.length ≤ op' ∧
      s.parse.trace = tr' ++ fs ∧
      fs.map some = (names.filter s.isEvent).map s.funcOf := by
  obtain ⟨names, h1, -, h3⟩ :=
    success_records (mappingStage s) [] 1 (keysOK_mappingStage hf) ho
  obtain ⟨s', tr', op', fs, hr, hend, hstate, hq, htrace⟩ :=
    success_dispatch s (mappingStage s) [] 1 Reaches.start ho
  refine ⟨names, s', tr', op', fs, h1, hr, hend, htrace, ?_⟩
  have ht : (mappingStage s).triggerEvents = [] := hf.2.1
  rw [← hq, ← hstate, h3, ht, List.nil_append]
  rfl

/-- Witness of C6: with the event option `notify` (`-n`), `[prog, "-n", "-n"]` calls the
callback exactly twice, after the scan of the whole vector, which itself calls nothing. -/
theorem C6_dispatch_after_scan_witness :
    (notifyOnly ["prog", "-n", "-n"]).parse.outcome = Outcome.returned true ∧
    (notifyOnly ["prog", "-n", "-n"]).parse.trace = [Func.user "notify", Func.user "notify"] ∧
    ∃ (s' : IArger) (tr' : List Func) (op' : Nat),
      Reaches (notifyOnly ["prog", "-n", "-n"]) s' tr' op' ∧ s'.argv.length ≤ op' ∧
      (notifyOnly ["prog", "-n", "-n"]).parse.trace =
        tr' ++ [Func.user "notify", Func.user "notify"] := by
  have ho : (notifyOnly ["prog", "-n", "-n"]).parse.outcome = Outcome.returned true := by
    rw [notifyOnly_parse_twice]
  refine ⟨ho, by rw [notifyOnly_parse_twice], ?_⟩
  obtain ⟨names, s', tr', op', fs, h1, hr, hend, htrace, hfs⟩ :=
    C6_dispatch_after_scan (notifyOnly ["prog", "-n", "-n"]) (notifyOnly_fresh _) ho
  have hm := notifyOnly_matchedNames
  rw [hm] at h1
  have h1' : List.map some ["notify", "notify"] = List.map some names := h1
  have hn : names = ["notify", "notify"] :=
    (List.map_injective_iff.mpr (Option.some_injective _) h1').symm
  subst hn
  have hfs' : fs = [Func.user "notify", Func.user "notify"] := by
    apply List.map_injective_iff.mpr (Option.some_injective _)
    rw [hfs, notifyOnly_eq]
    simp [IArger.isEvent, IArger.funcOf, UMap.find]
  subst hfs'
  exact ⟨s', tr', op', hr, hend, htrace⟩

/-- C1: after a first `parse()` of a fresh parser that returns true, for every registered
option that requires an argument and was matched, `getOptionArgument(name)` is the token that
follows the last option position whose token resolved to that name. -/
theorem C1_argument_follows_last_match (s : IArger) (hf : s.Fresh)
    (ho : s.parse.outcome = Outcome.returned true) (name : String) (o : Option)
    (hreg : s.options.find name = some o) (hreq : o.requiresArg = RequiresArg.Yes)
    (hm : s.parse.state.optionExists name = true) :
    ∃ i a, i ∈ s.optionPositions ∧ (s.argv[i]?).bind s.resolve = some name ∧
      (∀ j ∈ s.optionPositions, i < j → (s.argv[j]?).bind s.resolve ≠ some name) ∧
      s.argv[i + 1]? = some a ∧
      s.parse.state.getOptionArgument name = Except.ok a := by
  have hk := keysOK_mappingStage hf
  obtain ⟨names, h1, h2, -⟩ := success_records (mappingStage s) [] 1 hk ho
  have hp : (mappingStage s).passedOptions = [] := hf.1
  rw [hp, List.nil_append] at h2
  have hmem : name ∈ names := by
    have : name ∈ s.parse.state.passedOptions := by
      have := of_decide_eq_true hm
      exact List.count_pos_iff.mp this
    rw [← h2]
    exact this
  rcases success_argument (mappingStage s) [] 1 hk ho name o hreg hreq with
    ⟨hnone, -⟩ | ⟨i, a, hi, hik, hlater, hia, hfin⟩
  · exfalso
    have : some name ∈ names.map some := List.mem_map_of_mem _ hmem
    rw [← h1] at this
    obtain ⟨i, hi, hik⟩ := List.mem_map.mp this
    exact hnone i hi hik
  · refine ⟨i, a, hi, hik, hlater, hia, ?_⟩
    show (UMap.at _ name).map _ = _
    unfold UMap.at
    have hfin' : s.parse.state.options.find name = some { o with argument := a } := hfin
    rw [hfin']
    rfl

theorem fileRead_parse_example :
    (fileRead ["prog", "-r", "-f", "data.txt"]).parse.outcome = Outcome.returned true ∧
    (fileRead ["prog", "-r", "-f", "data.txt"]).parse.state.passedOptions = ["read", "file"] := by
  rw [fileRead_eq]
  simp [IArger.parse, mappingStage, UMap.assign, UMap.find, parsingStage, parseToken,
    IArger.recordOption, IArger.optionData, IArger.storeArgument, UMap.subscript, callHelp,
    callVersion, enqueueEvent, triggeringStage]

theorem fileRead_positions_example :
    (fileRead ["prog", "-r", "-f", "data.txt"]).optionPositions = [1, 2] := by
  unfold IArger.optionPositions
  have h1 : (mappingStage (fileRead ["prog", "-r", "-f", "data.txt"])).takesArgument "-r"
      = false := by
    unfold IArger.takesArgument
    rw [fileRead_mapping]
    rw [show (mappingStage (fileRead ["prog", "-r", "-f", "data.txt"])).options =
      (fileRead ["prog", "-r", "-f", "data.txt"]).options from rfl, fileRead_eq]
    simp [UMap.find]
  have h2 : (mappingStage (fileRead ["prog", "-r", "-f", "data.txt"])).takesArgument "-f"
      = true := by
    unfold IArger.takesArgument
    rw [fileRead_mapping]
    rw [show (mappingStage (fileRead ["prog", "-r", "-f", "data.txt"])).options =
      (fileRead ["prog", "-r", "-f", "data.txt"]).options from rfl, fileRead_eq]
    simp [UMap.find]
  rw [show (fileRead ["prog", "-r", "-f", "data.txt"]).argv.drop 1 = ["-r", "-f", "data.txt"]
    from rfl]
  simp [positionsFrom, h1, h2]

/-- Witness of C1: `file` (`-f|--file`, requires an argument) and `read` (`-r|--read`), input
`[prog, "-r", "-f", "data.txt"]`: `parse()` returns true, both options exist, and the
argument of `file` is `data.txt`. -/
theorem C1_argument_follows_last_match_witness :
    (fileRead ["prog", "-r", "-f", "data.txt"]).parse.outcome = Outcome.returned true ∧
    (fileRead ["prog", "-r", "-f", "data.txt"]).parse.state.optionExists "read" = true ∧
    (fileRead ["prog", "-r", "-f", "data.txt"]).parse.state.optionExists "file" = true ∧
    (fileRead ["prog", "-r", "-f", "data.txt"]).parse.state.getOptionArgument "file" =
      Except.ok "data.txt" := by
  obtain ⟨ho, hp⟩ := fileRead_parse_example
  have hr : (fileRead ["prog", "-r", "-f", "data.txt"]).parse.state.optionExists "read" = true := by
    unfold IArger.optionExists; rw [hp]; decide
  have hfile : (fileRead ["prog", "-r", "-f", "data.txt"]).parse.state.optionExists "file"
      = true := by
    unfold IArger.optionExists; rw [hp]; decide
  refine ⟨ho, hr, hfile, ?_⟩
  obtain ⟨i, a, hi, hik, -, hia, hget⟩ :=
    C1_argument_follows_last_match (fileRead ["prog", "-r", "-f", "data.txt"]) (fileRead_fresh _)
      ho "file"
      { name := "file", identifiers := ["-f", "--file"], description := "The file to read",
        requiresArg := RequiresArg.Yes, func := none, argument := "" }
      (by rw [fileRead_eq]; decide) rfl hfile
  rw [fileRead_positions_example] at hi
  have harg : (fileRead ["prog", "-r", "-f", "data.txt"]).argv = ["prog", "-r", "-f", "data.txt"] :=
    rfl
  rw [harg] at hik hia
  simp only [List.mem_cons, List.mem_singleton, List.not_mem_nil, or_false] at hi
  rcases hi with rfl | rfl
  · rw [show (["prog", "-r", "-f", "data.txt"] : List String)[1]? = some "-r" from rfl,
      Option.some_bind, fileRead_resolve] at hik
    exact absurd hik (by decide)
  · rw [show (["prog", "-r", "-f", "data.txt"] : List String)[2 + 1]? = some "data.txt" from rfl]
      at hia
    cases hia
    exact hget

/-! ## C8: the help short-circuit -/

theorem split_output : split "-o|--output" '|' = ["-o", "--output"] := by
  simp [split, splitLoop]

theorem split_size : split "-S|--size" '|' = ["-S", "--size"] := by
  simp [split, splitLoop]

theorem split_doSomething : split "-d|--do-something" '|' = ["-d", "--do-something"] := by
  simp [split, splitLoop]

/-! ## C5: identifiers are matched literally -/

/-- A run of the loop only appends to the recorded names. -/
theorem passedOptions_grows (s : IArger) (tr : List Func) (op : Nat) (hk : s.KeysOK) :
    ∃ more, (parsingStage s tr op).state.passedOptions = s.passedOptions ++ more := by
  refine run_induction
    (fun s _ _ r => ∃ more, r.state.passedOptions = s.passedOptions ++ more) ?_ ?_ ?_ s tr op hk
  · intro s tr op _ _
    exact ⟨[], by rw [triggeringStage_state]; simp⟩
  · intro s tr op h r _ hs
    rcases parseToken_exit hs with ⟨-, h2, -, -⟩ | ⟨n, -, h2, -⟩
    · exact ⟨[], by rw [h2]; simp⟩
    · exact ⟨[n], h2⟩
  · intro s tr op h s' tr' op' n o r _ _ _ hn ih
    obtain ⟨more, hmore⟩ := ih
    exact ⟨n :: more, by rw [hmore, hn.passedOptions]; simp⟩

theorem fresh_withArgv {s : IArger} (hf : s.Fresh) (a : List String) : (s.withArgv a).Fresh := hf

/-- What `parse()` records for a vector whose token at index 1 resolves to `k`. -/
theorem records_first {s : IArger} (hf : s.Fresh) {k : String} (prog id : String)
    (rest : List String) (hres : s.resolve id = some k) :
    ∃ more, (s.withArgv (prog :: id :: rest)).parse.state.getPassedOptions = k :: more ∧
      (rest = [] → more = []) := by
  have hk := keysOK_mappingStage (fresh_withArgv hf (prog :: id :: rest))
  have hp : (mappingStage (s.withArgv (prog :: id :: rest))).passedOptions = [] := hf.1
  have h : 1 < (mappingStage (s.withArgv (prog :: id :: rest))).argv.length := by
    show 1 < (prog :: id :: rest).length
    simp
  have hfind : (mappingStage (s.withArgv (prog :: id :: rest))).identifiersToNames.find
      (mappingStage (s.withArgv (prog :: id :: rest))).argv[1] = some k := hres
  show ∃ more, (parsingStage _ [] 1).state.passedOptions = k :: more ∧ _
  cases hs : parseToken (mappingStage (s.withArgv (prog :: id :: rest))) [] 1 h with
  | exit r =>
    rw [parsingStage_exit hs]
    rcases parseToken_exit hs with ⟨h1, -, -, -⟩ | ⟨n, h1, h2, -⟩
    · rw [hfind] at h1; cases h1
    · rw [hfind] at h1
      cases h1
      rw [hp] at h2
      exact ⟨[], h2, fun _ => rfl⟩
  | next s' tr' op' =>
    rw [parsingStage_next hs]
    obtain ⟨n, o, hn⟩ := parseToken_next hs hk
    have hnk : n = k := by
      have h1 := hn.token
      rw [List.getElem?_eq_getElem h, Option.some_bind, hfind] at h1
      exact (Option.some.inj h1).symm
    subst hnk
    have hps : s'.passedOptions = [n] := by rw [hn.passedOptions, hp]; rfl
    obtain ⟨more, hmore⟩ := passedOptions_grows s' tr' op' (keysOK_next hn hk)
    refine ⟨more, by rw [hmore, hps]; rfl, ?_⟩
    intro hrest
    subst hrest
    have hdone : ¬ op' < s'.argv.length := by
      rw [hn.argv]
      have : 1 < op' := (parseToken_next_argv hs).2
      show ¬ op' < [prog, id].length
      simp only [List.length_cons, List.length_nil]
      omega
    rw [parsingStage_done hdone, triggeringStage_state, hps] at hmore
    simpa using hmore.symm

/-- C5: on a fresh parser, an identifier that only options of one name list resolves to that
name, for every identifier of the option, and parsing a vector with that identifier at index 1
records that name first (and nothing else when the vector ends there); a token that no
registered option lists literally resolves to no option, and parsing it at index 1 fails with
the unknown-option error. -/
theorem C5_identifiers_resolve_literally (s : IArger) (hf : s.Fresh) :
    (∀ k o id, (k, o) ∈ s.options → id ∈ o.identifiers →
      (∀ k' o', (k', o') ∈ s.options → id ∈ o'.identifiers → k' = k) →
      s.resolve id = some k ∧
      (∀ prog, (s.withArgv [prog, id]).parse.state.getPassedOptions = [k]) ∧
      (∀ prog rest, ∃ more,
        (s.withArgv (prog :: id :: rest)).parse.state.getPassedOptions = k :: more)) ∧
    (∀ token, (∀ k o, (k, o) ∈ s.options → token ∉ o.identifiers) →
      s.resolve token = none ∧
      (∀ prog rest, (s.withArgv (prog :: token :: rest)).parse.outcome =
        Outcome.thrown ("Invalid option: " ++ token))) := by
  constructor
  · intro k o id hm hid hu
    have hres : s.resolve id = some k := by
      rw [resolve_eq_lastOwner hf]
      exact lastOwner_unshared hm hid hu
    refine ⟨hres, ?_, ?_⟩
    · intro prog
      obtain ⟨more, h1, h2⟩ := records_first hf prog id [] hres
      rw [h1, h2 rfl]
    · intro prog rest
      obtain ⟨more, h1, -⟩ := records_first hf prog id rest hres
      exact ⟨more, h1⟩
  · intro token hu
    have hres : s.resolve token = none := by
      rw [resolve_eq_lastOwner hf]
      exact lastOwner_none.mpr hu
    refine ⟨hres, ?_⟩
    intro prog rest
    exact @reaches_unknown_fails (s.withArgv (prog :: token :: rest))
      (fresh_withArgv hf _) token hu _ _ _ Reaches.start (by simp [IArger.withArgv])

/-- Witness of C5: with `file` registered as `-f|--file`, both `-f` and `--file` resolve to
`file` and record it; `-F`, `--fil` and `--file=x` resolve to nothing and are rejected. -/
theorem C5_identifiers_resolve_literally_witness :
    (fileRead []).resolve "-f" = some "file" ∧
    (fileRead []).resolve "--file" = some "file" ∧
    (∃ more, ((fileRead []).withArgv ["prog", "-f", "x"]).parse.state.getPassedOptions =
      "file" :: more) ∧
    (∃ more, ((fileRead []).withArgv ["prog", "--file", "x"]).parse.state.getPassedOptions =
      "file" :: more) ∧
    ((fileRead []).withArgv ["prog", "-F"]).parse.outcome = Outcome.thrown "Invalid option: -F" ∧
    ((fileRead []).withArgv ["prog", "--fil"]).parse.outcome =
      Outcome.thrown "Invalid option: --fil" ∧
    ((fileRead []).withArgv ["prog", "--file=x"]).parse.outcome =
      Outcome.thrown "Invalid option: --file=x" := by
  have hc := C5_identifiers_resolve_literally (fileRead []) (fileRead_fresh _)
  have hmem : ("file", fileOption) ∈ (fileRead []).options := by
    rw [fileRead_eq]; simp [fileOption]
  have hown : ∀ id, id = "-f" ∨ id = "--file" →
      ∀ k' o', (k', o') ∈ (fileRead []).options → id ∈ o'.identifiers → k' = "file" := by
    intro id hid k' o' hm hi
    rw [fileRead_eq] at hm
    simp at hm
    rcases hm with ⟨rfl, rfl⟩ | ⟨rfl, rfl⟩
    · rcases hid with rfl | rfl <;> simp at hi
    · rfl
  have hno : ∀ t, t = "-F" ∨ t = "--fil" ∨ t = "--file=x" →
      ∀ k o, (k, o) ∈ (fileRead []).options → t ∉ o.identifiers := by
    intro t ht k o hm
    rw [fileRead_eq] at hm
    simp at hm
    rcases hm with ⟨-, rfl⟩ | ⟨-, rfl⟩ <;> rcases ht with rfl | rfl | rfl <;> simp
  have h1 := hc.1 "file" _ "-f" hmem (by simp [fileOption]) (hown "-f" (Or.inl rfl))
  have h2 := hc.1 "file" _ "--file" hmem (by simp [fileOption]) (hown "--file" (Or.inr rfl))
  exact ⟨h1.1, h2.1, h1.2.2 "prog" ["x"], h2.2.2 "prog" ["x"],
    (hc.2 "-F" (hno _ (Or.inl rfl))).2 "prog" [],
    (hc.2 "--fil" (hno _ (Or.inr (Or.inl rfl)))).2 "prog" [],
    (hc.2 "--file=x" (hno _ (Or.inr (Or.inr rfl)))).2 "prog" []⟩

/-! ## C10: the built-in callbacks -/

theorem helpDefault_eq (argv : List String) :
    helpDefault argv =
      { argv := argv
        usingAutoHelp := true
        options :=
          [("help", { name := "help", identifiers := ["-h", "--help"],
                      description := "Display this help message", requiresArg := RequiresArg.No,
                      func := some Func.printHelp, argument := "" })]
        allOptions := ["help"]
        eventOptions := ["help"] } := by
  simp [helpDefault, IArger.new, IArger.addHelpOption, IArger.addOptionEvent, split_help,
    UMap.assign, UMap.find]

theorem versionDefault_eq (argv : List String) :
    versionDefault argv =
      { argv := argv
        usingAutoVersion := true
        version := "1.0.0"
        options :=
          [("version", { name := "version", identifiers := ["-v", "--version"],
                         description := "Display the version of this application",
                         requiresArg := RequiresArg.No,
                         func := some Func.printVersion, argument := "" })]
        allOptions := ["version"]
        eventOptions := ["version"] } := by
  simp [versionDefault, IArger.new, IArger.addVersionOption, IArger.addOptionEvent,
    split_version, UMap.assign, UMap.find]

/-- C10 fails on the code: with the built-in help option and continue-on-help true, the one
help token of `[prog, "-h"]` has the help printer called twice, inline at the token and once
more by the triggering stage, where it is queued like every event option; likewise for the
one version token of `[prog, "-v"]`. -/
theorem C10_builtin_called_twice :
    (helpDefault ["prog", "-h"]).continueOnHelp = true ∧
    (helpDefault ["prog", "-h"]).parse.outcome = Outcome.returned true ∧
    (helpDefault ["prog", "-h"]).parse.state.getPassedOptions = ["help"] ∧
    (helpDefault ["prog", "-h"]).parse.state.triggerEvents = [some Func.printHelp] ∧
    (helpDefault ["prog", "-h"]).parse.trace = [Func.printHelp, Func.printHelp] ∧
    (versionDefault ["prog", "-v"]).continueOnVersion = true ∧
    (versionDefault ["prog", "-v"]).parse.outcome = Outcome.returned true ∧
    (versionDefault ["prog", "-v"]).parse.state.getPassedOptions = ["version"] ∧
    (versionDefault ["prog", "-v"]).parse.trace = [Func.printVersion, Func.printVersion] := by
  rw [helpDefault_eq, versionDefault_eq]
  simp [IArger.parse, mappingStage, UMap.assign, UMap.find, parsingStage, parseToken,
    IArger.recordOption, IArger.optionData, UMap.subscript, callHelp, callVersion,
    enqueueEvent, triggeringStage, IArger.getPassedOptions]

/-! ## C11, C12, C13 and C15: runs of the code that its comments do not describe -/

/-- C11 fails on the code: in the configuration of the example program (built-in help and
version, continue-on-help false) a vector that contains a help identifier does not always
return false without an error: an unregistered token before the help token is looked up
first and `parse()` throws, and a help identifier that follows `-f` is stored as the argument
of `file`, so `parse()` returns true and the help printer is never called. -/
theorem C11_tokens_before_help_are_parsed :
    (setupOptions (IArger.new ["prog", "-x", "-h"]) 0).continueOnHelp = false ∧
    (setupOptions (IArger.new ["prog", "-x", "-h"]) 0).parse.outcome =
      Outcome.thrown "Invalid option: -x" ∧
    (setupOptions (IArger.new ["prog", "-f", "-h"]) 0).parse.outcome = Outcome.returned true ∧
    (setupOptions (IArger.new ["prog", "-f", "-h"]) 0).parse.trace = [] ∧
    (setupOptions (IArger.new ["prog", "-f", "-h"]) 0).parse.state.getOptionArgument "file" =
      Except.ok "-h" := by
  simp [setupOptions, IArger.new, IArger.setAppName, IArger.addHelpOption,
    IArger.addVersionOption, IArger.addOption, IArger.addOptionEvent, IArger.setContinueOnHelp,
    IArger.setContinueOnVersion, split_help, split_version, split_file, split_read, split_output,
    split_size, split_doSomething, UMap.assign, UMap.find, IArger.parse, mappingStage,
    parsingStage, parseToken, IArger.recordOption, IArger.optionData, IArger.storeArgument,
    UMap.subscript, callHelp, callVersion, enqueueEvent, triggeringStage, invalidOption,
    IArger.getOptionArgument, UMap.at]
  rfl

/-- C12 fails on the code: with both built-in options and continue-on-help false, a version
token before the help token is not ignored.  With continue-on-version false (the example
program) `parse()` returns at the version token and the help printer is never called; with
continue-on-version true the version printer is called before the help printer. -/
theorem C12_version_before_help_is_not_ignored :
    (setupOptions (IArger.new ["prog", "-v", "-h"]) 0).continueOnHelp = false ∧
    (setupOptions (IArger.new ["prog", "-v", "-h"]) 0).parse.trace = [Func.printVersion] ∧
    ((setupOptions (IArger.new ["prog", "-v", "-h"]) 0).setContinueOnVersion true).parse.outcome =
      Outcome.returned false ∧
    ((setupOptions (IArger.new ["prog", "-v", "-h"]) 0).setContinueOnVersion true).parse.trace =
      [Func.printVersion, Func.printHelp] := by
  simp [setupOptions, IArger.new, IArger.setAppName, IArger.addHelpOption,
    IArger.addVersionOption, IArger.addOption, IArger.addOptionEvent, IArger.setContinueOnHelp,
    IArger.setContinueOnVersion, split_help, split_version, split_file, split_read, split_output,
    split_size, split_doSomething, UMap.assign, UMap.find, IArger.parse, mappingStage,
    parsingStage, parseToken, IArger.recordOption, IArger.optionData, IArger.storeArgument,
    UMap.subscript, callHelp, callVersion, enqueueEvent, triggeringStage]

/-- C13 fails on the code: after `notify` is registered with a callback and then again without
one, the name is still in the list of event options and the new entry holds no function, so a
`parse()` that matches it queues that pointer and the triggering stage calls through it. -/
theorem C13_reregistered_event_is_still_queued :
    (notifyTwice ["prog", "-n"]).options.find "notify" =
      some { name := "notify", identifiers := ["-n"], description := "Count a notification",
             requiresArg := RequiresArg.No, func := none, argument := "" } ∧
    (notifyTwice ["prog", "-n"]).eventOptions = ["notify"] ∧
    (notifyTwice ["prog", "-n"]).parse.state.triggerEvents = [none] ∧
    (notifyTwice ["prog", "-n"]).parse.outcome = Outcome.undefined := by
  simp [notifyTwice, IArger.new, IArger.addOption, IArger.addOptionEvent, split_n, UMap.assign,
    UMap.find, IArger.parse, mappingStage, parsingStage, parseToken, IArger.recordOption,
    IArger.optionData, UMap.subscript, callHelp, callVersion, enqueueEvent, triggeringStage]

/-- C15 fails on the code: after a delimiter `split` goes on at index 1 of the rest, so the
character right behind a pipe is never examined: a second pipe there stays in the token, and
the identifier stored by a registration contains a pipe. -/
theorem C15_split_keeps_pipe_after_pipe :
    split "a||b" '|' = ["a", "|b"] ∧
    ((IArger.new []).addOption "file" "-f||--file" "" RequiresArg.Yes 0).options.find "file" =
      some { name := "file", identifiers := ["-f", "|--file"], description := "",
             requiresArg := RequiresArg.Yes, func := none, argument := "" } ∧
    split "-f|--file" '|' = ["-f", "--file"] := by
  simp [split, splitLoop, IArger.new, IArger.addOption, UMap.assign, UMap.find]

/-! ## The tokens of split -/

/-- The loop of `split` appends to `tokens` a non-empty list of pieces of `str` that, with the
delimiter put back before every piece but the first, make up `str`. -/
theorem splitLoop_pieces (delimiter : Char) (tokens : List String) (str : List Char) (i : Nat) :
    ∃ (p : List Char) (ps : List (List Char)),
      splitLoop delimiter tokens str i = tokens ++ (p :: ps).map String.mk ∧
      p ++ ps.flatMap (fun q => delimiter :: q) = str := by
  induction tokens, str, i using splitLoop.induct delimiter with
  | case1 tokens str i h hd ih =>
    obtain ⟨p, ps, h1, h2⟩ := ih
    refine ⟨str.take i, p :: ps, ?_, ?_⟩
    · rw [splitLoop, dif_pos h, if_pos hd, h1]
      simp
    · rw [List.flatMap_cons, List.cons_append, h2, ← hd, ← List.drop_eq_getElem_cons h,
        List.take_append_drop]
  | case2 tokens str i h hd ih =>
    obtain ⟨p, ps, h1, h2⟩ := ih
    refine ⟨p, ps, ?_, h2⟩
    rw [splitLoop, dif_pos h, if_neg hd, h1]
  | case3 tokens str i h =>
    refine ⟨str, [], ?_, by simp⟩
    rw [splitLoop, dif_neg h]
    rfl

theorem intercalate_go_data (sep : String) (acc : String) (l : List String) :
    (String.intercalate.go acc sep l).data =
      acc.data ++ l.flatMap (fun a => sep.data ++ a.data) := by
  induction l generalizing acc with
  | nil => simp [String.intercalate.go]
  | cons a rest ih =>
    rw [String.intercalate.go, ih]
    simp [List.flatMap_cons, List.append_assoc]

/-- The tokens of `split` are at least one, and joined by the delimiter they give the string
back. -/
theorem split_join (str : String) (delimiter : Char) :
    split str delimiter ≠ [] ∧
      String.intercalate (String.singleton delimiter) (split str delimiter) = str := by
  obtain ⟨p, ps, h1, h2⟩ := splitLoop_pieces delimiter [] str.data 0
  have hs : split str delimiter = (p :: ps).map String.mk := by
    unfold split
    rw [h1]
    rfl
  refine ⟨by rw [hs]; simp, ?_⟩
  apply String.ext
  rw [hs, List.map_cons, String.intercalate, intercalate_go_data, ← h2]
  simp [List.flatMap_map]

/-! ## Parsers built by the hosting program -/

theorem UMap.find_eq_none_iff {V : Type} (m : UMap V) (k : String) :
    m.find k = none ↔ k ∉ m.map Prod.fst := by
  induction m with
  | nil => simp
  | cons e rest ih =>
    obtain ⟨a, b⟩ := e
    rw [UMap.find_cons]
    by_cases hak : a = k
    · subst hak; simp
    · rw [if_neg hak, ih]
      have : ¬ k = a := fun h => hak h.symm
      simp [this]

theorem UMap.keys_assign_of_find {V : Type} (m : UMap V) (k : String) (v : V) (slot : Nat)
    (h : m.find k ≠ none) : (m.assign k v slot).map Prod.fst = m.map Prod.fst := by
  unfold UMap.assign
  cases hk : m.find k with
  | none => exact absurd hk h
  | some w =>
    simp only [List.map_map]
    apply List.map_congr_left
    intro e _
    simp only [Function.comp]
    by_cases he : e.1 = k
    · rw [if_pos he, he]
    · rw [if_neg he]

theorem UMap.keys_assign_of_none {V : Type} (m : UMap V) (k : String) (v : V) (slot : Nat)
    (h : m.find k = none) :
    (m.assign k v slot).map Prod.fst =
      (m.map Prod.fst).take slot ++ k :: (m.map Prod.fst).drop slot := by
  unfold UMap.assign
  rw [h]
  simp [List.map_take, List.map_drop]

theorem UMap.nodup_assign {V : Type} (m : UMap V) (k : String) (v : V) (slot : Nat)
    (h : (m.map Prod.fst).Nodup) : ((m.assign k v slot).map Prod.fst).Nodup := by
  cases hk : m.find k with
  | some w => rw [UMap.keys_assign_of_find m k v slot (by rw [hk]; simp)]; exact h
  | none =>
    rw [UMap.keys_assign_of_none m k v slot hk]
    have hnot := (UMap.find_eq_none_iff m k).mp hk
    have hperm : (List.take slot (m.map Prod.fst) ++ k :: List.drop slot (m.map Prod.fst)).Perm
        (k :: m.map Prod.fst) := by
      have h1 := @List.perm_middle _ k (List.take slot (m.map Prod.fst))
        (List.drop slot (m.map Prod.fst))
      rw [List.take_append_drop] at h1
      exact h1
    exact hperm.nodup_iff.mpr (List.nodup_cons.mpr ⟨hnot, h⟩)

theorem UMap.mem_assign {V : Type} {m : UMap V} {k : String} {v : V} {slot : Nat}
    {e : String × V} (h : e ∈ m.assign k v slot) : e = (k, v) ∨ e ∈ m := by
  unfold UMap.assign at h
  cases hk : m.find k with
  | none =>
    rw [hk] at h
    simp only [List.mem_append, List.mem_cons] at h
    rcases h with h | h | h
    · exact Or.inr (List.mem_of_mem_take h)
    · exact Or.inl h
    · exact Or.inr (List.mem_of_mem_drop h)
  | some w =>
    rw [hk] at h
    simp only [List.mem_map] at h
    obtain ⟨e', he', rfl⟩ := h
    by_cases hc : e'.1 = k
    · rw [if_pos hc]; exact Or.inl rfl
    · rw [if_neg hc]; exact Or.inr he'

theorem UMap.find_of_mem_nodup {V : Type} {m : UMap V} {k : String} {v : V}
    (hn : (m.map Prod.fst).Nodup) (h : (k, v) ∈ m) : m.find k = some v := by
  induction m with
  | nil => cases h
  | cons e rest ih =>
    obtain ⟨a, b⟩ := e
    rw [List.map_cons, List.nodup_cons] at hn
    rw [UMap.find_cons]
    rcases List.mem_cons.mp h with h1 | h1
    · cases h1; rw [if_pos rfl]
    · have hne : ¬ a = k := by
        intro hak
        subst hak
        exact hn.1 (List.mem_map.mpr ⟨(a, v), h1, rfl⟩)
      rw [if_neg hne]
      exact ih hn.2 h1

theorem UMap.mem_of_find {V : Type} {m : UMap V} {k : String} {v : V} (h : m.find k = some v) :
    (k, v) ∈ m := by
  induction m with
  | nil => cases h
  | cons e rest ih =>
    obtain ⟨a, b⟩ := e
    rw [UMap.find_cons] at h
    by_cases hak : a = k
    · rw [if_pos hak] at h
      cases h
      subst hak
      exact List.mem_cons_self _ _
    · rw [if_neg hak] at h
      exact List.mem_cons_of_mem _ (ih h)

theorem builtFacts_new (argv : List String) : BuiltFacts (IArger.new argv) :=
  ⟨⟨rfl, rfl, rfl⟩, List.nodup_nil, fun k => by simp [IArger.new], fun k o h => by cases h⟩

theorem builtFacts_register {s : IArger} (hb : BuiltFacts s) (optionName : String)
    (option : Option) (slot : Nat) (events : List String)
    (ha : option.argument = "") (hi : option.identifiers ≠ []) (hn : option.name = optionName) :
    BuiltFacts
      { s with
        options := s.options.assign optionName option slot
        allOptions := s.allOptions ++ [optionName]
        eventOptions := events } := by
  refine ⟨hb.fresh, UMap.nodup_assign _ _ _ _ hb.unique, ?_, ?_⟩
  · intro k
    show k ∈ s.allOptions ++ [optionName] ↔ (s.options.assign optionName option slot).find k ≠ none
    rw [UMap.find_assign, List.mem_append, hb.keys k]
    by_cases hk : optionName = k
    · subst hk; simp
    · have : ¬ k = optionName := fun h => hk h.symm
      simp [hk, this]
  · intro k o hm
    rcases UMap.mem_assign hm with h | h
    · cases h; exact ⟨ha, hi, hn⟩
    · exact hb.entries k o h

theorem builtFacts_addOption {s : IArger} (hb : BuiltFacts s)
    (optionName identifiers helpMessage : String) (requiresArgs : RequiresArg) (slot : Nat) :
    BuiltFacts (s.addOption optionName identifiers helpMessage requiresArgs slot) :=
  builtFacts_register hb optionName _ slot s.eventOptions rfl (split_join identifiers '|').1 rfl

theorem builtFacts_addOptionEvent {s : IArger} (hb : BuiltFacts s)
    (optionName identifier helpMessage : String) (requiresArgs : RequiresArg)
    (eventFunction : Func) (slot : Nat) :
    BuiltFacts (s.addOptionEvent optionName identifier helpMessage requiresArgs eventFunction slot) :=
  builtFacts_register hb optionName _ slot (s.eventOptions ++ [optionName]) rfl
    (split_join identifier '|').1 rfl

theorem builtFacts_flags {s s' : IArger} (hb : BuiltFacts s)
    (h1 : s'.options = s.options) (h2 : s'.allOptions = s.allOptions)
    (h3 : s'.passedOptions = s.passedOptions) (h4 : s'.triggerEvents = s.triggerEvents)
    (h5 : s'.identifiersToNames = s.identifiersToNames) : BuiltFacts s' := by
  refine ⟨?_, ?_, ?_, ?_⟩
  · unfold IArger.Fresh
    rw [h3, h4, h5]
    exact hb.fresh
  · unfold IArger.UniqueKeys
    rw [h1]
    exact hb.unique
  · intro k
    rw [h1, h2]
    exact hb.keys k
  · intro k o hm
    rw [h1] at hm
    exact hb.entries k o hm

/-- Every parser built by the hosting program is fresh, has pairwise different keys, has the
registered names as its keys, and holds options with an empty argument slot and at least one
identifier. -/
theorem builtFacts_of_built {s : IArger} (h : Built s) : BuiltFacts s := by
  induction h with
  | new argv => exact builtFacts_new argv
  | setAppName appName _ ih => exact builtFacts_flags ih rfl rfl rfl rfl rfl
  | addOption optionName identifiers helpMessage requiresArgs slot _ ih =>
    exact builtFacts_addOption ih _ _ _ _ _
  | addOptionEvent optionName identifier helpMessage requiresArgs eventFunction slot _ ih =>
    exact builtFacts_addOptionEvent ih _ _ _ _ _ _
  | @addHelpOption s helpMessage slot _ ih =>
    have h1 : BuiltFacts { s with usingAutoHelp := true } :=
      builtFacts_flags ih rfl rfl rfl rfl rfl
    exact builtFacts_addOptionEvent h1 _ _ _ _ _ _
  | @addVersionOption s version slot _ ih =>
    have h1 : BuiltFacts { s with usingAutoVersion := true } :=
      builtFacts_flags ih rfl rfl rfl rfl rfl
    have h2 := builtFacts_addOptionEvent h1 "version" "-v|--version"
      "Display the version of this application" RequiresArg.No Func.printVersion slot
    exact builtFacts_flags h2 rfl rfl rfl rfl rfl
  | setContinueOnHelp b _ ih => exact builtFacts_flags ih rfl rfl rfl rfl rfl
  | setContinueOnVersion b _ ih => exact builtFacts_flags ih rfl rfl rfl rfl rfl

/-! ## What a run of the loop leaves unchanged -/

theorem sameConfig_refl (s : IArger) : SameConfig s s := ⟨rfl, rfl, rfl, rfl, rfl, rfl, rfl, rfl⟩

theorem frame_refl (s : IArger) : Frame s s :=
  ⟨sameConfig_refl s, rfl, fun _ => rfl, fun _ => rfl,
   ⟨[], by simp, fun k o o' h1 h2 h3 => by
      rw [h1] at h2
      cases h2
      exact absurd rfl h3⟩⟩

theorem find_some_of_declared {s s' : IArger} {k : String} {o : Option}
    (hd : (s'.options.find k).map (fun x => { x with argument := "" }) =
      (s.options.find k).map (fun x => ({ x with argument := "" } : Option)))
    (h : s.options.find k = some o) :
    ∃ o', s'.options.find k = some o' ∧ o'.requiresArg = o.requiresArg := by
  rw [h] at hd
  cases h1 : s'.options.find k with
  | none => rw [h1] at hd; cases hd
  | some o' =>
    rw [h1] at hd
    simp only [Option.map_some'] at hd
    have h2 := Option.some.inj hd
    have h3 := congrArg Option.requiresArg h2
    exact ⟨o', rfl, h3⟩

theorem frame_trans {s s' s'' : IArger} (h1 : Frame s s') (h2 : Frame s' s'') : Frame s s'' := by
  obtain ⟨m1, hm1, hc1⟩ := h1.recorded
  obtain ⟨m2, hm2, hc2⟩ := h2.recorded
  refine ⟨sameConfig_trans h1.config h2.config, h2.keys.trans h1.keys,
    fun k => (h2.declared k).trans (h1.declared k), ?_, m1 ++ m2, ?_, ?_⟩
  · intro hu
    have hu' : s'.UniqueKeys := by
      unfold IArger.UniqueKeys
      rw [h1.keys]
      exact hu
    rw [h2.shape hu', h1.shape hu]
  · rw [hm2, hm1, List.append_assoc]
  · intro k o o'' hk hk'' hne
    obtain ⟨o', hk', hreq⟩ := find_some_of_declared (h1.declared k) hk
    by_cases he : o'.argument = o.argument
    · have hne' : o''.argument ≠ o'.argument := by rw [he]; exact hne
      obtain ⟨h3, h4⟩ := hc2 k o' o'' hk' hk'' hne'
      exact ⟨by rw [← hreq]; exact h3, List.mem_append_right _ h4⟩
    · obtain ⟨h3, h4⟩ := hc1 k o o' hk hk' he
      exact ⟨h3, List.mem_append_left _ h4⟩

/-- Storing an argument in the entry of a key leaves the entries as declared, when the keys
are pairwise different. -/
theorem shape_assign_argument {m : UMap Option} {n : String} {o : Option} (a : String)
    (hu : (m.map Prod.fst).Nodup) (hf : m.find n = some o) :
    (m.assign n { o with argument := a } 0).map shapeEntry = m.map shapeEntry := by
  unfold UMap.assign
  rw [hf]
  simp only [List.map_map]
  apply List.map_congr_left
  intro e he
  simp only [Function.comp]
  by_cases hc : e.1 = n
  · rw [if_pos hc]
    obtain ⟨k, x⟩ := e
    simp only at hc
    subst hc
    have := UMap.find_of_mem_nodup hu he
    rw [hf] at this
    cases this
    rfl
  · rw [if_neg hc]

/-- The frame of one update of the loop body: the name `n` is recorded, and the argument slot
of its option is written or the registry is left alone. -/
theorem frame_of_update {s s' : IArger} {n : String} {o : Option} (hc : SameConfig s s')
    (hp : s'.passedOptions = s.passedOptions ++ [n]) (ho : s.options.find n = some o)
    (hopt : s'.options = s.options ∨
      (o.requiresArg = RequiresArg.Yes ∧
        ∃ a, s'.options = s.options.assign n { o with argument := a } 0)) :
    Frame s s' := by
  rcases hopt with h | ⟨hreq, a, h⟩
  · refine ⟨hc, by rw [h], fun k => by rw [h], fun _ => by rw [h], [n], hp, ?_⟩
    intro k x x' h1 h2 h3
    rw [h, h1] at h2
    cases h2
    exact absurd rfl h3
  · refine ⟨hc, ?_, ?_, ?_, [n], hp, ?_⟩
    · rw [h]
      exact UMap.keys_assign_of_find _ _ _ _ (by rw [ho]; simp)
    · intro k
      rw [h, UMap.find_assign]
      by_cases hnk : n = k
      · subst hnk
        rw [if_pos rfl, ho]
        rfl
      · rw [if_neg hnk]
    · intro hu
      rw [h]
      exact shape_assign_argument a hu ho
    · intro k x x' h1 h2 h3
      rw [h, UMap.find_assign] at h2
      by_cases hnk : n = k
      · subst hnk
        rw [ho] at h1
        cases h1
        exact ⟨hreq, List.mem_singleton.mpr rfl⟩
      · rw [if_neg hnk, h1] at h2
        cases h2
        exact absurd rfl h3

theorem frame_of_next {s : IArger} {tr : List Func} {op : Nat} {s' : IArger} {tr' : List Func}
    {op' : Nat} {n : String} {o : Option} (hn : NextFacts s tr op s' tr' op' n o) :
    Frame s s' := by
  have hc : SameConfig s s' :=
    ⟨hn.argv, hn.identifiersToNames, hn.allOptions, hn.eventOptions, hn.usingAutoHelp,
     hn.usingAutoVersion, hn.continueOnHelp, hn.continueOnVersion⟩
  refine frame_of_update hc hn.passedOptions hn.registered ?_
  rcases hn.step with ⟨-, -, h3⟩ | ⟨h1, -, a, -, -, -, h3⟩
  · exact Or.inl h3
  · exact Or.inr ⟨h1, a, h3⟩

/-- The state in which an iteration leaves `parse()`. -/
theorem parseToken_exit_state {s : IArger} {tr : List Func} {op : Nat} {h : op < s.argv.length}
    {r : Result} (hs : parseToken s tr op h = Step.exit r) (hk : s.KeysOK) :
    r.state = s ∨
    ∃ n o, s.identifiersToNames.find s.argv[op] = some n ∧ s.options.find n = some o ∧
      (r.state = { s with passedOptions := s.passedOptions ++ [n] } ∨
       (o.requiresArg = RequiresArg.Yes ∧ ∃ a,
          r.state = { s with passedOptions := s.passedOptions ++ [n],
                             options := s.options.assign n { o with argument := a } 0 })) := by
  cases hf : s.identifiersToNames.find s.argv[op] with
  | none =>
    rw [parseToken_unknown h hf] at hs; cases hs
    exact Or.inl rfl
  | some n =>
    right
    obtain ⟨o, ho⟩ := hk _ _ hf
    have hod := optionData_of_find ho
    have hro := recordOption_of_find ho
    refine ⟨n, o, rfl, ho, ?_⟩
    by_cases hh : helpStop s n
    · rw [parseToken_helpStop h hf hh] at hs; cases hs
      exact Or.inl hro
    by_cases hv : versionStop s n
    · rw [parseToken_versionStop h hf hh hv] at hs; cases hs
      exact Or.inl hro
    by_cases hr : (s.optionData n).requiresArg = RequiresArg.Yes
    · by_cases h1 : op + 1 < s.argv.length
      · by_cases hb : s.argv[op + 1] = "" ∨ s.allOptions.count s.argv[op + 1] ≠ 0
        · rw [parseToken_badToken h hf hh hv hr h1 hb] at hs; cases hs
          rw [hod] at hr
          exact Or.inr ⟨hr, s.argv[op + 1], by simp [IArger.storeArgument, hro, hod]⟩
        · have he : s.argv[op + 1] ≠ "" := fun e => hb (Or.inl e)
          have hc : s.allOptions.count s.argv[op + 1] = 0 := by
            by_contra e; exact hb (Or.inr e)
          rw [parseToken_argument h hf hh hv hr h1 he hc] at hs
          cases hs
      · rw [parseToken_noToken h hf hh hv hr h1] at hs; cases hs
        exact Or.inl hro
    · rw [parseToken_plain h hf hh hv hr] at hs
      cases hs

theorem frame_of_exit {s : IArger} {tr : List Func} {op : Nat} {h : op < s.argv.length}
    {r : Result} (hs : parseToken s tr op h = Step.exit r) (hk : s.KeysOK) :
    Frame s r.state := by
  rcases parseToken_exit_state hs hk with h1 | ⟨n, o, -, ho, h1 | ⟨hreq, a, h1⟩⟩
  · rw [h1]; exact frame_refl s
  · rw [h1]
    exact frame_of_update ⟨rfl, rfl, rfl, rfl, rfl, rfl, rfl, rfl⟩ rfl ho (Or.inl rfl)
  · rw [h1]
    exact frame_of_update ⟨rfl, rfl, rfl, rfl, rfl, rfl, rfl, rfl⟩ rfl ho (Or.inr ⟨hreq, a, rfl⟩)

/-- Whatever way a run of the loop ends, it leaves the frame of the parser alone. -/
theorem run_frame (s : IArger) (tr : List Func) (op : Nat) (hk : s.KeysOK) :
    Frame s (parsingStage s tr op).state := by
  refine run_induction (fun s _ _ r => Frame s r.state) ?_ ?_ ?_ s tr op hk
  · intro s tr op _ _
    rw [triggeringStage_state]
    exact frame_refl s
  · intro s tr op h r hk hs
    exact frame_of_exit hs hk
  · intro s tr op h s' tr' op' n o r _ _ _ hn ih
    exact frame_trans (frame_of_next hn) ih

/-- A sound reverse index stays sound over the mapping stage. -/
theorem keysOK_mappingStage_of_keysOK {s : IArger} (hk : s.KeysOK) : (mappingStage s).KeysOK := by
  intro t n h
  have h1 : UMap.find (mappingStage s).identifiersToNames t = some n := h
  unfold mappingStage at h1
  simp only at h1
  rw [find_foldl_options] at h1
  cases hl : lastOwner s.options t with
  | some k =>
    rw [hl] at h1
    simp only at h1
    cases h1
    obtain ⟨o, h2, -⟩ := lastOwner_some hl
    exact UMap.find_of_mem h2
  | none =>
    rw [hl] at h1
    exact hk t n h1

theorem keysOK_of_frame {s s' : IArger} (hf : Frame s s') (hk : s.KeysOK) : s'.KeysOK := by
  intro t n h
  rw [hf.config.identifiersToNames] at h
  obtain ⟨o, ho⟩ := hk t n h
  obtain ⟨o', ho', -⟩ := find_some_of_declared (hf.declared n) ho
  exact ⟨o', ho'⟩

/-! ## Application name, inline calls and owners of a token -/

theorem parseToken_next_appName {s : IArger} {tr : List Func} {op : Nat} {h : op < s.argv.length}
    {s' : IArger} {tr' : List Func} {op' : Nat}
    (hs : parseToken s tr op h = Step.next s' tr' op') :
    s'.appName = s.appName ∧ s'.version = s.version := by
  unfold parseToken at hs
  cases hf : s.identifiersToNames.find s.argv[op] with
  | none => simp only [hf] at hs; cases hs
  | some n =>
    simp only [hf] at hs
    split_ifs at hs
    all_goals cases hs
    all_goals unfold enqueueEvent
    all_goals split
    all_goals exact ⟨rfl, rfl⟩

theorem parseToken_exit_appName {s : IArger} {tr : List Func} {op : Nat} {h : op < s.argv.length}
    {r : Result} (hs : parseToken s tr op h = Step.exit r) :
    r.state.appName = s.appName ∧ r.state.version = s.version := by
  unfold parseToken at hs
  cases hf : s.identifiersToNames.find s.argv[op] with
  | none => simp only [hf] at hs; cases hs; exact ⟨rfl, rfl⟩
  | some n =>
    simp only [hf] at hs
    split_ifs at hs
    all_goals cases hs
    all_goals exact ⟨rfl, rfl⟩

/-- A run of the loop leaves the application name and the version alone. -/
theorem run_appName (s : IArger) (tr : List Func) (op : Nat) :
    (parsingStage s tr op).state.appName = s.appName ∧
      (parsingStage s tr op).state.version = s.version := by
  induction s, tr, op using parsingStage.induct with
  | case1 s tr op h r hs =>
    rw [parsingStage_exit hs]
    exact parseToken_exit_appName hs
  | case2 s tr op h s' tr' op' hs ih =>
    rw [parsingStage_next hs]
    have := parseToken_next_appName hs
    exact ⟨ih.1.trans this.1, ih.2.trans this.2⟩
  | case3 s tr op h =>
    rw [parsingStage_done h, triggeringStage_state]
    exact ⟨rfl, rfl⟩

theorem calls_eq_append (s : IArger) (n : String) (tr : List Func) :
    callVersion s n (callHelp s n tr) = tr ++ inlineCalls s n := by
  unfold inlineCalls callVersion callHelp
  split_ifs <;> simp

theorem inlineCalls_congr {s s' : IArger} (h1 : s'.usingAutoHelp = s.usingAutoHelp)
    (h2 : s'.usingAutoVersion = s.usingAutoVersion) : inlineCalls s' = inlineCalls s := by
  funext n
  unfold inlineCalls callVersion callHelp
  rw [h1, h2]

/-- A run of the loop that returns true has called, after the calls made before it, the
inline calls of the matched names and then the queued functions. -/
theorem success_trace (s : IArger) (tr : List Func) (op : Nat) (hk : s.KeysOK)
    (ho : (parsingStage s tr op).outcome = Outcome.returned true) :
    ∃ (names : List String) (fs : List Func),
      (positionsFrom s.takesArgument op (s.argv.drop op)).map s.tokenName = names.map some ∧
      (parsingStage s tr op).trace = tr ++ names.flatMap (inlineCalls s) ++ fs ∧
      fs.map some = (parsingStage s tr op).state.triggerEvents := by
  refine success_induction
    (fun s tr op r => ∃ (names : List String) (fs : List Func),
      (positionsFrom s.takesArgument op (s.argv.drop op)).map s.tokenName = names.map some ∧
      r.trace = tr ++ names.flatMap (inlineCalls s) ++ fs ∧
      fs.map some = r.state.triggerEvents)
    ?_ ?_ s tr op hk ho
  · intro s tr op _ h hout
    obtain ⟨fs, h1, h2⟩ := triggeringStage_returned hout
    refine ⟨[], fs, ?_, ?_, ?_⟩
    · rw [positionsFrom_done h]; rfl
    · rw [h2]; simp
    · rw [triggeringStage_state, h1]
  · intro s tr op h s' tr' op' n o r _ _ _ hn _ ih
    obtain ⟨names, fs, h1, h2, h3⟩ := ih
    rw [takesArgument_next hn, hn.argv, tokenName_congr hn.argv hn.identifiersToNames] at h1
    rw [inlineCalls_congr hn.usingAutoHelp hn.usingAutoVersion, hn.trace, calls_eq_append] at h2
    refine ⟨n :: names, fs, ?_, ?_, h3⟩
    · rw [positionsFrom_next hn, List.map_cons, h1]
      have : s.tokenName op = some n := hn.token
      rw [this]
      rfl
    · rw [h2]
      simp [List.flatMap_cons, List.append_assoc]

theorem lastOwner_cons (k : String) (o : Option) (rest : UMap Option) (t : String) :
    lastOwner ((k, o) :: rest) t =
      match lastOwner rest t with
      | some k' => some k'
      | none => if t ∈ o.identifiers then some k else none := rfl

theorem lastOwner_append (a b : UMap Option) (t : String) :
    lastOwner (a ++ b) t =
      match lastOwner b t with
      | some k => some k
      | none => lastOwner a t := by
  induction a with
  | nil =>
    rw [List.nil_append]
    cases lastOwner b t <;> rfl
  | cons e rest ih =>
    obtain ⟨k, o⟩ := e
    rw [List.cons_append, lastOwner_cons, lastOwner_cons, ih]
    cases lastOwner b t with
    | some k' => rfl
    | none => rfl

theorem lastOwner_shape {m m' : UMap Option} (h : m'.map shapeEntry = m.map shapeEntry)
    (t : String) : lastOwner m' t = lastOwner m t := by
  induction m generalizing m' with
  | nil =>
    cases m' with
    | nil => rfl
    | cons e rest => simp at h
  | cons e rest ih =>
    cases m' with
    | nil => simp at h
    | cons e' rest' =>
      obtain ⟨k, o⟩ := e
      obtain ⟨k', o'⟩ := e'
      simp only [List.map_cons, List.cons.injEq] at h
      obtain ⟨h1, h2⟩ := h
      have hk : k' = k := congrArg Prod.fst h1
      have hi : o'.identifiers = o.identifiers := by
        have := congrArg (fun x : String × Option => x.2.identifiers) h1
        exact this
      rw [lastOwner_cons, lastOwner_cons, ih h2, hk, hi]

theorem lastOwner_eq_none_of_subset {m l : UMap Option} {t : String}
    (hsub : ∀ e, e ∈ l → e ∈ m) (hfree : ∀ k o, (k, o) ∈ m → t ∉ o.identifiers) :
    lastOwner l t = none :=
  lastOwner_none.mpr (fun k o h => hfree k o (hsub _ h))

theorem reaches_keysOK {s0 s : IArger} {tr : List Func} {op : Nat}
    (hk : (mappingStage s0).KeysOK) (hr : Reaches s0 s tr op) : s.KeysOK := by
  induction hr with
  | start => exact hk
  | step h _ hs ih =>
    obtain ⟨n, o, hn⟩ := parseToken_next hs ih
    exact keysOK_next hn ih

theorem keysOK_of_fresh {s : IArger} (hf : s.Fresh) : s.KeysOK := by
  intro t n h
  rw [hf.2.2] at h
  cases h

/-! ## C20 and C18: joining the tokens of split, and the frame of parse -/

/-- C20: for every string and delimiter, `split` returns a list of at least one token, and
the tokens joined with the delimiter between consecutive ones are the string again; so each
registration stores a non-empty identifier list, and every option of a parser built by the
hosting program has one. -/
theorem C20_join_undoes_split (str : String) (delimiter : Char) :
    split str delimiter ≠ [] ∧
    String.intercalate (String.singleton delimiter) (split str delimiter) = str ∧
    (∀ (s : IArger) (name desc : String) (req : RequiresArg) (slot : Nat),
      ∃ o, (s.addOption name str desc req slot).options.find name = some o ∧
        o.identifiers = split str '|' ∧ o.identifiers ≠ []) ∧
    (∀ (s : IArger) (name desc : String) (req : RequiresArg) (f : Func) (slot : Nat),
      ∃ o, (s.addOptionEvent name str desc req f slot).options.find name = some o ∧
        o.identifiers = split str '|' ∧ o.identifiers ≠ []) ∧
    (∀ s, Built s → ∀ k o, (k, o) ∈ s.options → o.identifiers ≠ []) := by
  refine ⟨(split_join str delimiter).1, (split_join str delimiter).2, ?_, ?_, ?_⟩
  · intro s name desc req slot
    refine ⟨{ name := name, identifiers := split str '|', description := desc,
              requiresArg := req, func := none, argument := "" }, ?_, rfl,
      (split_join str '|').1⟩
    show (s.options.assign name _ slot).find name = _
    rw [UMap.find_assign, if_pos rfl]
  · intro s name desc req f slot
    refine ⟨{ name := name, identifiers := split str '|', description := desc,
              requiresArg := req, func := some f, argument := "" }, ?_, rfl,
      (split_join str '|').1⟩
    show (s.options.assign name _ slot).find name = _
    rw [UMap.find_assign, if_pos rfl]
  · intro s hb k o hm
    exact ((builtFacts_of_built hb).entries k o hm).2.1

theorem fileRead_built (argv : List String) : Built (fileRead argv) :=
  Built.addOption _ _ _ _ _ (Built.addOption _ _ _ _ _ (Built.new argv))

/-- Witness of C20: the spec `-f|--file` splits into two tokens that join to the spec again,
and the options of the `file`/`read` registry have identifiers. -/
theorem C20_join_undoes_split_witness :
    split "-f|--file" '|' = ["-f", "--file"] ∧
    String.intercalate (String.singleton '|') (split "-f|--file" '|') = "-f|--file" ∧
    fileOption.identifiers ≠ [] :=
  ⟨split_file, (C20_join_undoes_split "-f|--file" '|').2.1,
   (C20_join_undoes_split "-f|--file" '|').2.2.2.2 (fileRead []) (fileRead_built [])
     "file" fileOption (by rw [fileRead_eq]; simp [fileOption])⟩

/-- C18: `parse()` of a parser whose reverse index holds keys of the registry only (as that of
every fresh parser does, its index being empty) leaves, however it ends, the keys of the
registry, the all-options and event-options lists, the application name and the version as
they are, and with them the name, identifiers, description, requires-argument flag and
function of every option; an argument slot differs afterwards only for an option that
requires an argument and whose name has been appended to `passedOptions`; wherever the scan
arrives, the lookup of the resolved name finds an entry and creates none; and the reverse
index again holds keys only. -/
theorem C18_parse_changes_result_state_only (s : IArger) (hk : s.KeysOK) :
    s.parse.state.options.map Prod.fst = s.options.map Prod.fst ∧
    s.parse.state.allOptions = s.allOptions ∧
    s.parse.state.eventOptions = s.eventOptions ∧
    s.parse.state.appName = s.appName ∧
    s.parse.state.version = s.version ∧
    (∃ more, s.parse.state.passedOptions = s.passedOptions ++ more ∧
      ∀ k o, s.options.find k = some o →
        ∃ o', s.parse.state.options.find k = some o' ∧
          o'.name = o.name ∧ o'.identifiers = o.identifiers ∧
          o'.description = o.description ∧ o'.requiresArg = o.requiresArg ∧
          o'.func = o.func ∧
          (o'.argument ≠ o.argument → o.requiresArg = RequiresArg.Yes ∧ k ∈ more)) ∧
    (∀ t tr op n, Reaches s t tr op → (s.argv[op]?).bind s.resolve = some n →
      (∃ o, t.options.find n = some o) ∧
      (t.options.subscript n Option.valueInit 0).1 = t.options) ∧
    s.parse.state.KeysOK := by
  have hkm := keysOK_mappingStage_of_keysOK hk
  have hfr : Frame (mappingStage s) s.parse.state := run_frame (mappingStage s) [] 1 hkm
  have hnames := run_appName (mappingStage s) [] 1
  obtain ⟨more, hmore, hchg⟩ := hfr.recorded
  refine ⟨hfr.keys, hfr.config.allOptions, hfr.config.eventOptions, hnames.1, hnames.2,
    ⟨more, hmore, ?_⟩, ?_, keysOK_of_frame hfr hkm⟩
  · intro k o hko
    have hd := hfr.declared k
    have hko' : (mappingStage s).options.find k = some o := hko
    rw [hko'] at hd
    cases h1 : s.parse.state.options.find k with
    | none => rw [h1] at hd; cases hd
    | some o' =>
      rw [h1] at hd
      simp only [Option.map_some'] at hd
      have h2 := Option.some.inj hd
      have e1 := congrArg Option.name h2
      have e2 := congrArg Option.identifiers h2
      have e3 := congrArg Option.description h2
      have e4 := congrArg Option.requiresArg h2
      have e5 := congrArg Option.func h2
      refine ⟨o', rfl, e1, e2, e3, e4, e5, ?_⟩
      intro hne
      exact hchg k o o' hko' h1 hne
  · intro t tr op n hr hm
    have htk := reaches_keysOK hkm hr
    have hc := (reaches_config hr).1
    have h : op < t.argv.length := by
      rw [hc.argv]
      by_contra hcon
      have : s.argv[op]? = none := List.getElem?_eq_none (Nat.le_of_not_lt hcon)
      rw [this] at hm
      cases hm
    have hfind : t.identifiersToNames.find t.argv[op] = some n := by
      rw [(reaches_find hr h).2]; exact hm
    obtain ⟨o, ho⟩ := htk _ _ hfind
    exact ⟨⟨o, ho⟩, by rw [UMap.subscript_of_find _ _ ho]⟩

theorem fileRead_parse_example_full :
    (fileRead ["prog", "-r", "-f", "data.txt"]).parse.state.options.find "file" =
      some { fileOption with argument := "data.txt" } ∧
    (fileRead ["prog", "-r", "-f", "data.txt"]).parse.state.options.find "read" =
      (fileRead ["prog", "-r", "-f", "data.txt"]).options.find "read" := by
  rw [fileRead_eq]
  simp [IArger.parse, mappingStage, UMap.assign, UMap.find, parsingStage, parseToken,
    IArger.recordOption, IArger.optionData, IArger.storeArgument, UMap.subscript, callHelp,
    callVersion, enqueueEvent, triggeringStage, fileOption]

/-- Witness of C18: on `[prog, "-r", "-f", "data.txt"]` with `file` and `read` registered, the
registry has the same keys after `parse()`, the all-options list is the same, and the entry
of `file` differs from the registered one in its argument slot only. -/
theorem C18_parse_changes_result_state_only_witness :
    (fileRead ["prog", "-r", "-f", "data.txt"]).parse.state.options.map Prod.fst =
      ["read", "file"] ∧
    (fileRead ["prog", "-r", "-f", "data.txt"]).parse.state.allOptions = ["file", "read"] ∧
    (fileRead ["prog", "-r", "-f", "data.txt"]).parse.state.options.find "file" =
      some { fileOption with argument := "data.txt" } := by
  have h := C18_parse_changes_result_state_only (fileRead ["prog", "-r", "-f", "data.txt"])
    (keysOK_of_fresh (fileRead_fresh _))
  refine ⟨?_, ?_, fileRead_parse_example_full.1⟩
  · rw [h.1, fileRead_eq]
    rfl
  · rw [h.2.1, fileRead_eq]

/-! ## C16: the argument of an option that was not given one -/

theorem getOptionArgument_error_iff (s : IArger) (name : String) :
    (∃ e, s.getOptionArgument name = Except.error e) ↔ s.options.find name = none := by
  unfold IArger.getOptionArgument UMap.at
  cases h : s.options.find name with
  | none => simp [Except.map]
  | some o => simp [Except.map]

theorem getOptionArgument_of_find {s : IArger} {name : String} {o : Option}
    (h : s.options.find name = some o) : s.getOptionArgument name = Except.ok o.argument := by
  unfold IArger.getOptionArgument UMap.at
  rw [h]
  rfl

/-- C16: on a parser built by the hosting program, `getOptionArgument(name)` fails if and only
if `name` is not among the registered names, before `parse()` and after it; before `parse()`
it returns the empty string for every registered name; and after `parse()` it returns the
empty string for every registered option that was never matched or that does not require an
argument. -/
theorem C16_getOptionArgument_default (s : IArger) (hb : Built s) :
    (∀ name, (∃ e, s.getOptionArgument name = Except.error e) ↔ name ∉ s.allOptions) ∧
    (∀ name, (∃ e, s.parse.state.getOptionArgument name = Except.error e) ↔
      name ∉ s.allOptions) ∧
    (∀ name, name ∈ s.allOptions → s.getOptionArgument name = Except.ok "") ∧
    (∀ name o, s.options.find name = some o →
      (s.parse.state.optionExists name = false ∨ o.requiresArg ≠ RequiresArg.Yes) →
      s.parse.state.getOptionArgument name = Except.ok "") := by
  have hf := builtFacts_of_built hb
  have hkm := keysOK_mappingStage hf.fresh
  have hfr : Frame (mappingStage s) s.parse.state := run_frame (mappingStage s) [] 1 hkm
  have hnone : ∀ name, s.parse.state.options.find name = none ↔ s.options.find name = none := by
    intro name
    rw [UMap.find_eq_none_iff, UMap.find_eq_none_iff, hfr.keys]
    rfl
  have hempty : ∀ name o, s.options.find name = some o → o.argument = "" :=
    fun name o h => (hf.entries name o (UMap.mem_of_find h)).1
  refine ⟨?_, ?_, ?_, ?_⟩
  · intro name
    rw [getOptionArgument_error_iff, hf.keys name]
    simp
  · intro name
    rw [getOptionArgument_error_iff, hnone, hf.keys name]
    simp
  · intro name hm
    cases h : s.options.find name with
    | none => exact absurd h ((hf.keys name).mp hm)
    | some o => rw [getOptionArgument_of_find h, hempty name o h]
  · intro name o ho hcond
    have ho' : (mappingStage s).options.find name = some o := ho
    obtain ⟨o', h1, -⟩ := find_some_of_declared (hfr.declared name) ho'
    rw [getOptionArgument_of_find h1]
    obtain ⟨more, hmore, hchg⟩ := hfr.recorded
    have hp : (mappingStage s).passedOptions = [] := hf.fresh.1
    rw [hp, List.nil_append] at hmore
    by_cases hne : o'.argument = o.argument
    · rw [hne, hempty name o ho]
    · exfalso
      obtain ⟨h2, h3⟩ := hchg name o o' ho' h1 hne
      rcases hcond with hc | hc
      · unfold IArger.optionExists at hc
        rw [hmore] at hc
        have h4 := of_decide_eq_false hc
        exact h4 (List.count_pos_iff.mpr h3)
      · exact hc h2

/-- Witness of C16: with `file` and `read` registered, after `parse()` of `[prog, "-r"]` the
argument of the unmatched `file` and of `read`, which requires none, is empty, and the query
fails for the unregistered name `size`. -/
theorem C16_getOptionArgument_default_witness :
    (fileRead ["prog", "-r"]).parse.state.getOptionArgument "file" = Except.ok "" ∧
    (fileRead ["prog", "-r"]).parse.state.getOptionArgument "read" = Except.ok "" ∧
    (fileRead ["prog", "-r"]).getOptionArgument "file" = Except.ok "" ∧
    (∃ e, (fileRead ["prog", "-r"]).parse.state.getOptionArgument "size" = Except.error e) := by
  have h := C16_getOptionArgument_default (fileRead ["prog", "-r"]) (fileRead_built _)
  have hp : (fileRead ["prog", "-r"]).parse.state.passedOptions = ["read"] := by
    rw [fileRead_eq]
    simp [IArger.parse, mappingStage, UMap.assign, UMap.find, parsingStage, parseToken,
      IArger.recordOption, IArger.optionData, UMap.subscript, callHelp, callVersion,
      enqueueEvent, triggeringStage]
  have hall : (fileRead ["prog", "-r"]).allOptions = ["file", "read"] := by rw [fileRead_eq]
  refine ⟨?_, ?_, ?_, ?_⟩
  · refine h.2.2.2 "file" fileOption (by rw [fileRead_eq]; simp [UMap.find, fileOption])
      (Or.inl ?_)
    unfold IArger.optionExists
    rw [hp]
    decide
  · exact h.2.2.2 "read" readOption (by rw [fileRead_eq]; simp [UMap.find, readOption])
      (Or.inr (by simp [readOption]))
  · exact h.2.2.1 "file" (by rw [hall]; simp)
  · exact (h.2.1 "size").mpr (by rw [hall]; simp)

/-! ## C19: a second parse -/

theorem takesArgument_pointwise {s s' : IArger}
    (hi : ∀ t, s'.identifiersToNames.find t = s.identifiersToNames.find t)
    (hd : ∀ k, (s'.options.find k).map (fun x => { x with argument := "" }) =
      (s.options.find k).map (fun x => ({ x with argument := "" } : Option))) :
    s'.takesArgument = s.takesArgument := by
  funext t
  rw [takesArgument_eq_map, takesArgument_eq_map, hi t]
  have h : (fun k => (s'.options.find k).map (fun x => x.requiresArg)) =
      (fun k => (s.options.find k).map (fun x => x.requiresArg)) := by
    funext k
    have h1 := congrArg (fun x : Maybe Option => x.map (fun y => y.requiresArg)) (hd k)
    simpa [Option.map_map, Function.comp_def] using h1
  rw [h]

theorem funcOf_pointwise {s s' : IArger}
    (hd : ∀ k, (s'.options.find k).map (fun x => { x with argument := "" }) =
      (s.options.find k).map (fun x => ({ x with argument := "" } : Option))) :
    s'.funcOf = s.funcOf := by
  funext k
  unfold IArger.funcOf
  have h1 := congrArg (fun x : Maybe Option => x.bind (fun y => y.func)) (hd k)
  cases h2 : s'.options.find k <;> cases h3 : s.options.find k <;> simp_all

/-- The mapping stage of a second `parse()`, on the state that the first one has left of a
fresh parser with pairwise different keys, gives every token the name it had. -/
theorem second_mapping_find {s : IArger} (hf : s.Fresh) (hu : s.UniqueKeys) (t : String) :
    (mappingStage s.parse.state).identifiersToNames.find t =
      (mappingStage s).identifiersToNames.find t := by
  have hkm := keysOK_mappingStage hf
  have hfr : Frame (mappingStage s) s.parse.state := run_frame (mappingStage s) [] 1 hkm
  have hshape := hfr.shape hu
  have hfirst : (mappingStage s).identifiersToNames.find t = lastOwner s.options t :=
    resolve_eq_lastOwner hf t
  have hidx : s.parse.state.identifiersToNames = (mappingStage s).identifiersToNames :=
    hfr.config.identifiersToNames
  have h1 : UMap.find (mappingStage s.parse.state).identifiersToNames t =
      match lastOwner s.parse.state.options t with
      | some k => some k
      | none => s.parse.state.identifiersToNames.find t :=
    find_foldl_options _ _ _
  rw [h1, lastOwner_shape hshape t, hidx, hfirst]
  show (match lastOwner s.options t with
    | some k => some k
    | none => lastOwner s.options t) = lastOwner s.options t
  cases lastOwner s.options t <;> rfl

/-- C19: if `parse()` returns true on a fresh parser with pairwise different keys and returns
true again when it is called a second time on the state the first call has left, then after
the second call `getPassedOptions()` is the result of the first call followed by itself, the
queue is the queue of the first call followed by itself, and the second call makes the same
inline calls as the first and then calls every function the first call has queued twice. -/
theorem C19_second_parse_doubles (s : IArger) (hf : s.Fresh) (hu : s.UniqueKeys)
    (h1 : s.parse.outcome = Outcome.returned true)
    (h2 : s.parse.state.parse.outcome = Outcome.returned true) :
    s.parse.state.parse.state.getPassedOptions =
      s.parse.state.getPassedOptions ++ s.parse.state.getPassedOptions ∧
    s.parse.state.parse.state.triggerEvents =
      s.parse.state.triggerEvents ++ s.parse.state.triggerEvents ∧
    ∃ (inline fs : List Func),
      s.parse.trace = inline ++ fs ∧
      fs.map some = s.parse.state.triggerEvents ∧
      s.parse.state.parse.trace = inline ++ (fs ++ fs) := by
  have hkm := keysOK_mappingStage hf
  have hfr : Frame (mappingStage s) s.parse.state := run_frame (mappingStage s) [] 1 hkm
  have hk1 : s.parse.state.KeysOK := keysOK_of_frame hfr hkm
  have hkm2 : (mappingStage s.parse.state).KeysOK := keysOK_mappingStage_of_keysOK hk1
  have hfind := second_mapping_find hf hu
  -- the second scan sees the tokens, names and declarations of the first
  have hargv : (mappingStage s.parse.state).argv = (mappingStage s).argv := hfr.config.argv
  have htakes : (mappingStage s.parse.state).takesArgument = (mappingStage s).takesArgument :=
    takesArgument_pointwise hfind hfr.declared
  have htoken : (mappingStage s.parse.state).tokenName = (mappingStage s).tokenName := by
    funext i
    unfold IArger.tokenName
    rw [hargv]
    cases (mappingStage s).argv[i]? with
    | none => rfl
    | some t => exact hfind t
  have hfunc : (mappingStage s.parse.state).funcOf = (mappingStage s).funcOf :=
    funcOf_pointwise hfr.declared
  have hevent : (mappingStage s.parse.state).isEvent = (mappingStage s).isEvent := by
    funext k
    unfold IArger.isEvent
    rw [show (mappingStage s.parse.state).eventOptions = (mappingStage s).eventOptions
      from hfr.config.eventOptions]
  have hinline : inlineCalls (mappingStage s.parse.state) = inlineCalls (mappingStage s) :=
    inlineCalls_congr hfr.config.usingAutoHelp hfr.config.usingAutoVersion
  obtain ⟨n1, a1, a2, a3⟩ := success_records (mappingStage s) [] 1 hkm h1
  obtain ⟨n2, b1, b2, b3⟩ := success_records (mappingStage s.parse.state) [] 1 hkm2 h2
  obtain ⟨n3, fs1, c1, c2, c3⟩ := success_trace (mappingStage s) [] 1 hkm h1
  obtain ⟨n4, fs2, d1, d2, d3⟩ := success_trace (mappingStage s.parse.state) [] 1 hkm2 h2
  rw [htakes, hargv, htoken] at b1 d1
  have inj := List.map_injective_iff.mpr (Option.some_injective String)
  have e2 : n2 = n1 := inj (b1.symm.trans a1)
  have e3 : n3 = n1 := inj (c1.symm.trans a1)
  have e4 : n4 = n1 := inj (d1.symm.trans a1)
  subst e2 e3 e4
  have hp : (mappingStage s).passedOptions = [] := hf.1
  have hq : (mappingStage s).triggerEvents = [] := hf.2.1
  rw [hp, List.nil_append] at a2
  rw [hq, List.nil_append] at a3
  have a2' : s.parse.state.passedOptions = n4 := a2
  have a3' : s.parse.state.triggerEvents =
      (n4.filter (mappingStage s).isEvent).map (mappingStage s).funcOf := a3
  have b2' : s.parse.state.parse.state.passedOptions = s.parse.state.passedOptions ++ n4 := b2
  rw [hfunc, hevent] at b3
  have b3' : s.parse.state.parse.state.triggerEvents =
      s.parse.state.triggerEvents ++
        (n4.filter (mappingStage s).isEvent).map (mappingStage s).funcOf := b3
  have hq2 : s.parse.state.parse.state.triggerEvents =
      s.parse.state.triggerEvents ++ s.parse.state.triggerEvents := by
    rw [b3', ← a3']
  refine ⟨?_, hq2, n4.flatMap (inlineCalls (mappingStage s)), fs1, ?_, c3, ?_⟩
  · show s.parse.state.parse.state.passedOptions =
      s.parse.state.passedOptions ++ s.parse.state.passedOptions
    rw [b2', a2']
  · have : s.parse.trace = [] ++ n4.flatMap (inlineCalls (mappingStage s)) ++ fs1 := c2
    rw [this, List.nil_append]
  · have hfs : fs2 = fs1 ++ fs1 := by
      apply List.map_injective_iff.mpr (Option.some_injective Func)
      have d3' : fs2.map some = s.parse.state.parse.state.triggerEvents := d3
      have c3' : fs1.map some = s.parse.state.triggerEvents := c3
      rw [d3', hq2, List.map_append, c3']
    have : s.parse.state.parse.trace =
        [] ++ n4.flatMap (inlineCalls (mappingStage s.parse.state)) ++ fs2 := d2
    rw [this, List.nil_append, hinline, hfs]

theorem notifyOnly_first_parse :
    (notifyOnly ["prog", "-n"]).parse =
      { state :=
          { notifyOnly ["prog", "-n"] with
            identifiersToNames := [("-n", "notify")]
            passedOptions := ["notify"]
            triggerEvents := [some (Func.user "notify")] }
        trace := [Func.user "notify"]
        outcome := Outcome.returned true } := by
  rw [notifyOnly_eq]
  simp [IArger.parse, mappingStage, UMap.assign, UMap.find, parsingStage, parseToken,
    IArger.recordOption, IArger.optionData, UMap.subscript, callHelp, callVersion,
    enqueueEvent, triggeringStage]

theorem notifyOnly_second_parse :
    (notifyOnly ["prog", "-n"]).parse.state.parse.outcome = Outcome.returned true ∧
    (notifyOnly ["prog", "-n"]).parse.state.parse.trace =
      [Func.user "notify", Func.user "notify"] := by
  rw [notifyOnly_first_parse, notifyOnly_eq]
  simp [IArger.parse, mappingStage, UMap.assign, UMap.find, parsingStage, parseToken,
    IArger.recordOption, IArger.optionData, UMap.subscript, callHelp, callVersion,
    enqueueEvent, triggeringStage]

/-- Witness of C19: with the event option `notify`, `parse()` of `[prog, "-n"]` returns true
twice; after the second call `getPassedOptions()` is `["notify", "notify"]` and the callback,
called once by the first call, has been called twice by the second. -/
theorem C19_second_parse_doubles_witness :
    (notifyOnly ["prog", "-n"]).parse.trace = [Func.user "notify"] ∧
    (notifyOnly ["prog", "-n"]).parse.state.parse.trace =
      [Func.user "notify", Func.user "notify"] ∧
    (notifyOnly ["prog", "-n"]).parse.state.parse.state.getPassedOptions =
      ["notify", "notify"] := by
  have h := C19_second_parse_doubles (notifyOnly ["prog", "-n"]) (notifyOnly_fresh _)
    (by rw [notifyOnly_eq]; unfold IArger.UniqueKeys; simp)
    (by rw [notifyOnly_first_parse]) notifyOnly_second_parse.1
  refine ⟨by rw [notifyOnly_first_parse], notifyOnly_second_parse.2, ?_⟩
  rw [h.1, notifyOnly_first_parse]
  rfl

/-! ## C14: which registration owns a shared identifier -/

/-- The owner of a token is the key of the last entry, in the order of the entries, that
lists the token. -/
theorem lastOwner_eq_some_iff (m : UMap Option) (t k : String) :
    lastOwner m t = some k ↔
      ∃ x o y, m = x ++ (k, o) :: y ∧ t ∈ o.identifiers ∧ ∀ e ∈ y, t ∉ e.2.identifiers := by
  constructor
  · intro h
    induction m with
    | nil => cases h
    | cons e rest ih =>
      obtain ⟨k0, o0⟩ := e
      rw [lastOwner_cons] at h
      cases hl : lastOwner rest t with
      | some k' =>
        rw [hl] at h
        simp only at h
        rw [h] at hl
        obtain ⟨x, o, y, hm, ht, hy⟩ := ih hl
        exact ⟨(k0, o0) :: x, o, y, by rw [hm]; rfl, ht, hy⟩
      | none =>
        rw [hl] at h
        simp only at h
        by_cases ht : t ∈ o0.identifiers
        · rw [if_pos ht] at h
          have hk : k0 = k := Option.some.inj h
          subst hk
          exact ⟨[], o0, rest, rfl, ht, fun e he => lastOwner_none.mp hl e.1 e.2 he⟩
        · rw [if_neg ht] at h
          cases h
  · rintro ⟨x, o, y, hm, ht, hy⟩
    have hn : lastOwner y t = none := lastOwner_none.mpr (fun k' o' h' => hy (k', o') h')
    rw [hm, lastOwner_append, lastOwner_cons, hn]
    simp only [ht, if_true]

theorem drop_middle {α : Type} (a b : List α) (x : α) (n : Nat) :
    (a ++ x :: b).drop n =
      if a.length < n then b.drop (n - a.length - 1) else a.drop n ++ x :: b := by
  by_cases h : a.length < n
  · rw [if_pos h, List.drop_append_eq_append_drop,
      List.drop_eq_nil_of_le (Nat.le_of_lt h), List.nil_append]
    obtain ⟨j, hj⟩ : ∃ j, n - a.length = j + 1 := ⟨n - a.length - 1, by omega⟩
    rw [hj, List.drop_succ_cons]
    simp
  · rw [if_neg h, List.drop_append_of_le_length (Nat.le_of_not_lt h)]

/-- What either registration operation does to the registry. -/
theorem registered_options (p q : IArger) (n spec d : String) (r : RequiresArg) (slot : Nat)
    (hq : q = p.addOption n spec d r slot ∨ ∃ f, q = p.addOptionEvent n spec d r f slot) :
    ∃ o, q.options = p.options.assign n o slot ∧ o.identifiers = split spec '|' ∧
      q.passedOptions = p.passedOptions ∧ q.triggerEvents = p.triggerEvents ∧
      q.identifiersToNames = p.identifiersToNames := by
  rcases hq with hq | ⟨f, hq⟩
  · subst hq
    exact ⟨_, rfl, rfl, rfl, rfl, rfl⟩
  · subst hq
    exact ⟨_, rfl, rfl, rfl, rfl, rfl⟩

/-- C14, amended: every identifier resolves to at most one option name: on a fresh parser
the reverse index built by `parse()` gives a token the key of the last entry of the
registry, in iteration order, that lists it, and nothing when no entry lists it.  So when
exactly one option `n1` of the registry, registered earlier by either operation, lists an
identifier, and an option with a new name `n2` is registered with that identifier, by
`addOption` or by `addOptionEvent`, the identifier resolves to the later registration `n2`
exactly when the container places the new entry behind the entry of `n1`, and to the earlier
registration `n1` otherwise; and `parse()` of a vector with the identifier at index 1 records
that owner first. -/
theorem C14_shared_identifier_owner (p : IArger) (hf : p.Fresh) (a b : UMap Option)
    (n1 : String) (o1 : Option) (hp : p.options = a ++ (n1, o1) :: b)
    (n2 spec2 d2 : String) (r2 : RequiresArg) (slot2 : Nat) (q : IArger)
    (hq : q = p.addOption n2 spec2 d2 r2 slot2 ∨
      ∃ f, q = p.addOptionEvent n2 spec2 d2 r2 f slot2)
    (id : String) (hn2 : p.options.find n2 = none)
    (h1 : id ∈ o1.identifiers) (h2 : id ∈ split spec2 '|')
    (hfree : ∀ e, e ∈ a ++ b → id ∉ e.2.identifiers) :
    (∀ s : IArger, s.Fresh → ∀ t k,
      (s.resolve t = some k ↔
        ∃ x o y, s.options = x ++ (k, o) :: y ∧ t ∈ o.identifiers ∧
          ∀ e ∈ y, t ∉ e.2.identifiers)) ∧
    (∀ s : IArger, s.Fresh → ∀ t,
      (s.resolve t = none ↔ ∀ e ∈ s.options, t ∉ e.2.identifiers)) ∧
    p.resolve id = some n1 ∧
    q.resolve id = some (if a.length < slot2 then n2 else n1) ∧
    (q.resolve id = some n2 ↔ a.length < slot2) ∧
    (∀ prog rest, ∃ more,
      (q.withArgv (prog :: id :: rest)).parse.state.getPassedOptions =
        (if a.length < slot2 then n2 else n1) :: more) := by
  have hna : ∀ l : UMap Option, (∀ e, e ∈ l → e ∈ a ++ b) → lastOwner l id = none :=
    fun l hl => lastOwner_none.mpr (fun k o h => hfree (k, o) (hl _ h))
  have hb : lastOwner b id = none := hna b (fun e he => List.mem_append_right a he)
  have hne : n1 ≠ n2 := by
    intro e
    have hmem : n2 ∈ p.options.map Prod.fst := by
      rw [hp, ← e]
      simp
    exact (UMap.find_eq_none_iff _ _).mp hn2 hmem
  obtain ⟨o2, hopt, hid2, hq1, hq2, hq3⟩ := registered_options p q n2 spec2 d2 r2 slot2 hq
  have hqf : q.Fresh := ⟨hq1.trans hf.1, hq2.trans hf.2.1, hq3.trans hf.2.2⟩
  have hpres : p.resolve id = some n1 := by
    rw [resolve_eq_lastOwner hf, hp, lastOwner_append, lastOwner_cons, hb]
    simp only [h1, if_true]
  have hres : q.resolve id = some (if a.length < slot2 then n2 else n1) := by
    have e2 : q.options =
        p.options.take slot2 ++ (n2, o2) :: p.options.drop slot2 := by
      rw [hopt]
      unfold UMap.assign
      rw [hn2]
    have hi2 : id ∈ o2.identifiers := by rw [hid2]; exact h2
    rw [resolve_eq_lastOwner hqf, e2, lastOwner_append, lastOwner_cons, hp, drop_middle]
    by_cases hlt : a.length < slot2
    · rw [if_pos hlt, if_pos hlt,
        hna _ (fun e he => List.mem_append_right a (List.mem_of_mem_drop he))]
      simp only [hi2, if_true]
    · rw [if_neg hlt, if_neg hlt, lastOwner_append, lastOwner_cons, hb]
      simp only [h1, if_true]
  refine ⟨?_, ?_, hpres, hres, ?_, ?_⟩
  · intro s hs t k
    rw [resolve_eq_lastOwner hs]
    exact lastOwner_eq_some_iff _ _ _
  · intro s hs t
    rw [resolve_eq_lastOwner hs, lastOwner_none]
    constructor
    · intro h e he
      exact h e.1 e.2 he
    · intro h k o hko
      exact h (k, o) hko
  · rw [hres]
    by_cases hlt : a.length < slot2
    · simp [hlt]
    · simp only [hlt, if_false, Option.some.injEq, iff_false]
      exact hne
  · intro prog rest
    obtain ⟨more, hmore, -⟩ := records_first hqf prog id rest hres
    exact ⟨more, hmore⟩

theorem split_x : split "-x" '|' = ["-x"] := by
  simp [split, splitLoop]

theorem firstOption_registered (argv : List String) :
    ((IArger.new argv).addOptionEvent "first" "-x" "Registered first" RequiresArg.No
      (Func.user "notify") 0).options = [] ++ ("first", firstOption) :: [] := by
  simp [IArger.new, IArger.addOptionEvent, split_x, UMap.assign, UMap.find, firstOption]

/-- Witness of C14: `first` is registered by `addOptionEvent` and `second` by `addOption`, both
with the identifier `-x`; when the registry places the entry of `second` behind the entry of
`first`, `-x` resolves to `second`, the later registration, and when it places it in front,
`-x` resolves to `first`, the earlier one. -/
theorem C14_shared_identifier_owner_witness :
    (((IArger.new ["prog", "-x"]).addOptionEvent "first" "-x" "Registered first" RequiresArg.No
      (Func.user "notify") 0).addOption "second" "-x" "Registered second" RequiresArg.No
        1).resolve "-x" = some "second" ∧
    (((IArger.new ["prog", "-x"]).addOptionEvent "first" "-x" "Registered first" RequiresArg.No
      (Func.user "notify") 0).addOptionEvent "second" "-x" "Registered second" RequiresArg.No
        (Func.user "other") 0).resolve "-x" = some "first" :=
  ⟨(C14_shared_identifier_owner
      ((IArger.new ["prog", "-x"]).addOptionEvent "first" "-x" "Registered first" RequiresArg.No
        (Func.user "notify") 0)
      (fresh_addOptionEvent (fresh_new _) _ _ _ _ _ _) [] [] "first" firstOption
      (firstOption_registered _) "second" "-x" "Registered second" RequiresArg.No 1 _
      (Or.inl rfl) "-x" (by rw [firstOption_registered]; decide) (by decide)
      (by rw [split_x]; simp) (fun e h => by cases h)).2.2.2.1,
   (C14_shared_identifier_owner
      ((IArger.new ["prog", "-x"]).addOptionEvent "first" "-x" "Registered first" RequiresArg.No
        (Func.user "notify") 0)
      (fresh_addOptionEvent (fresh_new _) _ _ _ _ _ _) [] [] "first" firstOption
      (firstOption_registered _) "second" "-x" "Registered second" RequiresArg.No 0 _
      (Or.inr ⟨Func.user "other", rfl⟩) "-x" (by rw [firstOption_registered]; decide)
      (by decide) (by rw [split_x]; simp) (fun e h => by cases h)).2.2.2.1⟩

/-- Counterexample to C14 as stated: `first` is registered before `second` with the same
identifier `-x`, and the registry iterates the newer entry first; the mapping stage then
leaves `-x` with the earlier registration, and `parse()` of `[prog, "-x"]` records `first`. -/
theorem C14_counterexample :
    sharedIdentifier ["prog", "-x"] 0 0 =
      ((IArger.new ["prog", "-x"]).addOption "first" "-x" "Registered first" RequiresArg.No
        0).addOption "second" "-x" "Registered second" RequiresArg.No 0 ∧
    (sharedIdentifier ["prog", "-x"] 0 0).getAllOptions = ["first", "second"] ∧
    (sharedIdentifier ["prog", "-x"] 0 0).resolve "-x" = some "first" ∧
    (sharedIdentifier ["prog", "-x"] 0 0).parse.outcome = Outcome.returned true ∧
    (sharedIdentifier ["prog", "-x"] 0 0).parse.state.getPassedOptions = ["first"] := by
  refine ⟨rfl, rfl, ?_, ?_, ?_⟩
  · simp [sharedIdentifier, IArger.new, IArger.addOption, split_x, IArger.resolve, mappingStage,
      UMap.assign, UMap.find]
  · simp [sharedIdentifier, IArger.new, IArger.addOption, split_x, IArger.parse, mappingStage,
      UMap.assign, UMap.find, parsingStage, parseToken, IArger.recordOption, IArger.optionData,
      UMap.subscript, callHelp, callVersion, enqueueEvent, triggeringStage]
  · simp [sharedIdentifier, IArger.new, IArger.addOption, split_x, IArger.parse, mappingStage,
      UMap.assign, UMap.find, parsingStage, parseToken, IArger.recordOption, IArger.optionData,
      UMap.subscript, callHelp, callVersion, enqueueEvent, triggeringStage,
      IArger.getPassedOptions]

/-! ## C17: the token after an option that requires an argument -/

/-- C17, amended: when the scan of a fresh parser matches an option `n` that requires an
argument and that does not leave `parse()` at that token by the help or version
short-circuit, and the following token `t` is non-empty and not the name of a registered
option, then, whether or not `t` is a registered identifier, the iteration stores `t` as the
argument of `n`, records `n` alone, queues nothing but the callback of `n`, and the scan
resumes at the token after `t`. -/
theorem C17_argument_token_consumed (s0 : IArger) (hf : s0.Fresh) (s : IArger) (tr : List Func)
    (op : Nat) (hr : Reaches s0 s tr op) (h : op < s.argv.length) (n : String) (o : Option)
    (hm : (s0.argv[op]?).bind s0.resolve = some n) (ho : s0.options.find n = some o)
    (hq : o.requiresArg = RequiresArg.Yes) (hh : ¬ helpStop s0 n) (hv : ¬ versionStop s0 n)
    (t : String) (ht : s0.argv[op + 1]? = some t) (hne : t ≠ "") (hnot : t ∉ s0.allOptions) :
    ∃ s' tr', parseToken s tr op h = Step.next s' tr' (op + 2) ∧
      Reaches s0 s' tr' (op + 2) ∧
      s'.getOptionArgument n = Except.ok t ∧
      s'.passedOptions = s.passedOptions ++ [n] ∧
      s'.triggerEvents =
        s.triggerEvents ++ (if s0.eventOptions.count n ≠ 0 then [o.func] else []) := by
  obtain ⟨hk, -, -, -⟩ := reaches_facts hf hr
  have hc := (reaches_config hr).1
  have ha : s.argv = s0.argv := hc.argv
  have hfind : s.identifiersToNames.find s.argv[op] = some n := by
    rw [(reaches_find hr h).2]; exact hm
  obtain ⟨o', ho', hq', hfn⟩ := reaches_registered hf hr ho
  have hod : (s.optionData n).requiresArg = RequiresArg.Yes := by
    rw [optionData_of_find ho', hq', hq]
  have hh' : ¬ helpStop s n := fun e => hh ((helpStop_congr hc n).mp e)
  have hv' : ¬ versionStop s n := fun e => hv ((versionStop_congr hc n).mp e)
  have hall : s.allOptions = s0.allOptions := hc.allOptions
  have hev : s.eventOptions = s0.eventOptions := hc.eventOptions
  have h1 : op + 1 < s.argv.length := by
    rw [ha]
    by_contra e
    rw [List.getElem?_eq_none (Nat.le_of_not_lt e)] at ht
    cases ht
  have hta : s.argv[op + 1] = t := by
    have e : s.argv[op + 1]? = some t := by rw [ha]; exact ht
    rw [List.getElem?_eq_getElem h1] at e
    exact Option.some.inj e
  have he : s.argv[op + 1] ≠ "" := by rw [hta]; exact hne
  have hcnt : s.allOptions.count s.argv[op + 1] = 0 := by
    rw [hta, hall]
    exact List.count_eq_zero.mpr hnot
  have hs' : parseToken s tr op h = Step.next _ _ (op + 1 + 1) :=
    @parseToken_argument s tr op h n hfind hh' hv' hod h1 he hcnt
  obtain ⟨m, p, hn⟩ := parseToken_next hs' hk
  have hmn : m = n := by
    have e := hn.token
    rw [List.getElem?_eq_getElem h, Option.some_bind, hfind] at e
    exact (Option.some.inj e).symm
  subst hmn
  have hp : p = o' := by
    have e := hn.registered
    rw [ho'] at e
    exact (Option.some.inj e).symm
  subst hp
  refine ⟨_, _, hs', Reaches.step h hr hs', ?_, hn.passedOptions, ?_⟩
  · rw [← hta]
    simp [IArger.getOptionArgument, UMap.at, IArger.storeArgument, UMap.find_assign]
    rfl
  · rw [hn.triggerEvents, hev, hfn]

theorem fileRead_identifier_argument :
    (fileRead ["prog", "-f", "-r"]).parse.outcome = Outcome.returned true ∧
    (fileRead ["prog", "-f", "-r"]).parse.state.getPassedOptions = ["file"] ∧
    (fileRead ["prog", "-f", "-r"]).parse.state.getOptionArgument "file" = Except.ok "-r" ∧
    (fileRead ["prog", "-f", "-r"]).parse.state.optionExists "read" = false := by
  rw [fileRead_eq]
  simp [IArger.parse, mappingStage, UMap.assign, UMap.find, parsingStage, parseToken,
    IArger.recordOption, IArger.optionData, IArger.storeArgument, UMap.subscript, callHelp,
    callVersion, enqueueEvent, triggeringStage, IArger.getPassedOptions,
    IArger.getOptionArgument, IArger.optionExists, UMap.at]
  rfl

theorem fileRead_name_argument :
    (fileRead ["prog", "-f", "file"]).parse.outcome =
      Outcome.thrown "Option file requires an argument." ∧
    (fileRead ["prog", "-f", "read"]).parse.outcome =
      Outcome.thrown "Option file requires an argument." := by
  rw [fileRead_eq, fileRead_eq]
  constructor <;>
  simp [IArger.parse, mappingStage, UMap.assign, UMap.find, parsingStage, parseToken,
    IArger.recordOption, IArger.optionData, IArger.storeArgument, UMap.subscript, callHelp,
    callVersion, enqueueEvent, triggeringStage] <;> rfl

/-- Witness of C17: with `file` (requires an argument) and `read` registered, the iteration
at `-f` of `[prog, "-f", "-r"]` stores the identifier `-r` as the argument of `file`, records
`file` alone and resumes behind `-r`; `parse()` succeeds with `getPassedOptions()` equal to
`["file"]`, and the names `file` and `read` in the place of `-r` give the missing-argument
error. -/
theorem C17_argument_token_consumed_witness :
    (∃ s' tr',
      parseToken (mappingStage (fileRead ["prog", "-f", "-r"])) [] 1 (by decide) =
        Step.next s' tr' (1 + 2) ∧
      Reaches (fileRead ["prog", "-f", "-r"]) s' tr' (1 + 2) ∧
      s'.getOptionArgument "file" = Except.ok "-r" ∧
      s'.passedOptions = (mappingStage (fileRead ["prog", "-f", "-r"])).passedOptions ++ ["file"] ∧
      s'.triggerEvents =
        (mappingStage (fileRead ["prog", "-f", "-r"])).triggerEvents ++
          (if (fileRead ["prog", "-f", "-r"]).eventOptions.count "file" ≠ 0
            then [fileOption.func] else [])) ∧
    (fileRead ["prog", "-f", "-r"]).resolve "-r" = some "read" ∧
    (fileRead ["prog", "-f", "-r"]).parse.outcome = Outcome.returned true ∧
    (fileRead ["prog", "-f", "-r"]).parse.state.getPassedOptions = ["file"] ∧
    (fileRead ["prog", "-f", "-r"]).parse.state.getOptionArgument "file" = Except.ok "-r" ∧
    (fileRead ["prog", "-f", "-r"]).parse.state.optionExists "read" = false ∧
    (fileRead ["prog", "-f", "file"]).parse.outcome =
      Outcome.thrown "Option file requires an argument." ∧
    (fileRead ["prog", "-f", "read"]).parse.outcome =
      Outcome.thrown "Option file requires an argument." :=
  ⟨C17_argument_token_consumed (fileRead ["prog", "-f", "-r"]) (fileRead_fresh _) _ [] 1
      Reaches.start (by decide) "file" fileOption
      (by rw [show (fileRead ["prog", "-f", "-r"]).argv[1]? = some "-f" from rfl,
            Option.some_bind, fileRead_resolve]; decide)
      (by rw [fileRead_eq]; decide)
      rfl
      (by unfold helpStop; decide)
      (by unfold versionStop; decide)
      "-r" rfl (by decide) (by rw [fileRead_eq]; decide),
    by rw [fileRead_resolve]; decide,
    fileRead_identifier_argument.1, fileRead_identifier_argument.2.1,
    fileRead_identifier_argument.2.2.1, fileRead_identifier_argument.2.2.2,
    fileRead_name_argument.1, fileRead_name_argument.2⟩

/-- Counterexample to C17 as stated: `help` is registered as requiring an argument and the
token `topic` that follows `-h` is non-empty and not the name of an option, yet `topic` is
not stored as the argument of `help` and the scan does not resume behind it: the iteration
at `-h` leaves `parse()` by the help short-circuit. -/
theorem C17_counterexample :
    ((helpWithArgument ["prog", "-h", "topic"]).Fresh ∧
    ((helpWithArgument ["prog", "-h", "topic"]).argv[1]?).bind
        (helpWithArgument ["prog", "-h", "topic"]).resolve = some "help" ∧
    ((helpWithArgument ["prog", "-h", "topic"]).options.find "help").map
        (fun o => o.requiresArg) = some RequiresArg.Yes ∧
    (helpWithArgument ["prog", "-h", "topic"]).argv[1 + 1]? = some "topic" ∧
    "topic" ∉ (helpWithArgument ["prog", "-h", "topic"]).getAllOptions ∧
    (helpWithArgument ["prog", "-h", "topic"]).parse.outcome = Outcome.returned false ∧
    (helpWithArgument ["prog", "-h", "topic"]).parse.state.getOptionArgument "help" =
      Except.ok "") ∧
    (∃ r, parseToken (mappingStage (helpWithArgument ["prog", "-h", "topic"])) [] 1 (by decide) =
      Step.exit r) := by
  refine ⟨?_, ?_⟩
  · rw [helpWithArgument_eq]
    refine ⟨⟨rfl, rfl, rfl⟩, ?_, ?_, rfl, by decide, ?_, ?_⟩
    · simp [IArger.resolve, mappingStage, UMap.assign, UMap.find]
    · simp [UMap.find]
    · simp [IArger.parse, mappingStage, UMap.assign, UMap.find, parsingStage, parseToken,
        IArger.recordOption, callHelp]
    · simp [IArger.parse, mappingStage, UMap.assign, UMap.find, parsingStage, parseToken,
        IArger.recordOption, callHelp, IArger.getOptionArgument, UMap.at, UMap.subscript]
      rfl
  · refine ⟨_, @parseToken_helpStop _ [] 1 (by decide) "help" ?_ ?_⟩
    · show (mappingStage (helpWithArgument ["prog", "-h", "topic"])).identifiersToNames.find "-h" =
        some "help"
      rw [helpWithArgument_eq]
      simp [mappingStage, UMap.assign, UMap.find]
    · rw [helpWithArgument_eq]
      exact ⟨rfl, rfl, rfl⟩

end iarglib
